import Mathlib

/-!
# Verification of the nomad evaluation broker (`nomad/eval_broker.go`)

Shallow embedding of the broker's data model and operations, together with
theorems settling the specification claims.

Modelling conventions:
* Go `string` is `String`, Go `int` / `time.Duration` / `time.Time` are `Int`
  (an absolute time of `0` plays the role of Go's zero `time.Time`), the
  dequeue-attempt counters are `Nat`.
* Go maps are association lists (`alookup` / `ainsert` / `aerase` below);
  `ainsert` replaces, `aerase` removes.  Missing-key reads that Go answers
  with a zero value are written with `Option.getD`.  A read of a
  `map[string]*SchedulerStats` that Go would follow with a dereference of a
  possibly-`nil` pointer is modelled with an explicit `Option`: the `none`
  result of an operation stands for the nil-pointer panic.
* The `uuid.Generate` token factory is modelled by a counter in the broker
  state (the spec treats tokens as an opaque source of unique strings).
* Timers are modelled by their effects: a nack timer firing is a `Nack`
  call, a wait timer firing is an `enqueueWaiting` call, and `Ack` receives
  the boolean result of `Timer.Stop` as an explicit oracle argument.
-/

namespace EvalBrokerProof

/-! ## Association-list maps (the model of Go maps) -/

/-- Lookup in an association list (first match wins). -/
def alookup [DecidableEq κ] : List (κ × α) → κ → Option α
  | [], _ => none
  | (k, v) :: t, k' => if k = k' then some v else alookup t k'

/-- Remove every binding of a key. -/
def aerase [DecidableEq κ] : List (κ × α) → κ → List (κ × α)
  | [], _ => []
  | (k, v) :: t, k' => if k = k' then aerase t k' else (k, v) :: aerase t k'

/-- Insert (replacing any previous binding of the key). -/
def ainsert [DecidableEq κ] (m : List (κ × α)) (k : κ) (v : α) : List (κ × α) :=
  (k, v) :: aerase m k

/-- The keys of an association list. -/
def akeys (m : List (κ × α)) : List κ := m.map Prod.fst

theorem akeys_cons (p : κ × α) (t : List (κ × α)) : akeys (p :: t) = p.1 :: akeys t := rfl

theorem alookup_ainsert_self [DecidableEq κ] (m : List (κ × α)) (k : κ) (v : α) :
    alookup (ainsert m k v) k = some v := by
  simp [ainsert, alookup]

theorem alookup_aerase [DecidableEq κ] (m : List (κ × α)) (k k' : κ) :
    alookup (aerase m k) k' = if k = k' then none else alookup m k' := by
  induction m with
  | nil => simp [aerase, alookup]
  | cons p t ih =>
    obtain ⟨a, v⟩ := p
    by_cases hak : a = k
    · subst hak
      by_cases hkk : a = k'
      · subst hkk; simpa [aerase, alookup] using ih
      · simpa [aerase, alookup, hkk] using ih
    · by_cases hak' : a = k'
      · subst hak'
        have hk : ¬ k = a := fun h => hak h.symm
        simp [aerase, alookup, hak, hk]
      · simpa [aerase, alookup, hak, hak'] using ih

theorem alookup_aerase_self [DecidableEq κ] (m : List (κ × α)) (k : κ) :
    alookup (aerase m k) k = none := by
  simp [alookup_aerase]

theorem alookup_aerase_ne [DecidableEq κ] (m : List (κ × α)) {k k' : κ} (h : k ≠ k') :
    alookup (aerase m k) k' = alookup m k' := by
  simp [alookup_aerase, h]

theorem alookup_ainsert_ne [DecidableEq κ] (m : List (κ × α)) {k k' : κ} (v : α) (h : k ≠ k') :
    alookup (ainsert m k v) k' = alookup m k' := by
  simp [ainsert, alookup, h, alookup_aerase_ne m h]

theorem alookup_ainsert [DecidableEq κ] (m : List (κ × α)) (k k' : κ) (v : α) :
    alookup (ainsert m k v) k' = if k = k' then some v else alookup m k' := by
  by_cases h : k = k'
  · subst h; simp [alookup_ainsert_self]
  · simp [alookup_ainsert_ne m v h, h]

theorem aerase_of_not_mem [DecidableEq κ] (m : List (κ × α)) (k : κ)
    (h : k ∉ akeys m) : aerase m k = m := by
  induction m with
  | nil => rfl
  | cons p t ih =>
    obtain ⟨a, v⟩ := p
    simp only [akeys, List.map_cons, List.mem_cons, not_or] at h
    have hak : ¬ a = k := fun hh => h.1 hh.symm
    have ht : aerase t k = t := ih (by simpa [akeys] using h.2)
    simp [aerase, hak, ht]

theorem mem_akeys_aerase [DecidableEq κ] (m : List (κ × α)) (k k' : κ) :
    k' ∈ akeys (aerase m k) ↔ k' ∈ akeys m ∧ k' ≠ k := by
  induction m with
  | nil => simp [aerase, akeys]
  | cons p t ih =>
    obtain ⟨a, v⟩ := p
    by_cases hak : a = k
    · subst hak
      rw [show aerase ((a, v) :: t) a = aerase t a by simp [aerase]]
      rw [ih, akeys_cons, List.mem_cons]
      constructor
      · rintro ⟨hm, hne⟩; exact ⟨Or.inr hm, hne⟩
      · rintro ⟨h1 | h1, hne⟩
        · exact absurd h1 hne
        · exact ⟨h1, hne⟩
    · rw [show aerase ((a, v) :: t) k = (a, v) :: aerase t k by simp [aerase, hak]]
      rw [akeys_cons, akeys_cons, List.mem_cons, List.mem_cons, ih]
      constructor
      · rintro (rfl | ⟨hm, hne⟩)
        · exact ⟨Or.inl rfl, fun hh => hak (hh ▸ rfl)⟩
        · exact ⟨Or.inr hm, hne⟩
      · rintro ⟨rfl | h1, hne⟩
        · exact Or.inl rfl
        · exact Or.inr ⟨h1, hne⟩

theorem mem_akeys_iff_alookup [DecidableEq κ] (m : List (κ × α)) (k : κ) :
    k ∈ akeys m ↔ (alookup m k).isSome := by
  induction m with
  | nil => simp [akeys, alookup]
  | cons p t ih =>
    obtain ⟨a, v⟩ := p
    by_cases h : a = k
    · subst h; simp [akeys, alookup]
    · simp only [akeys, List.map_cons, List.mem_cons, alookup, if_neg h]
      constructor
      · rintro (rfl | hm)
        · exact absurd rfl h
        · exact (ih.1 (by simpa [akeys] using hm))
      · intro hs
        exact Or.inr (by simpa [akeys] using ih.2 hs)

theorem akeys_aerase_nodup [DecidableEq κ] (m : List (κ × α)) (k : κ)
    (h : (akeys m).Nodup) : (akeys (aerase m k)).Nodup := by
  induction m with
  | nil => simp [aerase, akeys]
  | cons p t ih =>
    obtain ⟨a, v⟩ := p
    simp only [akeys, List.map_cons, List.nodup_cons] at h
    by_cases hak : a = k
    · subst hak
      simpa [aerase] using ih h.2
    · simp only [aerase, if_neg hak, akeys, List.map_cons, List.nodup_cons]
      refine ⟨?_, ih h.2⟩
      intro hm
      have := (mem_akeys_aerase t k a).1 (by simpa [akeys] using hm)
      exact h.1 (by simpa [akeys] using this.1)

theorem akeys_ainsert_nodup [DecidableEq κ] (m : List (κ × α)) (k : κ) (v : α)
    (h : (akeys m).Nodup) : (akeys (ainsert m k v)).Nodup := by
  simp only [ainsert, akeys, List.map_cons, List.nodup_cons]
  refine ⟨?_, akeys_aerase_nodup m k h⟩
  intro hm
  have := (mem_akeys_aerase m k k).1 (by simpa [akeys] using hm)
  exact this.2 rfl

/-- Erasing a present key from a nodup-key list removes exactly one entry. -/
theorem length_aerase_of_alookup [DecidableEq κ] (m : List (κ × α)) (k : κ) (v : α)
    (hnd : (akeys m).Nodup) (h : alookup m k = some v) :
    (aerase m k).length + 1 = m.length := by
  induction m with
  | nil => simp [alookup] at h
  | cons p t ih =>
    obtain ⟨a, w⟩ := p
    simp only [akeys, List.map_cons, List.nodup_cons] at hnd
    by_cases hak : a = k
    · subst hak
      have hnt : a ∉ akeys t := by simpa [akeys] using hnd.1
      simp [aerase, aerase_of_not_mem t a hnt]
    · simp only [alookup, if_neg hak] at h
      have := ih hnd.2 h
      simp only [aerase, if_neg hak, List.length_cons]
      omega

theorem length_ainsert_of_not_mem [DecidableEq κ] (m : List (κ × α)) (k : κ) (v : α)
    (h : k ∉ akeys m) : (ainsert m k v).length = m.length + 1 := by
  simp [ainsert, aerase_of_not_mem m k h]

/-! ## The evaluation record (`structs.Evaluation`, the fields the broker reads)

The `structs` package is outside the broker file; the fields below are the
ones `eval_broker.go` accesses, with the types given by the design document
(§3 Data model): `id`, the job key `jobID`/`nspace` (Go `Namespace`),
the scheduler class `etype` (Go `Type`), `priority`, `createIndex`,
`wait` (relative delay) and `waitUntil` (absolute time, `0` = unset). -/

structure Eval where
  id : String
  jobID : String
  nspace : String
  etype : String
  priority : Int
  createIndex : Nat
  wait : Int
  waitUntil : Int
deriving DecidableEq, Repr

/-- `structs.NamespacedID` — the job key; `id` is the job ID. -/
structure NamespacedID where
  id : String
  nspace : String
deriving DecidableEq, Repr

/-- The job key of an evaluation, as built at the top of `enqueueLocked`. -/
def evalKey (e : Eval) : NamespacedID := ⟨e.jobID, e.nspace⟩

/-- `PendingEvaluations.Less` with the indices replaced by the two elements
compared: the comparison `container/heap` uses.  Source:

    if p[i].JobID != p[j].JobID && p[i].Priority != p[j].Priority {
        return !(p[i].Priority < p[j].Priority)
    }
    return p[i].CreateIndex < p[j].CreateIndex
-/
def evalLess (a b : Eval) : Bool :=
  if a.jobID ≠ b.jobID ∧ a.priority ≠ b.priority then
    !(decide (a.priority < b.priority))
  else
    decide (a.createIndex < b.createIndex)

/-! ## Go `container/heap` on a slice

`PendingEvaluations` implements `heap.Interface` with `Less` above,
`Swap i j`, `Push` appending and `Pop` removing the LAST element.  The
`container/heap` algorithms (`up`, `down`, `heap.Push`, `heap.Pop`) are
reproduced below.  `heapUpF`/`heapDownF` carry an explicit fuel argument to
make them structurally recursive; the fuel passed by `heapUp`/`heapDown`
is large enough that the cutoff is never reached (`up` strictly decreases
its index, `down` strictly increases it below `n`). -/

/-- Compare the elements at two indices (out-of-range indices make the Go
code panic; they are never reached, and compare as `false` here). -/
def lessAt (lt : Eval → Eval → Bool) (xs : List Eval) (i j : Nat) : Bool :=
  match xs.get? i, xs.get? j with
  | some a, some b => lt a b
  | _, _ => false

/-- Swap two (in-range) indices of a list. -/
def listSwap (xs : List Eval) (i j : Nat) : List Eval :=
  match xs.get? i, xs.get? j with
  | some a, some b => (xs.set i b).set j a
  | _, _ => xs

/-- `container/heap`'s `up(h, j)`. -/
def heapUpF (lt : Eval → Eval → Bool) : Nat → List Eval → Nat → List Eval
  | 0, xs, _ => xs
  | fuel + 1, xs, j =>
    if j = 0 then xs
    else
      let i := (j - 1) / 2
      if lessAt lt xs j i then heapUpF lt fuel (listSwap xs i j) i else xs

def heapUp (lt : Eval → Eval → Bool) (xs : List Eval) (j : Nat) : List Eval :=
  heapUpF lt j xs j

/-- The child index `down` picks: the left child `2i+1`, or the right child
when it exists and compares `Less` (Go's short-circuit `j2 < n && h.Less(j2, j1)`). -/
def downChild (lt : Eval → Eval → Bool) (xs : List Eval) (i n : Nat) : Nat :=
  let j1 := 2 * i + 1
  if j1 + 1 < n then (if lessAt lt xs (j1 + 1) j1 then j1 + 1 else j1) else j1

/-- `container/heap`'s `down(h, i, n)` (the boolean result is unused by
`heap.Push`/`heap.Pop` on the popped path we model). -/
def heapDownF (lt : Eval → Eval → Bool) : Nat → List Eval → Nat → Nat → List Eval
  | 0, xs, _, _ => xs
  | fuel + 1, xs, i, n =>
    if 2 * i + 1 < n then
      let j := downChild lt xs i n
      if lessAt lt xs j i then heapDownF lt fuel (listSwap xs i j) j n else xs
    else xs

def heapDown (lt : Eval → Eval → Bool) (xs : List Eval) (i n : Nat) : List Eval :=
  heapDownF lt n xs i n

/-- `heap.Push(h, x)`: append, then sift up from the last index. -/
def heapPush (lt : Eval → Eval → Bool) (xs : List Eval) (x : Eval) : List Eval :=
  heapUp lt (xs ++ [x]) xs.length

/-- `heap.Pop(h)`: swap the root with the last element, sift down over the
first `n-1` elements, then remove and return the last element (which is the
old root).  Returns `none` on an empty heap (Go would panic). -/
def heapPop (lt : Eval → Eval → Bool) (xs : List Eval) : Option (Eval × List Eval) :=
  match xs with
  | [] => none
  | _ :: _ =>
    let n := xs.length
    let ys := listSwap xs 0 (n - 1)
    let zs := heapDown lt ys 0 (n - 1)
    match zs.getLast? with
    | none => none
    | some e => some (e, zs.dropLast)

/-- `PendingEvaluations.Peek`: the LAST element of the slice.  (This is what
the source returns; note that it is not the heap root.) -/
def pendingPeek (xs : List Eval) : Option Eval := xs.getLast?

/-! ### The heap operations permute their input -/

theorem cons_set_perm (t : List Eval) (m : Nat) (a b : Eval) (h : t.get? m = some b) :
    (b :: t.set m a).Perm (a :: t) := by
  induction t generalizing m with
  | nil => simp at h
  | cons c s ih =>
    cases m with
    | zero =>
      simp only [List.get?_cons_zero, Option.some.injEq] at h
      subst h
      simp only [List.set_cons_zero]
      exact List.Perm.swap _ _ _
    | succ k =>
      simp only [List.get?_cons_succ] at h
      have ih' := ih k h
      have p1 : (b :: c :: s.set k a).Perm (c :: b :: s.set k a) := List.Perm.swap c b _
      have p2 : (c :: b :: s.set k a).Perm (c :: a :: s) := List.Perm.cons c ih'
      have p3 : (c :: a :: s).Perm (a :: c :: s) := List.Perm.swap a c s
      exact ((p1.trans p2).trans p3)

theorem set_set_swap_perm (xs : List Eval) (i j : Nat) (a b : Eval)
    (hi : xs.get? i = some a) (hj : xs.get? j = some b) :
    ((xs.set i b).set j a).Perm xs := by
  induction xs generalizing i j with
  | nil => simp at hi
  | cons x t ih =>
    cases i with
    | zero =>
      cases j with
      | zero =>
        simp only [List.get?_cons_zero, Option.some.injEq] at hi hj
        subst hi; subst hj
        simp only [List.set_cons_zero]
        exact List.Perm.refl _
      | succ k =>
        simp only [List.get?_cons_zero, Option.some.injEq, List.get?_cons_succ] at hi hj
        subst hi
        exact cons_set_perm t k _ _ hj
    | succ m =>
      cases j with
      | zero =>
        simp only [List.get?_cons_zero, Option.some.injEq, List.get?_cons_succ] at hi hj
        subst hj
        exact cons_set_perm t m _ _ hi
      | succ k =>
        simp only [List.get?_cons_succ] at hi hj
        exact List.Perm.cons x (ih m k hi hj)

theorem listSwap_perm (xs : List Eval) (i j : Nat) : (listSwap xs i j).Perm xs := by
  unfold listSwap
  match h1 : xs.get? i, h2 : xs.get? j with
  | none, _ => exact List.Perm.refl xs
  | some a, none => exact List.Perm.refl xs
  | some a, some b => exact set_set_swap_perm xs i j a b h1 h2

theorem listSwap_length (xs : List Eval) (i j : Nat) :
    (listSwap xs i j).length = xs.length :=
  (listSwap_perm xs i j).length_eq

theorem heapUpF_perm (lt : Eval → Eval → Bool) (fuel : Nat) :
    ∀ xs j, (heapUpF lt fuel xs j).Perm xs := by
  induction fuel with
  | zero => intro xs j; exact List.Perm.refl xs
  | succ f ih =>
    intro xs j
    unfold heapUpF
    by_cases h0 : j = 0
    · simp [h0]
    · simp only [h0, if_false]
      by_cases hl : lessAt lt xs j ((j - 1) / 2)
      · simp only [hl, if_true]
        exact (ih _ _).trans (listSwap_perm xs _ j)
      · simp [hl]

theorem heapDownF_perm (lt : Eval → Eval → Bool) (fuel : Nat) :
    ∀ xs i n, (heapDownF lt fuel xs i n).Perm xs := by
  induction fuel with
  | zero => intro xs i n; exact List.Perm.refl xs
  | succ f ih =>
    intro xs i n
    unfold heapDownF
    by_cases h1 : 2 * i + 1 < n
    · simp only [h1, if_true]
      by_cases hl : lessAt lt xs (downChild lt xs i n) i
      · simp only [hl, if_true]
        exact (ih _ _ _).trans (listSwap_perm xs i _)
      · simp [hl]
    · simp [h1]

theorem heapUp_perm (lt : Eval → Eval → Bool) (xs : List Eval) (j : Nat) :
    (heapUp lt xs j).Perm xs := heapUpF_perm lt j xs j

theorem heapDown_perm (lt : Eval → Eval → Bool) (xs : List Eval) (i n : Nat) :
    (heapDown lt xs i n).Perm xs := heapDownF_perm lt n xs i n

theorem heapPush_perm (lt : Eval → Eval → Bool) (xs : List Eval) (x : Eval) :
    (heapPush lt xs x).Perm (x :: xs) :=
  (heapUp_perm lt (xs ++ [x]) xs.length).trans (List.perm_append_singleton x xs)

theorem mem_heapPush (lt : Eval → Eval → Bool) (xs : List Eval) (x e : Eval) :
    e ∈ heapPush lt xs x ↔ e = x ∨ e ∈ xs := by
  rw [(heapPush_perm lt xs x).mem_iff, List.mem_cons]

theorem heapPop_perm (lt : Eval → Eval → Bool) (xs : List Eval) (e : Eval)
    (rest : List Eval) (h : heapPop lt xs = some (e, rest)) : xs.Perm (e :: rest) := by
  match xs with
  | [] => simp [heapPop] at h
  | y :: t =>
    simp only [heapPop] at h
    set zs := heapDown lt (listSwap (y :: t) 0 ((y :: t).length - 1)) 0 ((y :: t).length - 1) with hzs
    have hperm : zs.Perm (y :: t) :=
      (heapDown_perm lt _ _ _).trans (listSwap_perm (y :: t) 0 _)
    match hl : zs.getLast? with
    | none =>
      rw [hl] at h; exact absurd h (by simp)
    | some e' =>
      rw [hl] at h
      simp only [Option.some.injEq, Prod.mk.injEq] at h
      obtain ⟨rfl, rfl⟩ := h
      have hne : zs ≠ [] := by
        intro hz; rw [hz] at hl; simp at hl
      have hgl0 := List.getLast?_eq_getLast zs hne
      rw [hl] at hgl0
      have hgl : zs.getLast hne = e' := by
        injection hgl0 with hh; exact hh.symm
      have hsplit : zs.dropLast ++ [e'] = zs := by
        rw [← hgl]; exact List.dropLast_append_getLast hne
      have h2 : zs.Perm (e' :: zs.dropLast) := by
        have hp := List.perm_append_singleton e' zs.dropLast
        rw [hsplit] at hp
        exact hp
      exact hperm.symm.trans h2

theorem heapPop_isSome (lt : Eval → Eval → Bool) (xs : List Eval) (hne : xs ≠ []) :
    ∃ e rest, heapPop lt xs = some (e, rest) := by
  match xs with
  | [] => exact absurd rfl hne
  | y :: t =>
    simp only [heapPop]
    set zs := heapDown lt (listSwap (y :: t) 0 ((y :: t).length - 1)) 0 ((y :: t).length - 1) with hzs
    have hperm : zs.Perm (y :: t) :=
      (heapDown_perm lt _ _ _).trans (listSwap_perm (y :: t) 0 _)
    have hzne : zs ≠ [] := by
      intro hz
      have := hperm.length_eq
      rw [hz] at this
      simp at this
    match hl : zs.getLast? with
    | none =>
      rw [List.getLast?_eq_getLast zs hzne] at hl
      exact absurd hl (by simp)
    | some e' => exact ⟨e', zs.dropLast, rfl⟩

/-! ## Broker statistics (`BrokerStats`, `SchedulerStats`) -/

structure SchedulerStats where
  ready : Int
  unacked : Int
deriving DecidableEq, Repr

structure BrokerStats where
  totalReady : Int
  totalUnacked : Int
  totalBlocked : Int
  totalWaiting : Int
  bySched : List (String × SchedulerStats)
deriving DecidableEq, Repr

/-! ## The broker state (`EvalBroker`)

Fields follow the Go struct.  Timers are represented by their pending
effects: `timeWait` stores the evaluation each wait timer will enqueue,
an unack entry's nack timer is modelled by the `Nack` step of the
transition relation, and the `Timer.Stop` outcome consulted by `Ack` is an
oracle argument.  `delayHeap` is the external `lib/delayheap` package
(not part of this file's source); only membership is relevant to the
claims, so it is kept as a list and the delayed-evals watcher step may
admit any element (see `delayedEvalFire`).  `tokenCtr` models the
`uuid.Generate` unique-token factory; tokens are naturals. -/

structure BrokerState where
  nackTimeout : Int
  deliveryLimit : Int
  enabled : Bool
  stats : BrokerStats
  evals : List (String × Nat)
  jobEvals : List (NamespacedID × String)
  blocked : List (NamespacedID × List Eval)
  ready : List (String × List Eval)
  unack : List (String × (Eval × Nat))
  waiting : List String
  requeue : List (Nat × Eval)
  timeWait : List (String × Eval)
  delayHeap : List Eval
  initialNackDelay : Int
  subsequentNackDelay : Int
  tokenCtr : Nat
deriving DecidableEq, Repr

/-- The reserved `_failed` scheduler class. -/
def failedQueue : String := "_failed"

/-- The dequeue-attempt counter of an id (`b.evals[id]`, zero if absent). -/
def cntOf (b : BrokerState) (id : String) : Nat :=
  (alookup b.evals id).getD 0

/-- `NewEvalBroker`: fails on a negative timeout, starts disabled and empty. -/
def NewEvalBroker (timeout initialNackDelay subsequentNackDelay : Int)
    (deliveryLimit : Int) : Option BrokerState :=
  if timeout < 0 then none
  else some
    { nackTimeout := timeout
      deliveryLimit := deliveryLimit
      enabled := false
      stats := { totalReady := 0, totalUnacked := 0, totalBlocked := 0,
                 totalWaiting := 0, bySched := [] }
      evals := []
      jobEvals := []
      blocked := []
      ready := []
      unack := []
      waiting := []
      requeue := []
      timeWait := []
      delayHeap := []
      initialNackDelay := initialNackDelay
      subsequentNackDelay := subsequentNackDelay
      tokenCtr := 0 }

/-- The tail of `enqueueLocked` once the eval goes to the ready queue:
create the pending queue and wait channel if needed, push, update stats. -/
def admitReady (b : BrokerState) (eval : Eval) (queue : String) : BrokerState :=
  let pending := (alookup b.ready queue).getD []
  let waiting' :=
    if (alookup b.ready queue).isSome then b.waiting
    else if queue ∈ b.waiting then b.waiting else queue :: b.waiting
  let pending' := heapPush evalLess pending eval
  let bySched := (alookup b.stats.bySched queue).getD ⟨0, 0⟩
  { b with
    ready := ainsert b.ready queue pending'
    waiting := waiting'
    stats := { b.stats with
      totalReady := b.stats.totalReady + 1
      bySched := ainsert b.stats.bySched queue
        { bySched with ready := bySched.ready + 1 } } }

/-- `enqueueLocked(eval, queue)`. -/
def enqueueLocked (b : BrokerState) (eval : Eval) (queue : String) : BrokerState :=
  if !b.enabled then b
  else
    let namespacedID := evalKey eval
    let pendingEval := (alookup b.jobEvals namespacedID).getD ""
    if pendingEval = "" then
      admitReady { b with jobEvals := ainsert b.jobEvals namespacedID eval.id } eval queue
    else if pendingEval ≠ eval.id then
      let blocked := (alookup b.blocked namespacedID).getD []
      { b with
        blocked := ainsert b.blocked namespacedID (heapPush evalLess blocked eval)
        stats := { b.stats with totalBlocked := b.stats.totalBlocked + 1 } }
    else
      admitReady b eval queue

/-- `processWaitingEnqueue(eval)`: arm a wait timer (recorded in `timeWait`). -/
def processWaitingEnqueue (b : BrokerState) (eval : Eval) : BrokerState :=
  { b with
    timeWait := ainsert b.timeWait eval.id eval
    stats := { b.stats with totalWaiting := b.stats.totalWaiting + 1 } }

/-- `processEnqueue(eval, token)`; the empty Go token is `none`. -/
def processEnqueue (b : BrokerState) (eval : Eval) (token : Option Nat) : BrokerState :=
  if !b.enabled then b
  else if (alookup b.evals eval.id).isSome then
    match token with
    | none => b
    | some t =>
      match alookup b.unack eval.id with
      | some (_, tok) => if tok = t then { b with requeue := ainsert b.requeue t eval } else b
      | none => b
  else
    let b := { b with evals := ainsert b.evals eval.id 0 }
    if eval.wait > 0 then processWaitingEnqueue b eval
    else if eval.waitUntil ≠ 0 then
      { b with
        delayHeap := b.delayHeap ++ [eval]
        stats := { b.stats with totalWaiting := b.stats.totalWaiting + 1 } }
    else enqueueLocked b eval eval.etype

/-- `Enqueue(eval)`. -/
def Enqueue (b : BrokerState) (eval : Eval) : BrokerState :=
  processEnqueue b eval none

/-- `EnqueueAll(evals)`: `processEnqueue` for each pair under one lock. -/
def EnqueueAll (b : BrokerState) (pairs : List (Eval × Option Nat)) : BrokerState :=
  pairs.foldl (fun b p => processEnqueue b p.1 p.2) b

/-- A wait timer firing (`enqueueWaiting(eval)`). -/
def enqueueWaiting (b : BrokerState) (eval : Eval) : BrokerState :=
  let b := { b with
    timeWait := aerase b.timeWait eval.id
    stats := { b.stats with totalWaiting := b.stats.totalWaiting - 1 } }
  enqueueLocked b eval eval.etype

/-- `flush()`: close wait channels, stop timers, reinitialize every
container and reset statistics.  (The `requeue` table is NOT reset by the
source.) -/
def flush (b : BrokerState) : BrokerState :=
  { b with
    waiting := []
    stats := { totalReady := 0, totalUnacked := 0, totalBlocked := 0,
               totalWaiting := 0, bySched := [] }
    evals := []
    jobEvals := []
    blocked := []
    ready := []
    unack := []
    timeWait := []
    delayHeap := [] }

/-- `SetEnabled(enabled)`: set the flag; flush on disable. -/
def SetEnabled (b : BrokerState) (enabled : Bool) : BrokerState :=
  let b := { b with enabled := enabled }
  if !enabled then flush b else b

/-! ## Dequeue -/

/-- The scan loop of `scanForSchedulers`: accumulate the set of classes
whose (`Peek`ed) head has the maximum priority seen so far.
`eligiblePriority` starts at Go's zero value `0`. -/
def scanLoop (b : BrokerState) : List String → List String → Int → List String × Int
  | [], acc, pri => (acc, pri)
  | sched :: rest, acc, pri =>
    match alookup b.ready sched with
    | none => scanLoop b rest acc pri
    | some pending =>
      match pendingPeek pending with
      | none => scanLoop b rest acc pri
      | some hd =>
        if acc.length = 0 ∨ hd.priority > pri then scanLoop b rest [sched] hd.priority
        else if pri > hd.priority then scanLoop b rest acc pri
        else if pri = hd.priority then scanLoop b rest (acc ++ [sched]) pri
        else scanLoop b rest acc pri

/-- `dequeueForSched(sched)`: pop the ready heap, mint a token, arm the nack
timer (a future `Nack` step), move to unack, bump the attempt counter and
the stats.  `none` models a Go panic (pop of an empty heap, or the nil
`SchedulerStats` dereference in the stats update). -/
def dequeueForSched (b : BrokerState) (sched : String) :
    Option ((Eval × Nat) × BrokerState) :=
  let pending := (alookup b.ready sched).getD []
  match heapPop evalLess pending with
  | none => none
  | some (eval, pending') =>
    let token := b.tokenCtr
    let b1 := { b with
      ready := ainsert b.ready sched pending'
      unack := ainsert b.unack eval.id (eval, token)
      evals := ainsert b.evals eval.id (cntOf b eval.id + 1)
      tokenCtr := b.tokenCtr + 1 }
    match alookup b1.stats.bySched sched with
    | none => none
    | some sls =>
      some ((eval, token),
        { b1 with stats := { b1.stats with
            totalReady := b1.stats.totalReady - 1
            totalUnacked := b1.stats.totalUnacked + 1
            bySched := ainsert b1.stats.bySched sched
              { sls with ready := sls.ready - 1, unacked := sls.unacked + 1 } } })

/-- Result of one `scanForSchedulers` call. -/
inductive ScanResult where
  | err (msg : String)
  | empty
  | got (eval : Eval) (token : Nat) (post : BrokerState)
  | panic
deriving DecidableEq, Repr

/-- `scanForSchedulers(schedulers)`.  `pick` resolves `rand.Intn(n)` when
several classes tie for the maximum head priority. -/
def scanForSchedulers (b : BrokerState) (schedulers : List String) (pick : Nat) :
    ScanResult :=
  if !b.enabled then .err "eval broker disabled"
  else
    let elig := (scanLoop b schedulers [] 0).1
    match elig with
    | [] => .empty
    | [s] =>
      match dequeueForSched b s with
      | none => .panic
      | some ((e, t), b') => .got e t b'
    | _ :: _ :: _ =>
      let s := elig.getD (pick % elig.length) ""
      match dequeueForSched b s with
      | none => .panic
      | some ((e, t), b') => .got e t b'

/-- The state after one dequeue scan (unchanged unless work was handed out;
a Go panic aborts the process and is modelled as no transition). -/
def dequeueStep (b : BrokerState) (schedulers : List String) (pick : Nat) : BrokerState :=
  match scanForSchedulers b schedulers pick with
  | .got _ _ b' => b'
  | _ => b

/-! ## Ack / Nack -/

def ackMsgNotFound : String := "Evaluation ID not found"
def ackMsgTokenMismatch : String := "Token does not match for Evaluation ID"
def ackMsgExpired : String := "Evaluation ID Ackd after Nack timer expiration"

/-- `Ack(evalID, token)`.  `timerStopped` is the result of
`unack.NackTimer.Stop()` (`false` = the timer had already fired).  The
result is `none` for the nil-`SchedulerStats` dereference panic, otherwise
`some (state, error?)`.  The `defer delete(b.requeue, token)` runs on every
return path and is applied by `finish`. -/
def Ack (b : BrokerState) (evalID : String) (token : Nat) (timerStopped : Bool) :
    Option (BrokerState × Option String) :=
  let finish := fun (st : BrokerState) (r : Option String) =>
    some ({ st with requeue := aerase st.requeue token }, r)
  match alookup b.unack evalID with
  | none => finish b (some ackMsgNotFound)
  | some (eval, tok) =>
    if tok ≠ token then finish b (some ackMsgTokenMismatch)
    else if !timerStopped then finish b (some ackMsgExpired)
    else
      let queue := if (cntOf b evalID : Int) > b.deliveryLimit then failedQueue
                   else eval.etype
      match alookup b.stats.bySched queue with
      | none => none
      | some sls =>
        let b1 := { b with
          stats := { b.stats with
            totalUnacked := b.stats.totalUnacked - 1
            bySched := ainsert b.stats.bySched queue
              { sls with unacked := sls.unacked - 1 } }
          unack := aerase b.unack evalID
          evals := aerase b.evals evalID }
        let nsid := evalKey eval
        let b2 := { b1 with jobEvals := aerase b1.jobEvals nsid }
        let b3 :=
          match alookup b2.blocked nsid with
          | none => b2
          | some blockedQ =>
            if blockedQ.length ≠ 0 then
              match heapPop evalLess blockedQ with
              | none => b2
              | some (beval, rest) =>
                let b2' := { b2 with
                  blocked := if rest.length > 0 then ainsert b2.blocked nsid rest
                             else aerase b2.blocked nsid
                  stats := { b2.stats with totalBlocked := b2.stats.totalBlocked - 1 } }
                enqueueLocked b2' beval beval.etype
            else b2
        let b4 :=
          match alookup b3.requeue token with
          | some ev => processEnqueue b3 ev none
          | none => b3
        finish b4 none

/-- `nackReenqueueDelay(eval, prevDequeues)`. -/
def nackReenqueueDelay (b : BrokerState) (eval : Eval) (prevDequeues : Int) : Int :=
  if prevDequeues ≤ 0 then 0
  else if prevDequeues = 1 then b.initialNackDelay
  else (prevDequeues - 1) * b.subsequentNackDelay

/-- `Nack(evalID, token)`.  `none` models the nil-`SchedulerStats`
dereference panic. -/
def Nack (b : BrokerState) (evalID : String) (token : Nat) :
    Option (BrokerState × Option String) :=
  let b0 : BrokerState := { b with requeue := aerase b.requeue token }
  match alookup b0.unack evalID with
  | none => some (b0, some ackMsgNotFound)
  | some (eval, tok) =>
    if tok ≠ token then some (b0, some ackMsgTokenMismatch)
    else
      let b1 : BrokerState := { b0 with unack := aerase b0.unack evalID }
      match alookup b1.stats.bySched eval.etype with
      | none => none
      | some sls =>
        let b2 : BrokerState := { b1 with stats := { b1.stats with
            totalUnacked := b1.stats.totalUnacked - 1
            bySched := ainsert b1.stats.bySched eval.etype
              { sls with unacked := sls.unacked - 1 } } }
        let dequeues : Nat := cntOf b2 evalID
        if (dequeues : Int) ≥ b2.deliveryLimit then
          some (enqueueLocked b2 eval failedQueue, none)
        else
          let delay : Int := nackReenqueueDelay b2 eval (dequeues : Int)
          let e : Eval := { eval with wait := delay }
          if e.wait > 0 then some (processWaitingEnqueue b2 e, none)
          else some (enqueueLocked b2 e e.etype, none)

/-- The state after an `Ack` call (a panic is no transition). -/
def ackStep (b : BrokerState) (evalID : String) (token : Nat) (timerStopped : Bool) :
    BrokerState :=
  match Ack b evalID token timerStopped with
  | some (b', _) => b'
  | none => b

/-- The state after a `Nack` call (explicit or from a nack timer firing). -/
def nackStep (b : BrokerState) (evalID : String) (token : Nat) : BrokerState :=
  match Nack b evalID token with
  | some (b', _) => b'
  | none => b

/-- Modelled from the spec: the delayed-evals watcher (§4.8) together with
the external `lib/delayheap` package (not part of the broker source file).
On the timer firing it takes the lock, removes the fired evaluation from
the delay heap by its ID (`delayHeap.Remove`), decrements `TotalWaiting`
and admits the evaluation on its own type.  The watcher fires for the
earliest deadline; since the claims only depend on membership, the step
relation allows any present element to fire. -/
def delayedEvalFire (b : BrokerState) (eval : Eval) : BrokerState :=
  let b1 := { b with
    delayHeap := b.delayHeap.filter (fun e => e.id ≠ eval.id)
    stats := { b.stats with totalWaiting := b.stats.totalWaiting - 1 } }
  enqueueLocked b1 eval eval.etype

/-- `Stats()`: a snapshot (copy) of the statistics. -/
def Stats (b : BrokerState) : BrokerStats := b.stats

/-! ## The transition relation

One step per broker entry point.  Evaluations fed to `Enqueue`/`EnqueueAll`
carry a non-empty ID (the spec: `id` is a unique identifier produced by the
external token factory; Go's zero string stands for absence in
`jobEvals`).  Timer steps fire only for timers that are actually armed in
the state: `flush` stops every timer on disable. -/

inductive Step : BrokerState → BrokerState → Prop where
  | setEnabled (b : BrokerState) (en : Bool) : Step b (SetEnabled b en)
  | enqueue (b : BrokerState) (eval : Eval) (h : eval.id ≠ "") :
      Step b (Enqueue b eval)
  | enqueueAll (b : BrokerState) (pairs : List (Eval × Option Nat))
      (h : ∀ p ∈ pairs, p.1.id ≠ "") : Step b (EnqueueAll b pairs)
  | dequeue (b : BrokerState) (schedulers : List String) (pick : Nat) :
      Step b (dequeueStep b schedulers pick)
  | ack (b : BrokerState) (evalID : String) (token : Nat) (timerStopped : Bool) :
      Step b (ackStep b evalID token timerStopped)
  | nack (b : BrokerState) (evalID : String) (token : Nat) :
      Step b (nackStep b evalID token)
  | waitFire (b : BrokerState) (id : String) (eval : Eval)
      (h : alookup b.timeWait id = some eval) : Step b (enqueueWaiting b eval)
  | delayFire (b : BrokerState) (eval : Eval) (h : eval ∈ b.delayHeap) :
      Step b (delayedEvalFire b eval)

/-- States reachable from a freshly constructed broker. -/
def Reachable (b0 b : BrokerState) : Prop := Relation.ReflTransGen Step b0 b

/-- `b0` is a freshly constructed broker. -/
def IsInit (b0 : BrokerState) : Prop :=
  ∃ timeout initialNackDelay subsequentNackDelay deliveryLimit,
    NewEvalBroker timeout initialNackDelay subsequentNackDelay deliveryLimit = some b0

/-- The evaluation a `ScanResult` handed out, if any. -/
def scanEval : ScanResult → Option Eval
  | .got e _ _ => some e
  | _ => none

/-! ## Occupancy multisets

The partition invariant («each present id is in exactly one of
ready/blocked/wait/delay/unack», spec §3 invariant 1) is tracked through
the multiset of ids resident in the five containers. -/

/-- The ids of a list of evaluations, as a multiset. -/
def evIds (l : List Eval) : Multiset String := (l.map Eval.id : List String)

/-- All ids held in the list-valued association list (ready / blocked). -/
def idsMS [DecidableEq κ] (m : List (κ × List Eval)) : Multiset String :=
  ((m.map (fun p => p.2.map Eval.id)).flatten : List String)

/-- The keys of an association list, as a multiset. -/
def keysMS [DecidableEq κ] (m : List (κ × α)) : Multiset κ := (akeys m : List κ)

/-- Everything resident in the broker's five exclusive containers. -/
def occMS (b : BrokerState) : Multiset String :=
  idsMS b.ready + idsMS b.blocked + keysMS b.unack + keysMS b.timeWait +
    evIds b.delayHeap

theorem idsMS_nil [DecidableEq κ] : idsMS ([] : List (κ × List Eval)) = 0 := rfl

theorem idsMS_cons [DecidableEq κ] (k : κ) (l : List Eval) (m : List (κ × List Eval)) :
    idsMS ((k, l) :: m) = evIds l + idsMS m := by
  simp [idsMS, evIds]

theorem keysMS_cons [DecidableEq κ] (p : κ × α) (m : List (κ × α)) :
    keysMS (p :: m) = p.1 ::ₘ keysMS m := by
  simp [keysMS, akeys]

theorem idsMS_ainsert [DecidableEq κ] (m : List (κ × List Eval)) (k : κ) (l : List Eval) :
    idsMS (ainsert m k l) = evIds l + idsMS (aerase m k) := by
  simp [ainsert, idsMS_cons]

theorem keysMS_ainsert [DecidableEq κ] (m : List (κ × α)) (k : κ) (v : α) :
    keysMS (ainsert m k v) = k ::ₘ keysMS (aerase m k) := by
  simp [ainsert, keysMS_cons]

/-- With nodup keys, looking up `k` splits the ids of `m` into the ids at
`k` plus the ids elsewhere. -/
theorem alookup_cons_self [DecidableEq κ] (a : κ) (w : α) (t : List (κ × α)) :
    alookup ((a, w) :: t) a = some w := by
  simp [alookup]

theorem idsMS_split [DecidableEq κ] (m : List (κ × List Eval)) (k : κ) (l : List Eval)
    (hnd : (akeys m).Nodup) (h : alookup m k = some l) :
    idsMS m = evIds l + idsMS (aerase m k) := by
  induction m with
  | nil => simp [alookup] at h
  | cons p t ih =>
    obtain ⟨a, w⟩ := p
    simp only [akeys, List.map_cons, List.nodup_cons] at hnd
    by_cases hak : a = k
    · subst hak
      rw [alookup_cons_self] at h
      injection h with h
      subst h
      have hnt : a ∉ akeys t := by simpa [akeys] using hnd.1
      rw [show aerase ((a, w) :: t) a = aerase t a by simp [aerase],
        aerase_of_not_mem t a hnt, idsMS_cons]
    · simp only [alookup, if_neg hak] at h
      rw [show aerase ((a, w) :: t) k = (a, w) :: aerase t k by simp [aerase, hak],
        idsMS_cons, idsMS_cons, ih hnd.2 h]
      rw [add_left_comm]

/-- With nodup keys, looking up `k` splits the keys of `m`. -/
theorem keysMS_split [DecidableEq κ] (m : List (κ × α)) (k : κ) (v : α)
    (hnd : (akeys m).Nodup) (h : alookup m k = some v) :
    keysMS m = k ::ₘ keysMS (aerase m k) := by
  induction m with
  | nil => simp [alookup] at h
  | cons p t ih =>
    obtain ⟨a, w⟩ := p
    simp only [akeys, List.map_cons, List.nodup_cons] at hnd
    by_cases hak : a = k
    · subst hak
      have hnt : a ∉ akeys t := by simpa [akeys] using hnd.1
      rw [show aerase ((a, w) :: t) a = aerase t a by simp [aerase],
        aerase_of_not_mem t a hnt, keysMS_cons]
    · simp only [alookup, if_neg hak] at h
      rw [show aerase ((a, w) :: t) k = (a, w) :: aerase t k by simp [aerase, hak],
        keysMS_cons, keysMS_cons, ih hnd.2 h]
      rw [Multiset.cons_swap]

theorem alookup_of_mem_nodup [DecidableEq κ] (m : List (κ × α)) (k : κ) (v : α)
    (hnd : (akeys m).Nodup) (hm : (k, v) ∈ m) : alookup m k = some v := by
  induction m with
  | nil => simp at hm
  | cons p t ih =>
    obtain ⟨a, w⟩ := p
    simp only [akeys, List.map_cons, List.nodup_cons] at hnd
    rcases List.mem_cons.1 hm with heq | hmem
    · injection heq with h1 h2
      subst h1; subst h2
      exact alookup_cons_self _ _ _
    · have hak : a ≠ k := by
        intro hh
        subst hh
        exact hnd.1 (by
          simpa [akeys] using List.mem_map_of_mem Prod.fst hmem)
      rw [show alookup ((a, w) :: t) k = alookup t k by simp [alookup, hak]]
      exact ih hnd.2 hmem

theorem aerase_eq_of_alookup_none [DecidableEq κ] (m : List (κ × α)) (k : κ)
    (h : alookup m k = none) : aerase m k = m :=
  aerase_of_not_mem m k (by
    rw [mem_akeys_iff_alookup, h]; simp)

theorem evIds_heapPush (lt : Eval → Eval → Bool) (l : List Eval) (e : Eval) :
    evIds (heapPush lt l e) = e.id ::ₘ evIds l := by
  have hp := (heapPush_perm lt l e).map Eval.id
  simpa [evIds] using Multiset.coe_eq_coe.2 hp

theorem evIds_heapPop (lt : Eval → Eval → Bool) (l : List Eval) (e : Eval)
    (rest : List Eval) (h : heapPop lt l = some (e, rest)) :
    evIds l = e.id ::ₘ evIds rest := by
  have hp := (heapPop_perm lt l e rest h).map Eval.id
  simpa [evIds] using Multiset.coe_eq_coe.2 hp

theorem mem_evIds (l : List Eval) (i : String) :
    i ∈ evIds l ↔ ∃ e ∈ l, e.id = i := by
  simp [evIds]

/-- Removing one evaluation by id from a list whose ids are nodup. -/
theorem evIds_filter_ne (l : List Eval) (e : Eval) (he : e ∈ l)
    (hnd : (l.map Eval.id).Nodup) :
    evIds l = e.id ::ₘ evIds (l.filter (fun x => x.id ≠ e.id)) := by
  induction l with
  | nil => simp at he
  | cons x t ih =>
    simp only [List.map_cons, List.nodup_cons] at hnd
    by_cases hx : x.id = e.id
    · have hfilter : t.filter (fun y => y.id ≠ e.id) = t := by
        apply List.filter_eq_self.2
        intro y hy
        simp only [ne_eq, decide_eq_true_eq]
        intro hye
        exact hnd.1 (by
          rw [← hx] at hye
          exact hye ▸ List.mem_map_of_mem Eval.id hy)
      rw [show (x :: t).filter (fun y => y.id ≠ e.id) = t.filter (fun y => y.id ≠ e.id) by
            simp [List.filter_cons, hx], hfilter]
      simp [evIds, hx]
    · have het : e ∈ t := by
        rcases List.mem_cons.1 he with rfl | h
        · exact absurd rfl hx
        · exact h
      rw [show (x :: t).filter (fun y => y.id ≠ e.id) =
            x :: t.filter (fun y => y.id ≠ e.id) by simp [List.filter_cons, hx]]
      have := ih het hnd.2
      simp only [evIds, List.map_cons, Multiset.coe_eq_coe] at *
      calc ((x.id :: t.map Eval.id : List String) : Multiset String)
          = x.id ::ₘ (t.map Eval.id : List String) := by simp
        _ = x.id ::ₘ (e.id ::ₘ ((t.filter (fun y => y.id ≠ e.id)).map Eval.id : List String)) := by
            rw [show ((t.map Eval.id : List String) : Multiset String) =
              e.id ::ₘ ((t.filter (fun y => y.id ≠ e.id)).map Eval.id : List String) from this]
        _ = e.id ::ₘ (x.id ::ₘ ((t.filter (fun y => y.id ≠ e.id)).map Eval.id : List String)) := by
            rw [Multiset.cons_swap]
        _ = e.id ::ₘ (((x :: t.filter (fun y => y.id ≠ e.id)).map Eval.id : List String)) := by simp

/-- An entry found by `alookup` is in the list. -/
theorem alookup_mem [DecidableEq κ] (m : List (κ × α)) (k : κ) (v : α)
    (h : alookup m k = some v) : (k, v) ∈ m := by
  induction m with
  | nil => simp [alookup] at h
  | cons p t ih =>
    obtain ⟨a, w⟩ := p
    by_cases hak : a = k
    · subst hak
      rw [alookup_cons_self] at h
      injection h with h
      subst h; exact List.mem_cons_self _ _
    · simp only [alookup, if_neg hak] at h
      exact List.mem_cons_of_mem _ (ih h)

theorem mem_idsMS_of_mem [DecidableEq κ] (m : List (κ × List Eval)) (k : κ)
    (l : List Eval) (e : Eval) (hm : (k, l) ∈ m) (he : e ∈ l) : e.id ∈ idsMS m := by
  induction m with
  | nil => simp at hm
  | cons p t ih =>
    rcases List.mem_cons.1 hm with heq | hmem
    · obtain ⟨a, w⟩ := p
      injection heq with h1 h2
      subst h1; subst h2
      rw [idsMS_cons]
      exact Multiset.mem_add.2 (Or.inl ((mem_evIds l e.id).2 ⟨e, he, rfl⟩))
    · obtain ⟨a, w⟩ := p
      rw [idsMS_cons]
      exact Multiset.mem_add.2 (Or.inr (ih hmem))

theorem mem_idsMS_of [DecidableEq κ] (m : List (κ × List Eval)) (k : κ) (l : List Eval)
    (e : Eval) (hm : alookup m k = some l) (he : e ∈ l) : e.id ∈ idsMS m :=
  mem_idsMS_of_mem m k l e (alookup_mem m k l hm) he

theorem mem_keysMS_iff [DecidableEq κ] (m : List (κ × α)) (k : κ) :
    k ∈ keysMS m ↔ (alookup m k).isSome := by
  rw [show (k ∈ keysMS m) ↔ k ∈ akeys m by simp [keysMS]]
  exact mem_akeys_iff_alookup m k

/-! ## The broker invariant -/

/-- Sum of the per-class `Unacked` gauges. -/
def sumUnackedOf (m : List (String × SchedulerStats)) : Int :=
  (m.map (fun p => p.2.unacked)).sum

theorem sumUnackedOf_cons (p : String × SchedulerStats) (m : List (String × SchedulerStats)) :
    sumUnackedOf (p :: m) = p.2.unacked + sumUnackedOf m := by
  simp [sumUnackedOf]

theorem sumUnackedOf_split (m : List (String × SchedulerStats)) (k : String)
    (v : SchedulerStats) (hnd : (akeys m).Nodup) (h : alookup m k = some v) :
    sumUnackedOf m = v.unacked + sumUnackedOf (aerase m k) := by
  induction m with
  | nil => simp [alookup] at h
  | cons p t ih =>
    obtain ⟨a, w⟩ := p
    simp only [akeys, List.map_cons, List.nodup_cons] at hnd
    by_cases hak : a = k
    · subst hak
      rw [alookup_cons_self] at h
      injection h with h
      subst h
      have hnt : a ∉ akeys t := by simpa [akeys] using hnd.1
      rw [show aerase ((a, w) :: t) a = aerase t a by simp [aerase],
        aerase_of_not_mem t a hnt, sumUnackedOf_cons]
    · simp only [alookup, if_neg hak] at h
      rw [show aerase ((a, w) :: t) k = (a, w) :: aerase t k by simp [aerase, hak],
        sumUnackedOf_cons, sumUnackedOf_cons, ih hnd.2 h]
      ring

theorem sumUnackedOf_ainsert (m : List (String × SchedulerStats)) (k : String)
    (v : SchedulerStats) : sumUnackedOf (ainsert m k v) = v.unacked + sumUnackedOf (aerase m k) := by
  simp [ainsert, sumUnackedOf_cons]

/-- The broker invariant: everything the claims C2, C3, C4, C9 and C10 need,
closed under every `Step`.

* the `…KeysND` fields: the association lists modelling Go maps have
  pairwise-distinct keys (true by construction, Go maps have unique keys);
* `occND`/`occIff`/`occNe`: the partition invariant — each present id
  (= key of the `evals` attempt-counter table) occupies exactly one slot in
  ready ∪ blocked ∪ unack ∪ timeWait ∪ delayHeap, and ids are non-empty;
* `unackIdEq`/`unackRep`: an unack entry is keyed by its eval's id, and that
  id is the job's registered representative;
* `readyRep`: every eval in a ready queue is its job's representative;
* `blockedKey`: blocked queues hold only evals of their own job key;
* `timeWaitIdEq`: a wait timer is keyed by its eval's id;
* `jobEvalsNe`: job representatives are non-empty ids;
* `readyCnt`/`blockedCnt`/`timeWaitCnt`/`delayCnt`: bounds on the attempt
  counter per residence (an eval sitting in a non-`_failed` ready queue has
  been dequeued at most `max (delivery_limit-1) 0` times, blocked and
  delayed evals never, a timed-wait eval with at least one dequeue is the
  registered representative — it came from a Nack);
* `readyQPresent`/`readyTypePresent`/`unackTypePresent`/`unackChargeFailed`:
  the per-class stats entries that `dequeueForSched`, `Nack` and (when
  `delivery_limit ≥ 1`) `Ack` dereference are present;
* `sumUnacked`/`lenUnacked`: `TotalUnacked` equals both the per-class sum
  and the number of unack entries;
* `tokensLt`/`tokensInj`: outstanding tokens are below the token counter
  and pairwise distinct;
* `disabledEmpty`: a disabled broker is empty (flush runs on disable). -/
structure Inv (b : BrokerState) : Prop where
  readyKeysND : (akeys b.ready).Nodup
  blockedKeysND : (akeys b.blocked).Nodup
  unackKeysND : (akeys b.unack).Nodup
  timeWaitKeysND : (akeys b.timeWait).Nodup
  bySchedKeysND : (akeys b.stats.bySched).Nodup
  occND : (occMS b).Nodup
  occIff : ∀ i, i ∈ occMS b ↔ (alookup b.evals i).isSome
  occNe : ∀ i ∈ occMS b, i ≠ ""
  unackIdEq : ∀ i e t, alookup b.unack i = some (e, t) → e.id = i
  unackRep : ∀ i e t, alookup b.unack i = some (e, t) →
      alookup b.jobEvals (evalKey e) = some i
  readyRep : ∀ q l e, alookup b.ready q = some l → e ∈ l →
      alookup b.jobEvals (evalKey e) = some e.id
  blockedKey : ∀ k l e, alookup b.blocked k = some l → e ∈ l → evalKey e = k
  timeWaitIdEq : ∀ i e, alookup b.timeWait i = some e → e.id = i
  jobEvalsNe : ∀ k r, alookup b.jobEvals k = some r → r ≠ ""
  requeueNe : ∀ t e, alookup b.requeue t = some e → e.id ≠ ""
  readyCnt : ∀ q l e, alookup b.ready q = some l → e ∈ l → q ≠ failedQueue →
      (cntOf b e.id : Int) ≤ max (b.deliveryLimit - 1) 0
  blockedCnt : ∀ k l e, alookup b.blocked k = some l → e ∈ l → cntOf b e.id = 0
  timeWaitCnt : ∀ i e, alookup b.timeWait i = some e →
      (cntOf b i : Int) ≤ max (b.deliveryLimit - 1) 0 ∧
      (1 ≤ cntOf b i → alookup b.jobEvals (evalKey e) = some i)
  delayCnt : ∀ e ∈ b.delayHeap, cntOf b e.id = 0
  readyQPresent : ∀ q l, alookup b.ready q = some l →
      (alookup b.stats.bySched q).isSome
  readyTypePresent : ∀ q l e, alookup b.ready q = some l → e ∈ l →
      (alookup b.stats.bySched e.etype).isSome
  unackTypePresent : ∀ i e t, alookup b.unack i = some (e, t) →
      (alookup b.stats.bySched e.etype).isSome
  unackChargeFailed : 1 ≤ b.deliveryLimit → ∀ i e t, alookup b.unack i = some (e, t) →
      (cntOf b i : Int) > b.deliveryLimit → (alookup b.stats.bySched failedQueue).isSome
  sumUnacked : b.stats.totalUnacked = sumUnackedOf b.stats.bySched
  lenUnacked : b.stats.totalUnacked = b.unack.length
  tokensLt : ∀ i e t, alookup b.unack i = some (e, t) → t < b.tokenCtr
  tokensInj : ∀ i1 e1 i2 e2 t, alookup b.unack i1 = some (e1, t) →
      alookup b.unack i2 = some (e2, t) → i1 = i2
  disabledEmpty : b.enabled = false →
      b.ready = [] ∧ b.blocked = [] ∧ b.unack = [] ∧ b.timeWait = [] ∧
      b.delayHeap = [] ∧ b.evals = [] ∧ b.jobEvals = [] ∧
      b.stats.bySched = [] ∧ b.stats.totalUnacked = 0

/-- The invariant holds for a freshly constructed broker. -/
theorem inv_init (b0 : BrokerState) (h : IsInit b0) : Inv b0 := by
  obtain ⟨t0, t1, t2, t3, hmk⟩ := h
  unfold NewEvalBroker at hmk
  split at hmk
  · exact absurd hmk (by simp)
  · injection hmk with hmk
    subst hmk
    constructor <;>
      simp [occMS, idsMS, keysMS, evIds, akeys, alookup, sumUnackedOf, cntOf]

theorem alookup_ainsert_isSome_mono [DecidableEq κ] (m : List (κ × α)) (k k' : κ) (v : α)
    (h : (alookup m k').isSome) : (alookup (ainsert m k v) k').isSome := by
  by_cases hk : k = k'
  · subst hk; simp [alookup_ainsert_self]
  · rwa [alookup_ainsert_ne m v hk]

/-- `Inv` for a state in which the id `x` is registered in the attempt
counter table but not yet resident in any container: the intermediate state
from which `enqueueLocked` (or a wait/delay parking) runs. -/
structure MidInv (b : BrokerState) (x : String) : Prop where
  readyKeysND : (akeys b.ready).Nodup
  blockedKeysND : (akeys b.blocked).Nodup
  unackKeysND : (akeys b.unack).Nodup
  timeWaitKeysND : (akeys b.timeWait).Nodup
  bySchedKeysND : (akeys b.stats.bySched).Nodup
  occND : (occMS b).Nodup
  occIff : ∀ i, i ∈ occMS b ↔ ((alookup b.evals i).isSome ∧ i ≠ x)
  occNe : ∀ i ∈ occMS b, i ≠ ""
  unackIdEq : ∀ i e t, alookup b.unack i = some (e, t) → e.id = i
  unackRep : ∀ i e t, alookup b.unack i = some (e, t) →
      alookup b.jobEvals (evalKey e) = some i
  readyRep : ∀ q l e, alookup b.ready q = some l → e ∈ l →
      alookup b.jobEvals (evalKey e) = some e.id
  blockedKey : ∀ k l e, alookup b.blocked k = some l → e ∈ l → evalKey e = k
  timeWaitIdEq : ∀ i e, alookup b.timeWait i = some e → e.id = i
  jobEvalsNe : ∀ k r, alookup b.jobEvals k = some r → r ≠ ""
  requeueNe : ∀ t e, alookup b.requeue t = some e → e.id ≠ ""
  readyCnt : ∀ q l e, alookup b.ready q = some l → e ∈ l → q ≠ failedQueue →
      (cntOf b e.id : Int) ≤ max (b.deliveryLimit - 1) 0
  blockedCnt : ∀ k l e, alookup b.blocked k = some l → e ∈ l → cntOf b e.id = 0
  timeWaitCnt : ∀ i e, alookup b.timeWait i = some e →
      (cntOf b i : Int) ≤ max (b.deliveryLimit - 1) 0 ∧
      (1 ≤ cntOf b i → alookup b.jobEvals (evalKey e) = some i)
  delayCnt : ∀ e ∈ b.delayHeap, cntOf b e.id = 0
  readyQPresent : ∀ q l, alookup b.ready q = some l →
      (alookup b.stats.bySched q).isSome
  readyTypePresent : ∀ q l e, alookup b.ready q = some l → e ∈ l →
      (alookup b.stats.bySched e.etype).isSome
  unackTypePresent : ∀ i e t, alookup b.unack i = some (e, t) →
      (alookup b.stats.bySched e.etype).isSome
  unackChargeFailed : 1 ≤ b.deliveryLimit → ∀ i e t, alookup b.unack i = some (e, t) →
      (cntOf b i : Int) > b.deliveryLimit → (alookup b.stats.bySched failedQueue).isSome
  sumUnacked : b.stats.totalUnacked = sumUnackedOf b.stats.bySched
  lenUnacked : b.stats.totalUnacked = b.unack.length
  tokensLt : ∀ i e t, alookup b.unack i = some (e, t) → t < b.tokenCtr
  tokensInj : ∀ i1 e1 i2 e2 t, alookup b.unack i1 = some (e1, t) →
      alookup b.unack i2 = some (e2, t) → i1 = i2

theorem MidInv.notResident (hm : MidInv b x) : x ∉ occMS b := by
  intro hx
  exact ((hm.occIff x).1 hx).2 rfl

/-- Pushing onto a ready queue adds exactly the pushed id to the occupancy. -/
theorem occMS_admitReady (s : BrokerState) (ev : Eval) (q : String)
    (hnd : (akeys s.ready).Nodup) :
    occMS (admitReady s ev q) = ev.id ::ₘ occMS s := by
  have hready : idsMS (admitReady s ev q).ready = ev.id ::ₘ idsMS s.ready := by
    have h1 : (admitReady s ev q).ready =
        ainsert s.ready q (heapPush evalLess ((alookup s.ready q).getD []) ev) := rfl
    rw [h1, idsMS_ainsert, evIds_heapPush]
    rcases hl : alookup s.ready q with _ | l₀
    · rw [aerase_eq_of_alookup_none s.ready q hl]
      simp [evIds]
    · rw [idsMS_split s.ready q l₀ hnd hl]
      simp [Multiset.cons_add]
  show idsMS (admitReady s ev q).ready + idsMS s.blocked + keysMS s.unack +
      keysMS s.timeWait + evIds s.delayHeap = ev.id ::ₘ occMS s
  rw [hready]
  simp [occMS, Multiset.cons_add]

/-- Pushing onto a blocked queue adds exactly the pushed id. -/
theorem occMS_blockedPush (s : BrokerState) (ev : Eval) (k : NamespacedID)
    (hnd : (akeys s.blocked).Nodup) :
    idsMS (ainsert s.blocked k (heapPush evalLess ((alookup s.blocked k).getD []) ev)) =
      ev.id ::ₘ idsMS s.blocked := by
  rcases hlk : alookup s.blocked k with _ | l₁
  · rw [idsMS_ainsert, evIds_heapPush, aerase_eq_of_alookup_none s.blocked k hlk]
    simp [evIds]
  · rw [idsMS_ainsert, evIds_heapPush]
    simp only [Option.getD_some]
    rw [idsMS_split s.blocked k l₁ hnd hlk]
    simp [Multiset.cons_add]

/-- Registering a fresh job representative preserves `MidInv` when the job
had no representative. -/
theorem midInv_jobEvals_register (s : BrokerState) (ev : Eval)
    (hm : MidInv s ev.id) (hne : ev.id ≠ "")
    (hnone : alookup s.jobEvals (evalKey ev) = none) :
    MidInv { s with jobEvals := ainsert s.jobEvals (evalKey ev) ev.id } ev.id := by
  have hjob : ∀ (k : NamespacedID) (i : String), i ≠ "" →
      alookup s.jobEvals k = some i →
      alookup (ainsert s.jobEvals (evalKey ev) ev.id) k = some i := by
    intro k i hine hk
    by_cases hkk : evalKey ev = k
    · rw [← hkk] at hk
      rw [hnone] at hk
      exact absurd hk (by simp)
    · rwa [alookup_ainsert_ne _ _ hkk]
  refine ⟨hm.readyKeysND, hm.blockedKeysND, hm.unackKeysND, hm.timeWaitKeysND,
    hm.bySchedKeysND, hm.occND, hm.occIff, hm.occNe, hm.unackIdEq, ?_, ?_,
    hm.blockedKey, hm.timeWaitIdEq, ?_, hm.requeueNe, hm.readyCnt, hm.blockedCnt, ?_,
    hm.delayCnt, hm.readyQPresent, hm.readyTypePresent, hm.unackTypePresent,
    hm.unackChargeFailed, hm.sumUnacked, hm.lenUnacked, hm.tokensLt, hm.tokensInj⟩
  · intro i e t hu
    have hold := hm.unackRep i e t hu
    have hine : i ≠ "" := by
      refine hm.occNe i ?_
      show i ∈ occMS s
      have : i ∈ keysMS s.unack := by
        rw [mem_keysMS_iff, hu]; simp
      unfold occMS
      refine Multiset.mem_add.2 (Or.inl (Multiset.mem_add.2 (Or.inl
        (Multiset.mem_add.2 (Or.inr this)))))
    exact hjob _ i hine hold
  · intro q l e hq he
    have hold := hm.readyRep q l e hq he
    have hine : e.id ≠ "" := by
      refine hm.occNe e.id ?_
      show e.id ∈ occMS s
      unfold occMS
      refine Multiset.mem_add.2 (Or.inl (Multiset.mem_add.2 (Or.inl
        (Multiset.mem_add.2 (Or.inl (Multiset.mem_add.2 (Or.inl
          (mem_idsMS_of s.ready q l e hq he))))))))
    exact hjob _ e.id hine hold
  · intro k r hk
    rcases alookup_ainsert s.jobEvals (evalKey ev) k ev.id ▸ hk with h
    by_cases hkk : evalKey ev = k
    · rw [if_pos hkk] at h
      injection h with h
      exact h ▸ hne
    · rw [if_neg hkk] at h
      exact hm.jobEvalsNe k r h
  · intro i e hti
    have hold := hm.timeWaitCnt i e hti
    refine ⟨hold.1, fun hge => ?_⟩
    have hine : i ≠ "" := by
      refine hm.occNe i ?_
      show i ∈ occMS s
      have : i ∈ keysMS s.timeWait := by
        rw [mem_keysMS_iff, hti]; simp
      unfold occMS
      exact Multiset.mem_add.2 (Or.inl (Multiset.mem_add.2 (Or.inr this)))
    exact hjob _ i hine (hold.2 hge)

theorem inv_admitReady (s : BrokerState) (ev : Eval) (q : String)
    (hm : MidInv s ev.id)
    (hrepSelf : alookup s.jobEvals (evalKey ev) = some ev.id)
    (hpresent : (alookup s.evals ev.id).isSome)
    (hcnt : q = failedQueue ∨ (cntOf s ev.id : Int) ≤ max (s.deliveryLimit - 1) 0)
    (htype : q = ev.etype ∨ (alookup s.stats.bySched ev.etype).isSome)
    (hdis : (admitReady s ev q).enabled = false → False) :
    Inv (admitReady s ev q) := by
  have hocc := occMS_admitReady s ev q hm.readyKeysND
  have hnotRes := hm.notResident
  have hready_eq : (admitReady s ev q).ready =
      ainsert s.ready q (heapPush evalLess ((alookup s.ready q).getD []) ev) := rfl
  have hby_eq : (admitReady s ev q).stats.bySched =
      ainsert s.stats.bySched q
        { (alookup s.stats.bySched q).getD ⟨0, 0⟩ with
          ready := ((alookup s.stats.bySched q).getD ⟨0, 0⟩).ready + 1 } := rfl
  have hready_mem : ∀ q' l' e, alookup (admitReady s ev q).ready q' = some l' → e ∈ l' →
      (e = ev ∧ q' = q) ∨ (∃ l, alookup s.ready q' = some l ∧ e ∈ l) := by
    intro q' l' e hq' he
    by_cases hqq : q = q'
    · subst hqq
      rw [hready_eq, alookup_ainsert_self] at hq'
      injection hq' with hq'
      subst hq'
      rcases (mem_heapPush _ _ _ _).1 he with rfl | hmem
      · exact Or.inl ⟨rfl, rfl⟩
      · rcases hl : alookup s.ready q with _ | l₀
        · rw [hl] at hmem; simp at hmem
        · rw [hl] at hmem; exact Or.inr ⟨l₀, rfl, by simpa using hmem⟩
    · rw [hready_eq, alookup_ainsert_ne _ _ hqq] at hq'
      exact Or.inr ⟨l', hq', he⟩
  have hcnt_eq : ∀ i, cntOf (admitReady s ev q) i = cntOf s i := fun _ => rfl
  refine ⟨?_, hm.blockedKeysND, hm.unackKeysND, hm.timeWaitKeysND, ?_, ?_, ?_, ?_,
    hm.unackIdEq, hm.unackRep, ?_, hm.blockedKey, hm.timeWaitIdEq, hm.jobEvalsNe,
    hm.requeueNe, ?_, hm.blockedCnt, hm.timeWaitCnt, hm.delayCnt, ?_, ?_, ?_, ?_, ?_,
    hm.lenUnacked, hm.tokensLt, hm.tokensInj, fun hd => absurd hd (by
      intro hdd; exact hdis hdd)⟩
  · rw [hready_eq]; exact akeys_ainsert_nodup _ _ _ hm.readyKeysND
  · rw [hby_eq]; exact akeys_ainsert_nodup _ _ _ hm.bySchedKeysND
  · rw [hocc]
    exact Multiset.nodup_cons.2 ⟨hnotRes, hm.occND⟩
  · intro i
    rw [hocc, Multiset.mem_cons]
    constructor
    · rintro (rfl | hi)
      · exact hpresent
      · exact ((hm.occIff i).1 hi).1
    · intro hi
      by_cases hieq : i = ev.id
      · exact Or.inl hieq
      · exact Or.inr ((hm.occIff i).2 ⟨hi, hieq⟩)
  · intro i hi
    rw [hocc, Multiset.mem_cons] at hi
    rcases hi with rfl | hi
    · exact hm.jobEvalsNe _ _ hrepSelf
    · exact hm.occNe i hi
  · intro q' l' e hq' he
    rcases hready_mem q' l' e hq' he with ⟨rfl, rfl⟩ | ⟨l, hl, hel⟩
    · exact hrepSelf
    · exact hm.readyRep q' l e hl hel
  · intro q' l' e hq' he hqf
    rw [hcnt_eq]
    rcases hready_mem q' l' e hq' he with ⟨rfl, rfl⟩ | ⟨l, hl, hel⟩
    · rcases hcnt with rfl | hb
      · exact absurd rfl hqf
      · exact hb
    · exact hm.readyCnt q' l e hl hel hqf
  · intro q' l' hq'
    by_cases hqq : q = q'
    · subst hqq
      rw [hby_eq]
      simp [alookup_ainsert_self]
    · rw [hready_eq, alookup_ainsert_ne _ _ hqq] at hq'
      rw [hby_eq]
      exact alookup_ainsert_isSome_mono _ _ _ _ (hm.readyQPresent q' l' hq')
  · intro q' l' e hq' he
    rw [hby_eq]
    rcases hready_mem q' l' e hq' he with ⟨rfl, rfl⟩ | ⟨l, hl, hel⟩
    · rcases htype with rfl | hsome
      · simp [alookup_ainsert_self]
      · exact alookup_ainsert_isSome_mono _ _ _ _ hsome
    · exact alookup_ainsert_isSome_mono _ _ _ _ (hm.readyTypePresent q' l e hl hel)
  · intro i e t hu
    rw [hby_eq]
    exact alookup_ainsert_isSome_mono _ _ _ _ (hm.unackTypePresent i e t hu)
  · intro hlim i e t hu hgt
    rw [hby_eq]
    exact alookup_ainsert_isSome_mono _ _ _ _
      (hm.unackChargeFailed hlim i e t hu hgt)
  · show s.stats.totalUnacked = sumUnackedOf (admitReady s ev q).stats.bySched
    rw [hby_eq, sumUnackedOf_ainsert]
    rcases hsls : alookup s.stats.bySched q with _ | sls
    · rw [aerase_eq_of_alookup_none _ _ hsls]
      simpa using hm.sumUnacked
    · have hsplit := sumUnackedOf_split s.stats.bySched q sls hm.bySchedKeysND hsls
      rw [hm.sumUnacked, hsplit]
      simp

theorem inv_blockedPush (s : BrokerState) (ev : Eval) (r : String)
    (hm : MidInv s ev.id)
    (hen : s.enabled = true)
    (hne : ev.id ≠ "")
    (hpresent : (alookup s.evals ev.id).isSome)
    (hr : alookup s.jobEvals (evalKey ev) = some r)
    (hrne : r ≠ ev.id)
    (hcnt0 : cntOf s ev.id = 0) :
    Inv { s with
      blocked := ainsert s.blocked (evalKey ev)
        (heapPush evalLess ((alookup s.blocked (evalKey ev)).getD []) ev)
      stats := { s.stats with totalBlocked := s.stats.totalBlocked + 1 } } := by
  set s' := { s with
      blocked := ainsert s.blocked (evalKey ev)
        (heapPush evalLess ((alookup s.blocked (evalKey ev)).getD []) ev)
      stats := { s.stats with totalBlocked := s.stats.totalBlocked + 1 } } with hs'
  have hocc : occMS s' = ev.id ::ₘ occMS s := by
    show idsMS s.ready + idsMS s'.blocked + keysMS s.unack + keysMS s.timeWait +
        evIds s.delayHeap = ev.id ::ₘ occMS s
    rw [show idsMS s'.blocked =
        idsMS (ainsert s.blocked (evalKey ev)
          (heapPush evalLess ((alookup s.blocked (evalKey ev)).getD []) ev)) from rfl,
      occMS_blockedPush s ev (evalKey ev) hm.blockedKeysND]
    simp [occMS, Multiset.cons_add]
  have hnotRes := hm.notResident
  have hblocked_mem : ∀ k l' e, alookup s'.blocked k = some l' → e ∈ l' →
      (e = ev ∧ k = evalKey ev) ∨ (∃ l, alookup s.blocked k = some l ∧ e ∈ l) := by
    intro k l' e hk he
    by_cases hkk : evalKey ev = k
    · subst hkk
      rw [show s'.blocked = ainsert s.blocked (evalKey ev) _ from rfl,
        alookup_ainsert_self] at hk
      injection hk with hk
      subst hk
      rcases (mem_heapPush _ _ _ _).1 he with rfl | hmem
      · exact Or.inl ⟨rfl, rfl⟩
      · rcases hl : alookup s.blocked (evalKey ev) with _ | l₀
        · rw [hl] at hmem; simp at hmem
        · rw [hl] at hmem; exact Or.inr ⟨l₀, rfl, by simpa using hmem⟩
    · rw [show s'.blocked = ainsert s.blocked (evalKey ev) _ from rfl,
        alookup_ainsert_ne _ _ hkk] at hk
      exact Or.inr ⟨l', hk, he⟩
  refine ⟨hm.readyKeysND, ?_, hm.unackKeysND, hm.timeWaitKeysND, hm.bySchedKeysND,
    ?_, ?_, ?_, hm.unackIdEq, hm.unackRep, hm.readyRep, ?_, hm.timeWaitIdEq,
    hm.jobEvalsNe, hm.requeueNe, hm.readyCnt, ?_, hm.timeWaitCnt, hm.delayCnt,
    hm.readyQPresent, hm.readyTypePresent, hm.unackTypePresent, hm.unackChargeFailed,
    hm.sumUnacked, hm.lenUnacked, hm.tokensLt, hm.tokensInj,
    fun hd => absurd (hen ▸ hd) (by simp)⟩
  · exact akeys_ainsert_nodup _ _ _ hm.blockedKeysND
  · rw [hocc]
    exact Multiset.nodup_cons.2 ⟨hnotRes, hm.occND⟩
  · intro i
    rw [hocc, Multiset.mem_cons]
    constructor
    · rintro (rfl | hi)
      · exact hpresent
      · exact ((hm.occIff i).1 hi).1
    · intro hi
      by_cases hieq : i = ev.id
      · exact Or.inl hieq
      · exact Or.inr ((hm.occIff i).2 ⟨hi, hieq⟩)
  · intro i hi
    rw [hocc, Multiset.mem_cons] at hi
    rcases hi with rfl | hi
    · exact hne
    · exact hm.occNe i hi
  · intro k l' e hk he
    rcases hblocked_mem k l' e hk he with ⟨rfl, rfl⟩ | ⟨l, hl, hel⟩
    · rfl
    · exact hm.blockedKey k l e hl hel
  · intro k l' e hk he
    rcases hblocked_mem k l' e hk he with ⟨rfl, rfl⟩ | ⟨l, hl, hel⟩
    · exact hcnt0
    · exact hm.blockedCnt k l e hl hel

theorem inv_enqueueLocked (s : BrokerState) (ev : Eval) (q : String)
    (hm : MidInv s ev.id)
    (hen : s.enabled = true)
    (hne : ev.id ≠ "")
    (hpresent : (alookup s.evals ev.id).isSome)
    (hcnt : q = failedQueue ∨ (cntOf s ev.id : Int) ≤ max (s.deliveryLimit - 1) 0)
    (hbcnt : ∀ r, alookup s.jobEvals (evalKey ev) = some r → r ≠ ev.id → cntOf s ev.id = 0)
    (htype : q = ev.etype ∨ (alookup s.stats.bySched ev.etype).isSome) :
    Inv (enqueueLocked s ev q) := by
  unfold enqueueLocked
  rw [if_neg (by rw [hen]; simp)]
  by_cases hpe : (alookup s.jobEvals (evalKey ev)).getD "" = ""
  · rw [if_pos hpe]
    have hnone : alookup s.jobEvals (evalKey ev) = none := by
      rcases hl : alookup s.jobEvals (evalKey ev) with _ | r
      · rfl
      · rw [hl] at hpe
        simp only [Option.getD_some] at hpe
        exact absurd hpe (hm.jobEvalsNe _ _ hl)
    have hm' := midInv_jobEvals_register s ev hm hne hnone
    exact inv_admitReady _ ev q hm' (alookup_ainsert_self _ _ _) hpresent hcnt htype
      (fun hd => by
        have hds : s.enabled = false := hd
        rw [hen] at hds
        exact Bool.noConfusion hds)
  · rw [if_neg hpe]
    have hr : alookup s.jobEvals (evalKey ev) =
        some ((alookup s.jobEvals (evalKey ev)).getD "") := by
      rcases hl : alookup s.jobEvals (evalKey ev) with _ | r
      · rw [hl] at hpe; simp at hpe
      · simp
    by_cases hre : (alookup s.jobEvals (evalKey ev)).getD "" ≠ ev.id
    · rw [if_pos hre]
      exact inv_blockedPush s ev _ hm hen hne hpresent hr hre (hbcnt _ hr hre)
    · rw [if_neg hre]
      push_neg at hre
      rw [hre] at hr
      exact inv_admitReady s ev q hm hr hpresent hcnt htype
        (fun hd => by
          have hds : s.enabled = false := hd
          rw [hen] at hds
          exact Bool.noConfusion hds)

/-- A lookup surviving an `aerase` was present before. -/
theorem alookup_aerase_sub [DecidableEq κ] (m : List (κ × α)) (k k' : κ) (v : α)
    (h : alookup (aerase m k) k' = some v) : alookup m k' = some v := by
  by_cases hkk : k = k'
  · subst hkk
    rw [alookup_aerase_self] at h
    exact absurd h (by simp)
  · rwa [alookup_aerase_ne m hkk] at h

/-- A lookup surviving an `ainsert` at another key was present before. -/
theorem alookup_ainsert_sub [DecidableEq κ] (m : List (κ × α)) (k k' : κ) (v v' : α)
    (hne : k ≠ k') (h : alookup (ainsert m k v) k' = some v') :
    alookup m k' = some v' := by
  rwa [alookup_ainsert_ne m v hne] at h

/-! ### Membership in the occupancy multiset -/

theorem mem_occ_ready (b : BrokerState) (q : String) (l : List Eval) (e : Eval)
    (hq : alookup b.ready q = some l) (he : e ∈ l) : e.id ∈ occMS b := by
  unfold occMS
  exact Multiset.mem_add.2 (Or.inl (Multiset.mem_add.2 (Or.inl (Multiset.mem_add.2
    (Or.inl (Multiset.mem_add.2 (Or.inl (mem_idsMS_of b.ready q l e hq he))))))))

theorem mem_occ_blocked (b : BrokerState) (k : NamespacedID) (l : List Eval) (e : Eval)
    (hk : alookup b.blocked k = some l) (he : e ∈ l) : e.id ∈ occMS b := by
  unfold occMS
  exact Multiset.mem_add.2 (Or.inl (Multiset.mem_add.2 (Or.inl (Multiset.mem_add.2
    (Or.inl (Multiset.mem_add.2 (Or.inr (mem_idsMS_of b.blocked k l e hk he))))))))

theorem mem_occ_unack (b : BrokerState) (i : String) (v : Eval × Nat)
    (h : alookup b.unack i = some v) : i ∈ occMS b := by
  unfold occMS
  refine Multiset.mem_add.2 (Or.inl (Multiset.mem_add.2 (Or.inl (Multiset.mem_add.2
    (Or.inr ?_)))))
  rw [mem_keysMS_iff, h]; simp

theorem mem_occ_timeWait (b : BrokerState) (i : String) (e : Eval)
    (h : alookup b.timeWait i = some e) : i ∈ occMS b := by
  unfold occMS
  refine Multiset.mem_add.2 (Or.inl (Multiset.mem_add.2 (Or.inr ?_)))
  rw [mem_keysMS_iff, h]; simp

theorem mem_occ_delay (b : BrokerState) (e : Eval) (h : e ∈ b.delayHeap) :
    e.id ∈ occMS b := by
  unfold occMS
  refine Multiset.mem_add.2 (Or.inr ?_)
  rw [mem_evIds]
  exact ⟨e, h, rfl⟩

/-- Frame rule: a state that agrees with `b` on every field the invariant
tracks inherits the invariant (the requeue table may only shrink). -/
theorem inv_transport (b b' : BrokerState)
    (hready : b'.ready = b.ready) (hblocked : b'.blocked = b.blocked)
    (hunack : b'.unack = b.unack) (htw : b'.timeWait = b.timeWait)
    (hdh : b'.delayHeap = b.delayHeap) (hevals : b'.evals = b.evals)
    (hje : b'.jobEvals = b.jobEvals) (hby : b'.stats.bySched = b.stats.bySched)
    (htu : b'.stats.totalUnacked = b.stats.totalUnacked)
    (hlim : b'.deliveryLimit = b.deliveryLimit) (htc : b'.tokenCtr = b.tokenCtr)
    (hen : b'.enabled = b.enabled)
    (hrq : ∀ t e, alookup b'.requeue t = some e →
      alookup b.requeue t = some e ∨ e.id ≠ "")
    (h : Inv b) : Inv b' := by
  have hocc : occMS b' = occMS b := by
    unfold occMS
    rw [hready, hblocked, hunack, htw, hdh]
  have hcnt : ∀ i, cntOf b' i = cntOf b i := by
    intro i; unfold cntOf; rw [hevals]
  refine ⟨?_, ?_, ?_, ?_, ?_, ?_, ?_, ?_, ?_, ?_, ?_, ?_, ?_, ?_, ?_, ?_, ?_, ?_,
    ?_, ?_, ?_, ?_, ?_, ?_, ?_, ?_, ?_, ?_⟩
  · rw [hready]; exact h.readyKeysND
  · rw [hblocked]; exact h.blockedKeysND
  · rw [hunack]; exact h.unackKeysND
  · rw [htw]; exact h.timeWaitKeysND
  · rw [hby]; exact h.bySchedKeysND
  · rw [hocc]; exact h.occND
  · intro i; rw [hocc, hevals]; exact h.occIff i
  · intro i hi; rw [hocc] at hi; exact h.occNe i hi
  · intro i e t hu; rw [hunack] at hu; exact h.unackIdEq i e t hu
  · intro i e t hu; rw [hunack] at hu; rw [hje]; exact h.unackRep i e t hu
  · intro q l e hq he; rw [hready] at hq; rw [hje]; exact h.readyRep q l e hq he
  · intro k l e hk he; rw [hblocked] at hk; exact h.blockedKey k l e hk he
  · intro i e ht; rw [htw] at ht; exact h.timeWaitIdEq i e ht
  · intro k r hk; rw [hje] at hk; exact h.jobEvalsNe k r hk
  · intro t e hq
    rcases hrq t e hq with hold | hnee
    · exact h.requeueNe t e hold
    · exact hnee
  · intro q l e hq he hqf; rw [hready] at hq; rw [hcnt, hlim]
    exact h.readyCnt q l e hq he hqf
  · intro k l e hk he; rw [hblocked] at hk; rw [hcnt]
    exact h.blockedCnt k l e hk he
  · intro i e ht; rw [htw] at ht; rw [hcnt, hlim, hje]
    exact h.timeWaitCnt i e ht
  · intro e he; rw [hdh] at he; rw [hcnt]; exact h.delayCnt e he
  · intro q l hq; rw [hready] at hq; rw [hby]; exact h.readyQPresent q l hq
  · intro q l e hq he; rw [hready] at hq; rw [hby]
    exact h.readyTypePresent q l e hq he
  · intro i e t hu; rw [hunack] at hu; rw [hby]; exact h.unackTypePresent i e t hu
  · intro hlim' i e t hu hgt
    rw [hunack] at hu
    rw [hlim] at hlim'
    rw [hcnt, hlim] at hgt
    rw [hby]
    exact h.unackChargeFailed hlim' i e t hu hgt
  · rw [htu, hby]; exact h.sumUnacked
  · rw [htu, hunack]; exact h.lenUnacked
  · intro i e t hu; rw [hunack] at hu; rw [htc]; exact h.tokensLt i e t hu
  · intro i1 e1 i2 e2 t h1 h2
    rw [hunack] at h1 h2
    exact h.tokensInj i1 e1 i2 e2 t h1 h2
  · intro hd
    rw [hen] at hd
    have := h.disabledEmpty hd
    rw [hready, hblocked, hunack, htw, hdh, hevals, hje, hby, htu]
    exact this

/-- Registering a fresh id in the attempt-counter table yields the mid
state from which the enqueue paths run. -/
theorem midInv_fresh (b : BrokerState) (x : String) (h : Inv b)
    (habs : alookup b.evals x = none) :
    MidInv { b with evals := ainsert b.evals x 0 } x := by
  have hxnot : x ∉ occMS b := by
    intro hx
    have := (h.occIff x).1 hx
    rw [habs] at this
    exact absurd this (by simp)
  have hocc : occMS { b with evals := ainsert b.evals x 0 } = occMS b := rfl
  have hcnt : ∀ i, i ≠ x →
      cntOf { b with evals := ainsert b.evals x 0 } i = cntOf b i := by
    intro i hix
    show (alookup (ainsert b.evals x 0) i).getD 0 = (alookup b.evals i).getD 0
    rw [alookup_ainsert_ne _ _ (fun hh => hix hh.symm)]
  have hocc_ne : ∀ i, i ∈ occMS b → i ≠ x := by
    intro i hi hix
    exact hxnot (hix ▸ hi)
  refine ⟨h.readyKeysND, h.blockedKeysND, h.unackKeysND, h.timeWaitKeysND,
    h.bySchedKeysND, h.occND, ?_, h.occNe, h.unackIdEq, h.unackRep, h.readyRep,
    h.blockedKey, h.timeWaitIdEq, h.jobEvalsNe, h.requeueNe, ?_, ?_, ?_, ?_,
    h.readyQPresent, h.readyTypePresent, h.unackTypePresent, ?_, h.sumUnacked,
    h.lenUnacked, h.tokensLt, h.tokensInj⟩
  · intro i
    rw [hocc]
    constructor
    · intro hi
      have hix := hocc_ne i hi
      refine ⟨?_, hix⟩
      show (alookup (ainsert b.evals x 0) i).isSome
      rw [alookup_ainsert_ne _ _ (fun hh => hix hh.symm)]
      exact (h.occIff i).1 hi
    · rintro ⟨hs, hix⟩
      refine (h.occIff i).2 ?_
      show (alookup b.evals i).isSome
      rw [show alookup b.evals i =
        alookup (ainsert b.evals x 0) i from
        (alookup_ainsert_ne _ _ (fun hh => hix hh.symm)).symm]
      exact hs
  · intro q l e hq he hqf
    rw [hcnt e.id (hocc_ne e.id (mem_occ_ready b q l e hq he))]
    exact h.readyCnt q l e hq he hqf
  · intro k l e hk he
    rw [hcnt e.id (hocc_ne e.id (mem_occ_blocked b k l e hk he))]
    exact h.blockedCnt k l e hk he
  · intro i e ht
    rw [hcnt i (hocc_ne i (mem_occ_timeWait b i e ht))]
    exact h.timeWaitCnt i e ht
  · intro e he
    rw [hcnt e.id (hocc_ne e.id (mem_occ_delay b e he))]
    exact h.delayCnt e he
  · intro hlim i e t hu hgt
    rw [hcnt i (hocc_ne i (mem_occ_unack b i (e, t) hu))] at hgt
    exact h.unackChargeFailed hlim i e t hu hgt

/-- Parking an evaluation behind a wait timer preserves the invariant. -/
theorem inv_timeWaitInsert (s : BrokerState) (ev : Eval)
    (hm : MidInv s ev.id) (hen : s.enabled = true) (hne : ev.id ≠ "")
    (hpresent : (alookup s.evals ev.id).isSome)
    (hcntw : (cntOf s ev.id : Int) ≤ max (s.deliveryLimit - 1) 0)
    (hrepw : 1 ≤ cntOf s ev.id → alookup s.jobEvals (evalKey ev) = some ev.id) :
    Inv (processWaitingEnqueue s ev) := by
  have hnotk : ev.id ∉ akeys s.timeWait := by
    intro hc
    refine hm.notResident ?_
    unfold occMS
    refine Multiset.mem_add.2 (Or.inl (Multiset.mem_add.2 (Or.inr ?_)))
    show ev.id ∈ keysMS s.timeWait
    simpa [keysMS] using hc
  have hocc : occMS (processWaitingEnqueue s ev) = ev.id ::ₘ occMS s := by
    show idsMS s.ready + idsMS s.blocked + keysMS s.unack +
      keysMS (ainsert s.timeWait ev.id ev) + evIds s.delayHeap = ev.id ::ₘ occMS s
    rw [keysMS_ainsert, aerase_of_not_mem _ _ hnotk]
    unfold occMS
    rw [Multiset.add_cons, Multiset.cons_add]
  have htw_mem : ∀ i e, alookup (processWaitingEnqueue s ev).timeWait i = some e →
      (i = ev.id ∧ e = ev) ∨ alookup s.timeWait i = some e := by
    intro i e hi
    by_cases hix : ev.id = i
    · subst hix
      rw [show (processWaitingEnqueue s ev).timeWait =
        ainsert s.timeWait ev.id ev from rfl, alookup_ainsert_self] at hi
      injection hi with hi
      exact Or.inl ⟨rfl, hi.symm⟩
    · rw [show (processWaitingEnqueue s ev).timeWait =
        ainsert s.timeWait ev.id ev from rfl, alookup_ainsert_ne _ _ hix] at hi
      exact Or.inr hi
  refine ⟨hm.readyKeysND, hm.blockedKeysND, hm.unackKeysND, ?_, hm.bySchedKeysND,
    ?_, ?_, ?_, hm.unackIdEq, hm.unackRep, hm.readyRep, hm.blockedKey, ?_,
    hm.jobEvalsNe, hm.requeueNe, hm.readyCnt, hm.blockedCnt, ?_, hm.delayCnt,
    hm.readyQPresent, hm.readyTypePresent, hm.unackTypePresent,
    hm.unackChargeFailed, hm.sumUnacked, hm.lenUnacked, hm.tokensLt, hm.tokensInj,
    fun hd => absurd (hen ▸ hd) (by simp)⟩
  · exact akeys_ainsert_nodup _ _ _ hm.timeWaitKeysND
  · rw [hocc]
    exact Multiset.nodup_cons.2 ⟨hm.notResident, hm.occND⟩
  · intro i
    rw [hocc, Multiset.mem_cons]
    constructor
    · rintro (rfl | hi)
      · exact hpresent
      · exact ((hm.occIff i).1 hi).1
    · intro hi
      by_cases hieq : i = ev.id
      · exact Or.inl hieq
      · exact Or.inr ((hm.occIff i).2 ⟨hi, hieq⟩)
  · intro i hi
    rw [hocc, Multiset.mem_cons] at hi
    rcases hi with rfl | hi
    · exact hne
    · exact hm.occNe i hi
  · intro i e hi
    rcases htw_mem i e hi with ⟨rfl, rfl⟩ | hold
    · rfl
    · exact hm.timeWaitIdEq i e hold
  · intro i e hi
    rcases htw_mem i e hi with ⟨rfl, rfl⟩ | hold
    · exact ⟨hcntw, hrepw⟩
    · exact hm.timeWaitCnt i e hold

/-- Parking an evaluation on the delay heap preserves the invariant. -/
theorem inv_delayInsert (s : BrokerState) (ev : Eval)
    (hm : MidInv s ev.id) (hen : s.enabled = true) (hne : ev.id ≠ "")
    (hpresent : (alookup s.evals ev.id).isSome)
    (hcnt0 : cntOf s ev.id = 0) :
    Inv { s with
      delayHeap := s.delayHeap ++ [ev]
      stats := { s.stats with totalWaiting := s.stats.totalWaiting + 1 } } := by
  have hocc : occMS { s with
      delayHeap := s.delayHeap ++ [ev]
      stats := { s.stats with totalWaiting := s.stats.totalWaiting + 1 } } =
      ev.id ::ₘ occMS s := by
    show idsMS s.ready + idsMS s.blocked + keysMS s.unack + keysMS s.timeWait +
      evIds (s.delayHeap ++ [ev]) = ev.id ::ₘ occMS s
    have hids : evIds (s.delayHeap ++ [ev]) = ev.id ::ₘ evIds s.delayHeap := by
      show ((s.delayHeap ++ [ev]).map Eval.id : List String) =
        ev.id ::ₘ (s.delayHeap.map Eval.id : List String)
      refine Multiset.coe_eq_coe.2 ?_
      rw [List.map_append]
      exact (List.perm_append_singleton ev.id (s.delayHeap.map Eval.id))
    rw [hids]
    unfold occMS
    rw [Multiset.add_cons]
  have hdh_mem : ∀ e, e ∈ s.delayHeap ++ [ev] → e = ev ∨ e ∈ s.delayHeap := by
    intro e he
    rcases List.mem_append.1 he with h1 | h1
    · exact Or.inr h1
    · exact Or.inl (by simpa using h1)
  refine ⟨hm.readyKeysND, hm.blockedKeysND, hm.unackKeysND, hm.timeWaitKeysND,
    hm.bySchedKeysND, ?_, ?_, ?_, hm.unackIdEq, hm.unackRep, hm.readyRep,
    hm.blockedKey, hm.timeWaitIdEq, hm.jobEvalsNe, hm.requeueNe, hm.readyCnt,
    hm.blockedCnt, hm.timeWaitCnt, ?_, hm.readyQPresent, hm.readyTypePresent,
    hm.unackTypePresent, hm.unackChargeFailed, hm.sumUnacked, hm.lenUnacked,
    hm.tokensLt, hm.tokensInj, fun hd => absurd (hen ▸ hd) (by simp)⟩
  · rw [hocc]
    exact Multiset.nodup_cons.2 ⟨hm.notResident, hm.occND⟩
  · intro i
    rw [hocc, Multiset.mem_cons]
    constructor
    · rintro (rfl | hi)
      · exact hpresent
      · exact ((hm.occIff i).1 hi).1
    · intro hi
      by_cases hieq : i = ev.id
      · exact Or.inl hieq
      · exact Or.inr ((hm.occIff i).2 ⟨hi, hieq⟩)
  · intro i hi
    rw [hocc, Multiset.mem_cons] at hi
    rcases hi with rfl | hi
    · exact hne
    · exact hm.occNe i hi
  · intro e he
    rcases hdh_mem e he with rfl | hold
    · exact hcnt0
    · exact hm.delayCnt e hold

/-- `processEnqueue` preserves the invariant (for evaluations with a
non-empty id — ids come from the external unique-id factory). -/
theorem inv_processEnqueue (b : BrokerState) (ev : Eval) (tok : Option Nat)
    (h : Inv b) (hne : ev.id ≠ "") : Inv (processEnqueue b ev tok) := by
  unfold processEnqueue
  by_cases hen : b.enabled
  · rw [if_neg (by rw [hen]; simp)]
    by_cases hdup : (alookup b.evals ev.id).isSome
    · rw [if_pos hdup]
      cases tok with
      | none => exact h
      | some t =>
        rcases hu : alookup b.unack ev.id with _ | p
        · exact h
        · obtain ⟨u, tk⟩ := p
          show Inv (if tk = t then { b with requeue := ainsert b.requeue t ev } else b)
          by_cases htk : tk = t
          · rw [if_pos htk]
            refine inv_transport b _ rfl rfl rfl rfl rfl rfl rfl rfl rfl rfl rfl rfl
              ?_ h
            intro t' e' hq'
            by_cases htt : t = t'
            · subst htt
              rw [show ({ b with requeue := ainsert b.requeue t ev } :
                BrokerState).requeue = ainsert b.requeue t ev from rfl,
                alookup_ainsert_self] at hq'
              injection hq' with hq'
              exact Or.inr (hq' ▸ hne)
            · rw [show ({ b with requeue := ainsert b.requeue t ev } :
                BrokerState).requeue = ainsert b.requeue t ev from rfl,
                alookup_ainsert_ne _ _ htt] at hq'
              exact Or.inl hq'
          · rw [if_neg htk]
            exact h
    · rw [if_neg hdup]
      have habs : alookup b.evals ev.id = none := by
        rcases hl : alookup b.evals ev.id with _ | v
        · rfl
        · rw [hl] at hdup; exact absurd (by simp) hdup
      have hm := midInv_fresh b ev.id h habs
      have hen' : ({ b with evals := ainsert b.evals ev.id 0 } :
          BrokerState).enabled = true := hen
      have hpresent' : (alookup ({ b with evals := ainsert b.evals ev.id 0 } :
          BrokerState).evals ev.id).isSome := by
        show (alookup (ainsert b.evals ev.id 0) ev.id).isSome
        rw [alookup_ainsert_self]
        rfl
      have hcnt0 : cntOf { b with evals := ainsert b.evals ev.id 0 } ev.id = 0 := by
        show (alookup (ainsert b.evals ev.id 0) ev.id).getD 0 = 0
        rw [alookup_ainsert_self]
        rfl
      by_cases hw : ev.wait > 0
      · rw [if_pos hw]
        refine inv_timeWaitInsert _ ev hm hen' hne hpresent' ?_ ?_
        · rw [hcnt0]
          simp [le_max_iff]
        · rw [hcnt0]
          intro hcon
          exact absurd hcon (by simp)
      · rw [if_neg hw]
        by_cases hwu : ev.waitUntil ≠ 0
        · rw [if_pos hwu]
          exact inv_delayInsert _ ev hm hen' hne hpresent' hcnt0
        · rw [if_neg hwu]
          refine inv_enqueueLocked _ ev ev.etype hm hen' hne hpresent'
            (Or.inr (by rw [hcnt0]; simp [le_max_iff])) (fun r _ _ => hcnt0)
            (Or.inl rfl)
  · rw [if_pos (by
      rcases hb : b.enabled with _ | _
      · simp
      · exact absurd (by rw [hb] : b.enabled = true) hen)]
    exact h

theorem inv_Enqueue (b : BrokerState) (ev : Eval) (h : Inv b) (hne : ev.id ≠ "") :
    Inv (Enqueue b ev) := inv_processEnqueue b ev none h hne

theorem inv_EnqueueAll (pairs : List (Eval × Option Nat)) :
    ∀ (b : BrokerState), Inv b → (∀ p ∈ pairs, p.1.id ≠ "") →
      Inv (EnqueueAll b pairs) := by
  induction pairs with
  | nil => intro b h _; exact h
  | cons p ps ih =>
    intro b h hps
    show Inv (EnqueueAll (processEnqueue b p.1 p.2) ps)
    exact ih _ (inv_processEnqueue b p.1 p.2 h (hps p (List.mem_cons_self _ _)))
      (fun p' hp' => hps p' (List.mem_cons_of_mem _ hp'))

/-- `SetEnabled` preserves the invariant: enabling changes only the flag,
disabling flushes every container. -/
theorem inv_SetEnabled (b : BrokerState) (en : Bool) (h : Inv b) :
    Inv (SetEnabled b en) := by
  cases en with
  | true =>
    show Inv (if !true then flush { b with enabled := true }
              else { b with enabled := true })
    rw [if_neg (by simp)]
    exact ⟨h.readyKeysND, h.blockedKeysND, h.unackKeysND, h.timeWaitKeysND,
      h.bySchedKeysND, h.occND, h.occIff, h.occNe, h.unackIdEq, h.unackRep,
      h.readyRep, h.blockedKey, h.timeWaitIdEq, h.jobEvalsNe, h.requeueNe,
      h.readyCnt, h.blockedCnt, h.timeWaitCnt, h.delayCnt, h.readyQPresent,
      h.readyTypePresent, h.unackTypePresent, h.unackChargeFailed, h.sumUnacked,
      h.lenUnacked, h.tokensLt, h.tokensInj, fun hd => Bool.noConfusion hd⟩
  | false =>
    show Inv (if !false then flush { b with enabled := false }
              else { b with enabled := false })
    rw [if_pos (by simp)]
    refine ⟨?_, ?_, ?_, ?_, ?_, ?_, ?_, ?_, ?_, ?_, ?_, ?_, ?_, ?_,
      h.requeueNe, ?_, ?_, ?_, ?_, ?_, ?_, ?_, ?_, ?_, ?_, ?_, ?_, ?_⟩ <;>
      simp [flush, occMS, idsMS, keysMS, evIds, akeys, alookup, sumUnackedOf]

/-- Decomposition of the partition invariant: each of the five segments is
duplicate-free and the segments are pairwise disjoint. -/
theorem occ_parts (b : BrokerState) (h : (occMS b).Nodup) :
    ((idsMS b.ready).Nodup ∧ (idsMS b.blocked).Nodup ∧ (keysMS b.unack).Nodup ∧
      (keysMS b.timeWait).Nodup ∧ (evIds b.delayHeap).Nodup) ∧
    (Disjoint (idsMS b.ready) (idsMS b.blocked) ∧
      Disjoint (idsMS b.ready) (keysMS b.unack) ∧
      Disjoint (idsMS b.ready) (keysMS b.timeWait) ∧
      Disjoint (idsMS b.ready) (evIds b.delayHeap) ∧
      Disjoint (idsMS b.blocked) (keysMS b.unack) ∧
      Disjoint (idsMS b.blocked) (keysMS b.timeWait) ∧
      Disjoint (idsMS b.blocked) (evIds b.delayHeap) ∧
      Disjoint (keysMS b.unack) (keysMS b.timeWait) ∧
      Disjoint (keysMS b.unack) (evIds b.delayHeap) ∧
      Disjoint (keysMS b.timeWait) (evIds b.delayHeap)) := by
  unfold occMS at h
  rw [Multiset.nodup_add] at h
  obtain ⟨h4, hD, hdisj4⟩ := h
  rw [Multiset.nodup_add] at h4
  obtain ⟨h3, hT, hdisj3⟩ := h4
  rw [Multiset.nodup_add] at h3
  obtain ⟨h2, hU, hdisj2⟩ := h3
  rw [Multiset.nodup_add] at h2
  obtain ⟨hR, hB, hdisj1⟩ := h2
  have hd2a := Multiset.disjoint_add_left.1 hdisj2
  have hd3a := Multiset.disjoint_add_left.1 hdisj3
  have hd3b := Multiset.disjoint_add_left.1 hd3a.1
  have hd4a := Multiset.disjoint_add_left.1 hdisj4
  have hd4b := Multiset.disjoint_add_left.1 hd4a.1
  have hd4c := Multiset.disjoint_add_left.1 hd4b.1
  exact ⟨⟨hR, hB, hU, hT, hD⟩,
    hdisj1, hd2a.1, hd3b.1, hd4c.1, hd2a.2, hd3b.2,
    hd4c.2, hd3a.2, hd4b.2, hd4a.2⟩

/-- `dequeueForSched` preserves the invariant: the popped evaluation moves
from its ready queue to the unack table, its attempt counter rises by one,
and the stats move one unit from Ready to Unacked. -/
theorem inv_dequeueForSched (b : BrokerState) (sched : String) (e : Eval) (t : Nat)
    (b' : BrokerState) (h : Inv b)
    (hres : dequeueForSched b sched = some ((e, t), b')) : Inv b' := by
  simp only [dequeueForSched] at hres
  split at hres
  · exact absurd hres (by simp)
  · rename_i ev rest hpop
    split at hres
    · exact absurd hres (by simp)
    · rename_i sls hsls
      injection hres with hres
      injection hres with hres1 hres2
      obtain ⟨he1, he2⟩ : e = ev ∧ t = b.tokenCtr := by
        injection hres1 with ha hb
        exact ⟨ha.symm, hb.symm⟩
      subst he1
      subst he2
      subst hres2
      rcases hlk : alookup b.ready sched with _ | pd
      · rw [hlk] at hpop
        simp [heapPop] at hpop
      · rw [hlk] at hpop
        simp only [Option.getD_some] at hpop
        have hperm := heapPop_perm evalLess pd e rest hpop
        have hmem_ev : e ∈ pd := hperm.mem_iff.2 (List.mem_cons_self _ _)
        have hids : evIds pd = e.id ::ₘ evIds rest := evIds_heapPop evalLess pd e rest hpop
        have parts := occ_parts b h.occND
        have hev_ready : e.id ∈ idsMS b.ready := mem_idsMS_of b.ready sched pd e hlk hmem_ev
        have hnotun : e.id ∉ keysMS b.unack :=
          Multiset.disjoint_left.1 parts.2.2.1 hev_ready
        have hnotun' : alookup b.unack e.id = none := by
          rcases hu : alookup b.unack e.id with _ | v
          · rfl
          · exact absurd ((mem_keysMS_iff _ _).2 (by rw [hu]; simp)) hnotun
        have hnotkeys : e.id ∉ akeys b.unack := by
          intro hc
          exact hnotun (by simpa [keysMS] using hc)
        have hen : b.enabled = true := by
          rcases hb : b.enabled with _ | _
          · have := (h.disabledEmpty hb).1
            rw [this] at hlk
            exact absurd hlk (by simp [alookup])
          · rfl
        have hsls' : alookup b.stats.bySched sched = some sls := hsls
        -- occupancy is preserved
        have hsplitR := idsMS_split b.ready sched pd h.readyKeysND hlk
        have hocc : occMS { b with
            ready := ainsert b.ready sched rest
            unack := ainsert b.unack e.id (e, b.tokenCtr)
            evals := ainsert b.evals e.id (cntOf b e.id + 1)
            tokenCtr := b.tokenCtr + 1
            stats := { b.stats with
              totalReady := b.stats.totalReady - 1
              totalUnacked := b.stats.totalUnacked + 1
              bySched := ainsert b.stats.bySched sched
                { sls with ready := sls.ready - 1, unacked := sls.unacked + 1 } } } =
            occMS b := by
          show idsMS (ainsert b.ready sched rest) + idsMS b.blocked +
            keysMS (ainsert b.unack e.id (e, b.tokenCtr)) + keysMS b.timeWait +
            evIds b.delayHeap = occMS b
          rw [idsMS_ainsert, keysMS_ainsert, aerase_of_not_mem _ _ hnotkeys]
          unfold occMS
          rw [hsplitR, hids]
          simp [Multiset.add_cons, Multiset.cons_add]
        have hcnt_self : cntOf { b with
            ready := ainsert b.ready sched rest
            unack := ainsert b.unack e.id (e, b.tokenCtr)
            evals := ainsert b.evals e.id (cntOf b e.id + 1)
            tokenCtr := b.tokenCtr + 1
            stats := { b.stats with
              totalReady := b.stats.totalReady - 1
              totalUnacked := b.stats.totalUnacked + 1
              bySched := ainsert b.stats.bySched sched
                { sls with ready := sls.ready - 1, unacked := sls.unacked + 1 } } }
            e.id = cntOf b e.id + 1 := by
          show (alookup (ainsert b.evals e.id (cntOf b e.id + 1)) e.id).getD 0 = _
          rw [alookup_ainsert_self]
          rfl
        have hcnt_ne : ∀ i, i ≠ e.id →
            (alookup (ainsert b.evals e.id (cntOf b e.id + 1)) i).getD 0 =
              cntOf b i := by
          intro i hne
          rw [alookup_ainsert_ne _ _ (fun hh => hne hh.symm)]
          rfl
        have hrest_sub : ∀ x ∈ rest, x ∈ pd := fun x hx =>
          hperm.mem_iff.2 (List.mem_cons_of_mem _ hx)
        have hpd_nd : (evIds pd).Nodup := by
          refine Multiset.nodup_of_le ?_ parts.1.1
          rw [hsplitR]
          exact Multiset.le_add_right _ _
        have hrest_ne : ∀ x ∈ rest, x.id ≠ e.id := by
          rw [hids] at hpd_nd
          have hnotin := (Multiset.nodup_cons.1 hpd_nd).1
          intro x hx heq
          exact hnotin (heq ▸ (mem_evIds rest x.id).2 ⟨x, hx, rfl⟩)
        have hother_ne : ∀ q' l' (x : Eval), q' ≠ sched → alookup b.ready q' = some l' →
            x ∈ l' → x.id ≠ e.id := by
          intro q' l' x hq' hlq hx heq
          have hnodupR := parts.1.1
          rw [hsplitR] at hnodupR
          have hdisj := (Multiset.nodup_add.1 hnodupR).2.2
          have hxa : x.id ∈ idsMS (aerase b.ready sched) := by
            refine mem_idsMS_of _ q' l' x ?_ hx
            rw [alookup_aerase_ne _ (fun hh => hq' hh.symm)]
            exact hlq
          have hxe : x.id ∈ evIds pd := by
            rw [hids, heq]
            exact Multiset.mem_cons_self _ _
          exact Multiset.disjoint_left.1 hdisj hxe hxa
        have hready_mem : ∀ q' l' (x : Eval),
            alookup (ainsert b.ready sched rest) q' = some l' → x ∈ l' →
            (q' = sched ∧ x ∈ rest ∧ x ∈ pd) ∨
            (q' ≠ sched ∧ alookup b.ready q' = some l' ∧ x ∈ l') := by
          intro q' l' x hlq hx
          by_cases hq' : sched = q'
          · subst hq'
            rw [alookup_ainsert_self] at hlq
            injection hlq with hlq
            subst hlq
            exact Or.inl ⟨rfl, hx, hrest_sub x hx⟩
          · rw [alookup_ainsert_ne _ _ hq'] at hlq
            exact Or.inr ⟨fun hh => hq' hh.symm, hlq, hx⟩
        refine ⟨?_, h.blockedKeysND, ?_, h.timeWaitKeysND, ?_, ?_, ?_, ?_, ?_, ?_,
          ?_, h.blockedKey, h.timeWaitIdEq, h.jobEvalsNe, h.requeueNe, ?_, ?_, ?_,
          ?_, ?_, ?_, ?_, ?_, ?_, ?_, ?_, ?_, fun hd => absurd (hen ▸ hd) (by simp)⟩
        · exact akeys_ainsert_nodup _ _ _ h.readyKeysND
        · exact akeys_ainsert_nodup _ _ _ h.unackKeysND
        · exact akeys_ainsert_nodup _ _ _ h.bySchedKeysND
        · rw [hocc]; exact h.occND
        · intro i
          rw [hocc]
          by_cases hie : i = e.id
          · subst hie
            constructor
            · intro _
              show (alookup (ainsert b.evals e.id (cntOf b e.id + 1)) e.id).isSome
              rw [alookup_ainsert_self]
              rfl
            · intro _
              exact mem_occ_ready b sched pd e hlk hmem_ev
          · show i ∈ occMS b ↔ (alookup (ainsert b.evals e.id (cntOf b e.id + 1)) i).isSome
            rw [alookup_ainsert_ne _ _ (fun hh => hie hh.symm)]
            exact h.occIff i
        · intro i hi
          rw [hocc] at hi
          exact h.occNe i hi
        · intro i x tk hu
          by_cases hie : e.id = i
          · subst hie
            rw [alookup_ainsert_self] at hu
            injection hu with hu
            injection hu with hu1 hu2
            exact hu1 ▸ rfl
          · rw [alookup_ainsert_ne _ _ hie] at hu
            exact h.unackIdEq i x tk hu
        · intro i x tk hu
          by_cases hie : e.id = i
          · subst hie
            rw [alookup_ainsert_self] at hu
            injection hu with hu
            injection hu with hu1 hu2
            rw [← hu1]
            exact h.readyRep sched pd e hlk hmem_ev
          · rw [alookup_ainsert_ne _ _ hie] at hu
            exact h.unackRep i x tk hu
        · intro q' l' x hlq hx
          rcases hready_mem q' l' x hlq hx with ⟨rfl, hxr, hxpd⟩ | ⟨hq', hlq', hx'⟩
          · exact h.readyRep q' pd x hlk hxpd
          · exact h.readyRep q' l' x hlq' hx'
        · intro q' l' x hlq hx hqf
          show ((alookup (ainsert b.evals e.id (cntOf b e.id + 1)) x.id).getD 0 : Int) ≤
            max (b.deliveryLimit - 1) 0
          rcases hready_mem q' l' x hlq hx with ⟨rfl, hxr, hxpd⟩ | ⟨hq', hlq', hx'⟩
          · rw [hcnt_ne x.id (hrest_ne x hxr)]
            exact h.readyCnt q' pd x hlk hxpd hqf
          · rw [hcnt_ne x.id (hother_ne q' l' x hq' hlq' hx')]
            exact h.readyCnt q' l' x hlq' hx' hqf
        · intro k l' x hk hx
          have hxid : x.id ∈ idsMS b.blocked := mem_idsMS_of _ k l' x hk hx
          have hxe : x.id ≠ e.id := by
            intro heq
            exact Multiset.disjoint_left.1 parts.2.1 hev_ready (heq ▸ hxid)
          show (alookup (ainsert b.evals e.id (cntOf b e.id + 1)) x.id).getD 0 = 0
          rw [hcnt_ne x.id hxe]
          exact h.blockedCnt k l' x hk hx
        · intro i x ht
          have hine : i ≠ e.id := by
            intro heq
            have hit : i ∈ keysMS b.timeWait := by
              rw [mem_keysMS_iff, ht]; simp
            exact Multiset.disjoint_left.1 parts.2.2.2.1 hev_ready (heq ▸ hit)
          show ((alookup (ainsert b.evals e.id (cntOf b e.id + 1)) i).getD 0 : Int) ≤
              max (b.deliveryLimit - 1) 0 ∧
            (1 ≤ (alookup (ainsert b.evals e.id (cntOf b e.id + 1)) i).getD 0 →
              alookup b.jobEvals (evalKey x) = some i)
          rw [hcnt_ne i hine]
          exact h.timeWaitCnt i x ht
        · intro x hx
          have hine : x.id ≠ e.id := by
            intro heq
            have hxd : x.id ∈ evIds b.delayHeap := (mem_evIds _ _).2 ⟨x, hx, rfl⟩
            exact Multiset.disjoint_left.1 parts.2.2.2.2.1 hev_ready (heq ▸ hxd)
          show (alookup (ainsert b.evals e.id (cntOf b e.id + 1)) x.id).getD 0 = 0
          rw [hcnt_ne x.id hine]
          exact h.delayCnt x hx
        · intro q' l' hlq
          by_cases hq' : sched = q'
          · subst hq'
            exact alookup_ainsert_isSome_mono _ _ _ _ (by rw [hsls']; simp)
          · rw [alookup_ainsert_ne _ _ hq'] at hlq
            exact alookup_ainsert_isSome_mono _ _ _ _ (h.readyQPresent q' l' hlq)
        · intro q' l' x hlq hx
          rcases hready_mem q' l' x hlq hx with ⟨rfl, hxr, hxpd⟩ | ⟨hq', hlq', hx'⟩
          · exact alookup_ainsert_isSome_mono _ _ _ _
              (h.readyTypePresent q' pd x hlk hxpd)
          · exact alookup_ainsert_isSome_mono _ _ _ _
              (h.readyTypePresent q' l' x hlq' hx')
        · intro i x tk hu
          by_cases hie : e.id = i
          · subst hie
            rw [alookup_ainsert_self] at hu
            injection hu with hu
            injection hu with hu1 hu2
            rw [← hu1]
            exact alookup_ainsert_isSome_mono _ _ _ _
              (h.readyTypePresent sched pd e hlk hmem_ev)
          · rw [alookup_ainsert_ne _ _ hie] at hu
            exact alookup_ainsert_isSome_mono _ _ _ _ (h.unackTypePresent i x tk hu)
        · intro hlim i x tk hu hgt
          by_cases hie : e.id = i
          · subst hie
            have hq : sched = failedQueue := by
              by_contra hqf
              have hbound := h.readyCnt sched pd e hlk hmem_ev hqf
              change ((alookup (ainsert b.evals e.id (cntOf b e.id + 1)) e.id).getD 0 :
                Int) > b.deliveryLimit at hgt
              rw [alookup_ainsert_self] at hgt
              simp only [Option.getD_some] at hgt
              have : (↑(cntOf b e.id) : Int) ≤ max (b.deliveryLimit - 1) 0 := hbound
              have hlim' : (1 : Int) ≤ b.deliveryLimit := by exact_mod_cast hlim
              rw [show max (b.deliveryLimit - 1) 0 = b.deliveryLimit - 1 from
                max_eq_left (by omega)] at this
              push_cast at hgt
              omega
            rw [← hq]
            exact alookup_ainsert_isSome_mono _ _ _ _ (by rw [hsls']; simp)
          · rw [alookup_ainsert_ne _ _ hie] at hu
            have hine : i ≠ e.id := fun hh => hie hh.symm
            change ((alookup (ainsert b.evals e.id (cntOf b e.id + 1)) i).getD 0 :
              Int) > b.deliveryLimit at hgt
            rw [hcnt_ne i hine] at hgt
            exact alookup_ainsert_isSome_mono _ _ _ _
              (h.unackChargeFailed hlim i x tk hu hgt)
        · show b.stats.totalUnacked + 1 = sumUnackedOf (ainsert b.stats.bySched sched
            { sls with ready := sls.ready - 1, unacked := sls.unacked + 1 })
          rw [sumUnackedOf_ainsert]
          have hsplit := sumUnackedOf_split b.stats.bySched sched sls
            h.bySchedKeysND hsls'
          rw [h.sumUnacked, hsplit]
          simp only
          ring
        · show b.stats.totalUnacked + 1 =
            ((ainsert b.unack e.id (e, b.tokenCtr)).length : Int)
          rw [length_ainsert_of_not_mem _ _ _ hnotkeys, h.lenUnacked]
          push_cast
          ring
        · intro i x tk hu
          show tk < b.tokenCtr + 1
          by_cases hie : e.id = i
          · subst hie
            rw [alookup_ainsert_self] at hu
            injection hu with hu
            injection hu with hu1 hu2
            omega
          · rw [alookup_ainsert_ne _ _ hie] at hu
            have := h.tokensLt i x tk hu
            omega
        · intro i1 x1 i2 x2 tk h1 h2
          by_cases hie1 : e.id = i1 <;> by_cases hie2 : e.id = i2
          · rw [← hie1, ← hie2]
          · subst hie1
            rw [alookup_ainsert_self] at h1
            rw [alookup_ainsert_ne _ _ hie2] at h2
            injection h1 with h1
            injection h1 with h1a h1b
            have := h.tokensLt i2 x2 tk h2
            exact absurd this (by omega)
          · subst hie2
            rw [alookup_ainsert_self] at h2
            rw [alookup_ainsert_ne _ _ hie1] at h1
            injection h2 with h2
            injection h2 with h2a h2b
            have := h.tokensLt i1 x1 tk h1
            exact absurd this (by omega)
          · rw [alookup_ainsert_ne _ _ hie1] at h1
            rw [alookup_ainsert_ne _ _ hie2] at h2
            exact h.tokensInj i1 x1 i2 x2 tk h1 h2

/-- A successful scan is a successful `dequeueForSched` on one of the
eligible classes. -/
theorem scan_got (b : BrokerState) (schedulers : List String) (pick : Nat)
    (e : Eval) (t : Nat) (b' : BrokerState)
    (h : scanForSchedulers b schedulers pick = .got e t b') :
    ∃ s, dequeueForSched b s = some ((e, t), b') := by
  simp only [scanForSchedulers] at h
  split at h
  · exact absurd h (by simp)
  · split at h
    · exact absurd h (by simp)
    · rename_i s heq
      split at h
      · exact absurd h (by simp)
      · rename_i p hd
        obtain ⟨ep, tp⟩ := p
        injection h with h1 h2 h3
        subst h1; subst h2; subst h3
        exact ⟨s, hd⟩
    · rename_i s1 s2 rest
      split at h
      · exact absurd h (by simp)
      · rename_i p hd
        obtain ⟨ep, tp⟩ := p
        injection h with h1 h2 h3
        subst h1; subst h2; subst h3
        exact ⟨_, hd⟩

/-- One blocking-dequeue scan preserves the invariant. -/
theorem inv_dequeueStep (b : BrokerState) (schedulers : List String) (pick : Nat)
    (h : Inv b) : Inv (dequeueStep b schedulers pick) := by
  unfold dequeueStep
  cases hscan : scanForSchedulers b schedulers pick with
  | got e t b2 =>
    obtain ⟨s, hd⟩ := scan_got b schedulers pick e t b2 hscan
    exact inv_dequeueForSched b s e t b2 h hd
  | err msg => exact h
  | empty => exact h
  | panic => exact h

/-- Removing an unack entry and decrementing its class gauge yields the mid
state from which `Nack`'s re-enqueue paths run; the requeue table may only
have shrunk. -/
theorem midInv_nackCleanup (b : BrokerState) (evalID : String) (eval : Eval)
    (tok : Nat) (rq : List (Nat × Eval)) (sls : SchedulerStats)
    (h : Inv b) (hu : alookup b.unack evalID = some (eval, tok))
    (hrq : ∀ t e, alookup rq t = some e → alookup b.requeue t = some e ∨ e.id ≠ "")
    (hsls : alookup b.stats.bySched eval.etype = some sls) :
    MidInv { b with
      requeue := rq
      unack := aerase b.unack evalID
      stats := { b.stats with
        totalUnacked := b.stats.totalUnacked - 1
        bySched := ainsert b.stats.bySched eval.etype
          { sls with unacked := sls.unacked - 1 } } } evalID := by
  set s' : BrokerState := { b with
      requeue := rq
      unack := aerase b.unack evalID
      stats := { b.stats with
        totalUnacked := b.stats.totalUnacked - 1
        bySched := ainsert b.stats.bySched eval.etype
          { sls with unacked := sls.unacked - 1 } } } with hs'
  have hocc : occMS b = evalID ::ₘ occMS s' := by
    show idsMS b.ready + idsMS b.blocked + keysMS b.unack + keysMS b.timeWait +
        evIds b.delayHeap =
      evalID ::ₘ (idsMS b.ready + idsMS b.blocked + keysMS (aerase b.unack evalID) +
        keysMS b.timeWait + evIds b.delayHeap)
    rw [keysMS_split b.unack evalID (eval, tok) h.unackKeysND hu]
    simp only [Multiset.add_cons, Multiset.cons_add]
  have hoccnd := h.occND
  rw [hocc, Multiset.nodup_cons] at hoccnd
  have hmem_of : ∀ i, i ∈ occMS s' → i ∈ occMS b := by
    intro i hi
    rw [hocc]
    exact Multiset.mem_cons.2 (Or.inr hi)
  refine ⟨h.readyKeysND, h.blockedKeysND, ?_, h.timeWaitKeysND, ?_, hoccnd.2, ?_, ?_,
    ?_, ?_, h.readyRep, h.blockedKey, h.timeWaitIdEq, h.jobEvalsNe, ?_,
    h.readyCnt, h.blockedCnt, h.timeWaitCnt, h.delayCnt, ?_, ?_, ?_, ?_, ?_, ?_,
    ?_, ?_⟩
  · exact akeys_aerase_nodup _ _ h.unackKeysND
  · exact akeys_ainsert_nodup _ _ _ h.bySchedKeysND
  · intro i
    constructor
    · intro hi
      refine ⟨(h.occIff i).1 (hmem_of i hi), ?_⟩
      intro hieq
      exact hoccnd.1 (hieq ▸ hi)
    · rintro ⟨hsome, hnei⟩
      have hib : i ∈ occMS b := (h.occIff i).2 hsome
      rw [hocc, Multiset.mem_cons] at hib
      rcases hib with rfl | hib
      · exact absurd rfl hnei
      · exact hib
  · intro i hi
    exact h.occNe i (hmem_of i hi)
  · intro i e t hus
    exact h.unackIdEq i e t (alookup_aerase_sub _ _ _ _ hus)
  · intro i e t hus
    exact h.unackRep i e t (alookup_aerase_sub _ _ _ _ hus)
  · intro t e hq
    rcases hrq t e hq with hold | hnee
    · exact h.requeueNe t e hold
    · exact hnee
  · intro q l hq
    exact alookup_ainsert_isSome_mono _ _ _ _ (h.readyQPresent q l hq)
  · intro q l e hq he
    exact alookup_ainsert_isSome_mono _ _ _ _ (h.readyTypePresent q l e hq he)
  · intro i e t hus
    exact alookup_ainsert_isSome_mono _ _ _ _
      (h.unackTypePresent i e t (alookup_aerase_sub _ _ _ _ hus))
  · intro hlim i e t hus hgt
    exact alookup_ainsert_isSome_mono _ _ _ _
      (h.unackChargeFailed hlim i e t (alookup_aerase_sub _ _ _ _ hus) hgt)
  · show b.stats.totalUnacked - 1 =
      sumUnackedOf (ainsert b.stats.bySched eval.etype
        { sls with unacked := sls.unacked - 1 })
    rw [sumUnackedOf_ainsert, h.sumUnacked,
      sumUnackedOf_split b.stats.bySched eval.etype sls h.bySchedKeysND hsls]
    show sls.unacked + sumUnackedOf (aerase b.stats.bySched eval.etype) - 1 =
      sls.unacked - 1 + sumUnackedOf (aerase b.stats.bySched eval.etype)
    ring
  · show b.stats.totalUnacked - 1 = ((aerase b.unack evalID).length : Int)
    have hlen := length_aerase_of_alookup b.unack evalID (eval, tok) h.unackKeysND hu
    have hl := h.lenUnacked
    omega
  · intro i e t hus
    exact h.tokensLt i e t (alookup_aerase_sub _ _ _ _ hus)
  · intro i1 e1 i2 e2 t h1 h2
    exact h.tokensInj i1 e1 i2 e2 t (alookup_aerase_sub _ _ _ _ h1)
      (alookup_aerase_sub _ _ _ _ h2)

/-- `Nack` preserves the invariant on every non-panic return path. -/
theorem inv_Nack (b : BrokerState) (evalID : String) (token : Nat)
    (b' : BrokerState) (r : Option String) (h : Inv b)
    (hres : Nack b evalID token = some (b', r)) : Inv b' := by
  have hb0 : Inv { b with requeue := aerase b.requeue token } := by
    refine inv_transport b _ rfl rfl rfl rfl rfl rfl rfl rfl rfl rfl rfl rfl ?_ h
    intro t e hq
    exact Or.inl (alookup_aerase_sub _ _ _ _ hq)
  simp only [Nack] at hres
  split at hres
  · injection hres with hres
    injection hres with h1 h2
    exact h1 ▸ hb0
  · rename_i eval tok hu
    split at hres
    · injection hres with hres
      injection hres with h1 h2
      exact h1 ▸ hb0
    · rename_i htok
      split at hres
      · exact absurd hres (by simp)
      · rename_i sls hsls
        have hu' : alookup b.unack evalID = some (eval, tok) := hu
        have heid : eval.id = evalID := h.unackIdEq evalID eval tok hu'
        subst heid
        have hmemocc : eval.id ∈ occMS b := mem_occ_unack b eval.id (eval, tok) hu'
        have hne : eval.id ≠ "" := h.occNe eval.id hmemocc
        have hpresent : (alookup b.evals eval.id).isSome := (h.occIff eval.id).1 hmemocc
        have hrep : alookup b.jobEvals (evalKey eval) = some eval.id :=
          h.unackRep eval.id eval tok hu'
        have hen : b.enabled = true := by
          cases hb : b.enabled with
          | false =>
            have hemp := (h.disabledEmpty hb).2.2.1
            rw [hemp] at hu'
            exact absurd hu' (by simp [alookup])
          | true => rfl
        have hsls' : alookup b.stats.bySched eval.etype = some sls := hsls
        have hm := midInv_nackCleanup b eval.id eval tok (aerase b.requeue token) sls
          h hu' (fun t e hq => Or.inl (alookup_aerase_sub _ _ _ _ hq)) hsls'
        split at hres
        · rename_i hge
          injection hres with hres
          injection hres with h1 h2
          subst h1
          refine inv_enqueueLocked _ eval failedQueue hm hen hne hpresent
            (Or.inl rfl) ?_ ?_
          · intro r0 hr0 hrne
            have hh : alookup b.jobEvals (evalKey eval) = some r0 := hr0
            rw [hrep] at hh
            injection hh with hh
            exact absurd hh.symm hrne
          · refine Or.inr ?_
            show (alookup (ainsert b.stats.bySched eval.etype
              { sls with unacked := sls.unacked - 1 }) eval.etype).isSome
            rw [alookup_ainsert_self]
            rfl
        · rename_i hge
          have hlt : ¬((cntOf b eval.id : Int) ≥ b.deliveryLimit) := hge
          have hcw : (cntOf b eval.id : Int) ≤ max (b.deliveryLimit - 1) 0 := by
            rw [le_max_iff]
            left
            omega
          split at hres
          · rename_i hw
            injection hres with hres
            injection hres with h1 h2
            subst h1
            refine inv_timeWaitInsert _ _ hm hen hne hpresent hcw ?_
            intro hge1
            exact hrep
          · rename_i hw
            injection hres with hres
            injection hres with h1 h2
            subst h1
            refine inv_enqueueLocked _ _ _ hm hen hne hpresent (Or.inr hcw) ?_
              (Or.inl rfl)
            intro r0 hr0 hrne
            have hh : alookup b.jobEvals (evalKey eval) = some r0 := hr0
            rw [hrep] at hh
            injection hh with hh
            exact absurd hh.symm hrne

/-- A `Nack` call (explicit or from the nack timer firing) preserves the
invariant. -/
theorem inv_nackStep (b : BrokerState) (evalID : String) (token : Nat)
    (h : Inv b) : Inv (nackStep b evalID token) := by
  unfold nackStep
  cases hres : Nack b evalID token with
  | none => exact h
  | some p =>
    obtain ⟨b', r⟩ := p
    exact inv_Nack b evalID token b' r h hres

/-- The deferred `delete(b.requeue, token)` preserves the invariant. -/
theorem inv_requeueErase (b4 : BrokerState) (token : Nat) (h4 : Inv b4) :
    Inv { b4 with requeue := aerase b4.requeue token } := by
  refine inv_transport b4 _ rfl rfl rfl rfl rfl rfl rfl rfl rfl rfl rfl rfl ?_ h4
  intro t e hq
  exact Or.inl (alookup_aerase_sub _ _ _ _ hq)

/-- `Ack`'s cleanup block: delete the unack entry, the attempt counter and
the job representative, and move the stats one unit out of Unacked. -/
theorem inv_ackCleanup (b : BrokerState) (evalID : String) (eval : Eval) (tok : Nat)
    (queue : String) (sls : SchedulerStats)
    (h : Inv b) (hu : alookup b.unack evalID = some (eval, tok))
    (hsls : alookup b.stats.bySched queue = some sls) :
    Inv { b with
      stats := { b.stats with
        totalUnacked := b.stats.totalUnacked - 1
        bySched := ainsert b.stats.bySched queue
          { sls with unacked := sls.unacked - 1 } }
      unack := aerase b.unack evalID
      evals := aerase b.evals evalID
      jobEvals := aerase b.jobEvals (evalKey eval) } := by
  obtain ⟨⟨hndR, hndB, hndU, hndT, hndD⟩, hdRB, hdRU, hdRT, hdRD, hdBU, hdBT,
    hdBD, hdUT, hdUD, hdTD⟩ := occ_parts b h.occND
  have heid : eval.id = evalID := h.unackIdEq evalID eval tok hu
  subst heid
  have hUmem : eval.id ∈ keysMS b.unack := by
    rw [mem_keysMS_iff, hu]; simp
  have hrep : alookup b.jobEvals (evalKey eval) = some eval.id :=
    h.unackRep eval.id eval tok hu
  have hen : b.enabled = true := by
    cases hb : b.enabled with
    | false =>
      have hemp := (h.disabledEmpty hb).2.2.1
      rw [hemp] at hu
      exact absurd hu (by simp [alookup])
    | true => rfl
  set s' : BrokerState := { b with
      stats := { b.stats with
        totalUnacked := b.stats.totalUnacked - 1
        bySched := ainsert b.stats.bySched queue
          { sls with unacked := sls.unacked - 1 } }
      unack := aerase b.unack eval.id
      evals := aerase b.evals eval.id
      jobEvals := aerase b.jobEvals (evalKey eval) } with hs'
  have hocc : occMS b = eval.id ::ₘ occMS s' := by
    show idsMS b.ready + idsMS b.blocked + keysMS b.unack + keysMS b.timeWait +
        evIds b.delayHeap =
      eval.id ::ₘ (idsMS b.ready + idsMS b.blocked + keysMS (aerase b.unack eval.id) +
        keysMS b.timeWait + evIds b.delayHeap)
    rw [keysMS_split b.unack eval.id (eval, tok) h.unackKeysND hu]
    simp only [Multiset.add_cons, Multiset.cons_add]
  have hoccnd := h.occND
  rw [hocc, Multiset.nodup_cons] at hoccnd
  have hmem_of : ∀ i, i ∈ occMS s' → i ∈ occMS b := by
    intro i hi
    rw [hocc]
    exact Multiset.mem_cons.2 (Or.inr hi)
  have hcnt_ne : ∀ i, i ≠ eval.id → cntOf s' i = cntOf b i := by
    intro i hi
    show (alookup (aerase b.evals eval.id) i).getD 0 = (alookup b.evals i).getD 0
    rw [alookup_aerase_ne _ (fun hh => hi hh.symm)]
  refine ⟨h.readyKeysND, h.blockedKeysND, ?_, h.timeWaitKeysND, ?_, hoccnd.2, ?_, ?_,
    ?_, ?_, ?_, h.blockedKey, h.timeWaitIdEq, ?_, h.requeueNe, ?_, ?_, ?_, ?_,
    ?_, ?_, ?_, ?_, ?_, ?_, ?_, ?_, fun hd => absurd (hen ▸ hd) (by simp)⟩
  · exact akeys_aerase_nodup _ _ h.unackKeysND
  · exact akeys_ainsert_nodup _ _ _ h.bySchedKeysND
  · intro i
    constructor
    · intro hi
      have hib := hmem_of i hi
      have hine : i ≠ eval.id := fun he => hoccnd.1 (he ▸ hi)
      show (alookup (aerase b.evals eval.id) i).isSome
      rw [alookup_aerase_ne _ (fun hh => hine hh.symm)]
      exact (h.occIff i).1 hib
    · intro hsome
      have hine : i ≠ eval.id := by
        intro he
        rw [he] at hsome
        rw [show (alookup s'.evals eval.id).isSome =
          (alookup (aerase b.evals eval.id) eval.id).isSome from rfl,
          alookup_aerase_self] at hsome
        exact absurd hsome (by simp)
      have hsome' : (alookup b.evals i).isSome := by
        rw [show (alookup s'.evals i).isSome =
          (alookup (aerase b.evals eval.id) i).isSome from rfl,
          alookup_aerase_ne _ (fun hh => hine hh.symm)] at hsome
        exact hsome
      have hib := (h.occIff i).2 hsome'
      rw [hocc, Multiset.mem_cons] at hib
      rcases hib with he | hib
      · exact absurd he hine
      · exact hib
  · intro i hi
    exact h.occNe i (hmem_of i hi)
  · intro i e t hus
    exact h.unackIdEq i e t (alookup_aerase_sub _ _ _ _ hus)
  · intro i e t hus
    have hine : i ≠ eval.id := by
      intro he
      rw [he] at hus
      rw [show alookup s'.unack eval.id =
        alookup (aerase b.unack eval.id) eval.id from rfl,
        alookup_aerase_self] at hus
      exact absurd hus (by simp)
    have hold := alookup_aerase_sub b.unack eval.id i (e, t) hus
    have hrepi := h.unackRep i e t hold
    have hkne : evalKey eval ≠ evalKey e := by
      intro hk
      rw [← hk, hrep] at hrepi
      injection hrepi with hh
      exact hine hh.symm
    show alookup (aerase b.jobEvals (evalKey eval)) (evalKey e) = some i
    rw [alookup_aerase_ne _ hkne]
    exact hrepi
  · intro q l e hq he
    have hrepe := h.readyRep q l e hq he
    have hidne : e.id ≠ eval.id := by
      intro hh
      exact (Multiset.disjoint_left.1 hdRU)
        (mem_idsMS_of b.ready q l e hq he) (hh ▸ hUmem)
    have hkne : evalKey eval ≠ evalKey e := by
      intro hk
      rw [← hk, hrep] at hrepe
      injection hrepe with hh
      exact hidne hh.symm
    show alookup (aerase b.jobEvals (evalKey eval)) (evalKey e) = some e.id
    rw [alookup_aerase_ne _ hkne]
    exact hrepe
  · intro k r hk
    exact h.jobEvalsNe k r (alookup_aerase_sub _ _ _ _ hk)
  · intro q l e hq he hqf
    have hidne : e.id ≠ eval.id := by
      intro hh
      exact (Multiset.disjoint_left.1 hdRU)
        (mem_idsMS_of b.ready q l e hq he) (hh ▸ hUmem)
    rw [hcnt_ne e.id hidne]
    exact h.readyCnt q l e hq he hqf
  · intro k l e hk he
    have hidne : e.id ≠ eval.id := by
      intro hh
      exact (Multiset.disjoint_left.1 hdBU)
        (mem_idsMS_of b.blocked k l e hk he) (hh ▸ hUmem)
    rw [hcnt_ne e.id hidne]
    exact h.blockedCnt k l e hk he
  · intro i e ht
    have hiT : i ∈ keysMS b.timeWait := by
      rw [mem_keysMS_iff, ht]; simp
    have hine : i ≠ eval.id := by
      intro hh
      exact (Multiset.disjoint_left.1 hdUT) hUmem (hh ▸ hiT)
    have hold := h.timeWaitCnt i e ht
    constructor
    · rw [hcnt_ne i hine]
      exact hold.1
    · intro hge
      rw [hcnt_ne i hine] at hge
      have hrepi := hold.2 hge
      have hkne : evalKey eval ≠ evalKey e := by
        intro hk
        rw [← hk, hrep] at hrepi
        injection hrepi with hh
        exact hine hh.symm
      show alookup (aerase b.jobEvals (evalKey eval)) (evalKey e) = some i
      rw [alookup_aerase_ne _ hkne]
      exact hrepi
  · intro e he
    have hidne : e.id ≠ eval.id := by
      intro hh
      refine (Multiset.disjoint_left.1 hdUD) hUmem ?_
      rw [mem_evIds]
      exact ⟨e, he, hh⟩
    rw [hcnt_ne e.id hidne]
    exact h.delayCnt e he
  · intro q l hq
    exact alookup_ainsert_isSome_mono _ _ _ _ (h.readyQPresent q l hq)
  · intro q l e hq he
    exact alookup_ainsert_isSome_mono _ _ _ _ (h.readyTypePresent q l e hq he)
  · intro i e t hus
    exact alookup_ainsert_isSome_mono _ _ _ _
      (h.unackTypePresent i e t (alookup_aerase_sub _ _ _ _ hus))
  · intro hlim i e t hus hgt
    have hine : i ≠ eval.id := by
      intro he
      rw [he] at hus
      rw [show alookup s'.unack eval.id =
        alookup (aerase b.unack eval.id) eval.id from rfl,
        alookup_aerase_self] at hus
      exact absurd hus (by simp)
    rw [hcnt_ne i hine] at hgt
    exact alookup_ainsert_isSome_mono _ _ _ _
      (h.unackChargeFailed hlim i e t (alookup_aerase_sub _ _ _ _ hus) hgt)
  · show b.stats.totalUnacked - 1 =
      sumUnackedOf (ainsert b.stats.bySched queue
        { sls with unacked := sls.unacked - 1 })
    rw [sumUnackedOf_ainsert, h.sumUnacked,
      sumUnackedOf_split b.stats.bySched queue sls h.bySchedKeysND hsls]
    show sls.unacked + sumUnackedOf (aerase b.stats.bySched queue) - 1 =
      sls.unacked - 1 + sumUnackedOf (aerase b.stats.bySched queue)
    ring
  · show b.stats.totalUnacked - 1 = ((aerase b.unack eval.id).length : Int)
    have hlen := length_aerase_of_alookup b.unack eval.id (eval, tok) h.unackKeysND hu
    have hl := h.lenUnacked
    omega
  · intro i e t hus
    exact h.tokensLt i e t (alookup_aerase_sub _ _ _ _ hus)
  · intro i1 e1 i2 e2 t h1 h2
    exact h.tokensInj i1 e1 i2 e2 t (alookup_aerase_sub _ _ _ _ h1)
      (alookup_aerase_sub _ _ _ _ h2)

/-- Popping the head of a blocked queue yields the mid state from which
`Ack` re-admits it. -/
theorem midInv_blockedPop (b2 : BrokerState) (nsid : NamespacedID)
    (blockedQ : List Eval) (beval : Eval) (rest : List Eval)
    (h2 : Inv b2)
    (hbq : alookup b2.blocked nsid = some blockedQ)
    (hpop : heapPop evalLess blockedQ = some (beval, rest)) :
    MidInv { b2 with
      blocked := if rest.length > 0 then ainsert b2.blocked nsid rest
                 else aerase b2.blocked nsid
      stats := { b2.stats with totalBlocked := b2.stats.totalBlocked - 1 } }
      beval.id := by
  have hp := heapPop_perm evalLess blockedQ beval rest hpop
  have hbm : beval ∈ blockedQ := hp.mem_iff.2 (List.mem_cons_self _ _)
  set s' : BrokerState := { b2 with
      blocked := if rest.length > 0 then ainsert b2.blocked nsid rest
                 else aerase b2.blocked nsid
      stats := { b2.stats with totalBlocked := b2.stats.totalBlocked - 1 } } with hs'
  have hnewB : idsMS (if rest.length > 0 then ainsert b2.blocked nsid rest
      else aerase b2.blocked nsid) = evIds rest + idsMS (aerase b2.blocked nsid) := by
    by_cases hr : rest.length > 0
    · rw [if_pos hr]
      exact idsMS_ainsert _ _ _
    · rw [if_neg hr]
      have hrest : rest = [] := List.length_eq_zero.1 (by omega)
      subst hrest
      show idsMS (aerase b2.blocked nsid) =
        evIds ([] : List Eval) + idsMS (aerase b2.blocked nsid)
      show idsMS (aerase b2.blocked nsid) = 0 + idsMS (aerase b2.blocked nsid)
      rw [zero_add]
  have hocc : occMS b2 = beval.id ::ₘ occMS s' := by
    show idsMS b2.ready + idsMS b2.blocked + keysMS b2.unack + keysMS b2.timeWait +
        evIds b2.delayHeap =
      beval.id ::ₘ (idsMS b2.ready +
        idsMS (if rest.length > 0 then ainsert b2.blocked nsid rest
               else aerase b2.blocked nsid) +
        keysMS b2.unack + keysMS b2.timeWait + evIds b2.delayHeap)
    rw [hnewB, idsMS_split b2.blocked nsid blockedQ h2.blockedKeysND hbq,
      evIds_heapPop evalLess blockedQ beval rest hpop]
    simp only [Multiset.add_cons, Multiset.cons_add]
  have hoccnd := h2.occND
  rw [hocc, Multiset.nodup_cons] at hoccnd
  have hmem_of : ∀ i, i ∈ occMS s' → i ∈ occMS b2 := by
    intro i hi
    rw [hocc]
    exact Multiset.mem_cons.2 (Or.inr hi)
  have hndB' : (akeys s'.blocked).Nodup := by
    show (akeys (if rest.length > 0 then ainsert b2.blocked nsid rest
      else aerase b2.blocked nsid)).Nodup
    by_cases hr : rest.length > 0
    · rw [if_pos hr]
      exact akeys_ainsert_nodup _ _ _ h2.blockedKeysND
    · rw [if_neg hr]
      exact akeys_aerase_nodup _ _ h2.blockedKeysND
  have hblocked_mem : ∀ k l e, alookup s'.blocked k = some l → e ∈ l →
      ∃ l0, alookup b2.blocked k = some l0 ∧ e ∈ l0 := by
    intro k l e hk he
    rw [show s'.blocked = (if rest.length > 0 then ainsert b2.blocked nsid rest
      else aerase b2.blocked nsid) from rfl] at hk
    by_cases hr : rest.length > 0
    · rw [if_pos hr] at hk
      by_cases hkk : nsid = k
      · subst hkk
        rw [alookup_ainsert_self] at hk
        injection hk with hk
        subst hk
        exact ⟨blockedQ, hbq, hp.mem_iff.2 (List.mem_cons_of_mem _ he)⟩
      · rw [alookup_ainsert_ne _ _ hkk] at hk
        exact ⟨l, hk, he⟩
    · rw [if_neg hr] at hk
      exact ⟨l, alookup_aerase_sub _ _ _ _ hk, he⟩
  refine ⟨h2.readyKeysND, hndB', h2.unackKeysND, h2.timeWaitKeysND, h2.bySchedKeysND,
    hoccnd.2, ?_, ?_, h2.unackIdEq, h2.unackRep, h2.readyRep, ?_, h2.timeWaitIdEq,
    h2.jobEvalsNe, h2.requeueNe, h2.readyCnt, ?_, h2.timeWaitCnt, h2.delayCnt,
    h2.readyQPresent, h2.readyTypePresent, h2.unackTypePresent, h2.unackChargeFailed,
    h2.sumUnacked, h2.lenUnacked, h2.tokensLt, h2.tokensInj⟩
  · intro i
    constructor
    · intro hi
      refine ⟨(h2.occIff i).1 (hmem_of i hi), ?_⟩
      intro hieq
      exact hoccnd.1 (hieq ▸ hi)
    · rintro ⟨hsome, hnei⟩
      have hib : i ∈ occMS b2 := (h2.occIff i).2 hsome
      rw [hocc, Multiset.mem_cons] at hib
      rcases hib with he | hib
      · exact absurd he hnei
      · exact hib
  · intro i hi
    exact h2.occNe i (hmem_of i hi)
  · intro k l e hk he
    obtain ⟨l0, hl0, hel0⟩ := hblocked_mem k l e hk he
    exact h2.blockedKey k l0 e hl0 hel0
  · intro k l e hk he
    obtain ⟨l0, hl0, hel0⟩ := hblocked_mem k l e hk he
    exact h2.blockedCnt k l0 e hl0 hel0

/-- `Ack`'s blocked-queue promotion: the popped head re-enters through
`enqueueLocked` on its own class. -/
theorem inv_blockedPromote (b2 : BrokerState) (nsid : NamespacedID)
    (blockedQ : List Eval) (beval : Eval) (rest : List Eval)
    (h2 : Inv b2) (hen : b2.enabled = true)
    (hbq : alookup b2.blocked nsid = some blockedQ)
    (hpop : heapPop evalLess blockedQ = some (beval, rest)) :
    Inv (enqueueLocked { b2 with
      blocked := if rest.length > 0 then ainsert b2.blocked nsid rest
                 else aerase b2.blocked nsid
      stats := { b2.stats with totalBlocked := b2.stats.totalBlocked - 1 } }
      beval beval.etype) := by
  have hmid := midInv_blockedPop b2 nsid blockedQ beval rest h2 hbq hpop
  have hp := heapPop_perm evalLess blockedQ beval rest hpop
  have hbm : beval ∈ blockedQ := hp.mem_iff.2 (List.mem_cons_self _ _)
  have hbmem : beval.id ∈ occMS b2 := mem_occ_blocked b2 nsid blockedQ beval hbq hbm
  have hbne : beval.id ≠ "" := h2.occNe _ hbmem
  have hbpres : (alookup b2.evals beval.id).isSome := (h2.occIff _).1 hbmem
  have hcnt0 : cntOf b2 beval.id = 0 := h2.blockedCnt nsid blockedQ beval hbq hbm
  set s' : BrokerState := { b2 with
      blocked := if rest.length > 0 then ainsert b2.blocked nsid rest
                 else aerase b2.blocked nsid
      stats := { b2.stats with totalBlocked := b2.stats.totalBlocked - 1 } } with hs'
  have hpres' : (alookup s'.evals beval.id).isSome := hbpres
  have hcnt0' : cntOf s' beval.id = 0 := hcnt0
  have hen' : s'.enabled = true := hen
  refine inv_enqueueLocked s' beval beval.etype hmid hen' hbne hpres' ?_ ?_ (Or.inl rfl)
  · refine Or.inr ?_
    rw [hcnt0']
    simp [le_max_iff]
  · intro r0 hr0 hrne
    exact hcnt0'

/-- The state after `Ack`'s blocked-queue check (whether or not a head was
promoted) satisfies the invariant. -/
theorem inv_ackPromoteState (b2 : BrokerState) (nsid : NamespacedID) (h2 : Inv b2)
    (hen : b2.enabled = true) :
    Inv (match alookup b2.blocked nsid with
         | none => b2
         | some blockedQ =>
           if blockedQ.length ≠ 0 then
             match heapPop evalLess blockedQ with
             | none => b2
             | some (beval, rest) =>
               enqueueLocked { b2 with
                 blocked := if rest.length > 0 then ainsert b2.blocked nsid rest
                            else aerase b2.blocked nsid
                 stats := { b2.stats with
                   totalBlocked := b2.stats.totalBlocked - 1 } }
                 beval beval.etype
           else b2) := by
  split
  · exact h2
  · rename_i blockedQ hbq
    split
    · split
      · exact h2
      · rename_i beval rest hpop
        exact inv_blockedPromote b2 nsid blockedQ beval rest h2 hen hbq hpop
    · exact h2

/-- The state after `Ack`'s requeue re-entry and the deferred requeue
delete satisfies the invariant. -/
theorem inv_ackFinishState (b3 : BrokerState) (token : Nat) (h3 : Inv b3) :
    Inv { (match alookup b3.requeue token with
           | some ev => processEnqueue b3 ev none
           | none => b3) with
      requeue := aerase (match alookup b3.requeue token with
           | some ev => processEnqueue b3 ev none
           | none => b3).requeue token } := by
  cases hq : alookup b3.requeue token with
  | none => exact inv_requeueErase b3 token h3
  | some ev =>
    exact inv_requeueErase _ token
      (inv_processEnqueue b3 ev none h3 (h3.requeueNe token ev hq))

/-- `Ack` preserves the invariant on every non-panic return path. -/
theorem inv_Ack (b : BrokerState) (evalID : String) (token : Nat)
    (timerStopped : Bool) (b' : BrokerState) (r : Option String) (h : Inv b)
    (hres : Ack b evalID token timerStopped = some (b', r)) : Inv b' := by
  simp only [Ack] at hres
  split at hres
  · injection hres with hres
    injection hres with h1 h2
    exact h1 ▸ inv_requeueErase b token h
  · rename_i eval tok hu
    split at hres
    · injection hres with hres
      injection hres with h1 h2
      exact h1 ▸ inv_requeueErase b token h
    · split at hres
      · injection hres with hres
        injection hres with h1 h2
        exact h1 ▸ inv_requeueErase b token h
      · split at hres
        · exact absurd hres (by simp)
        · rename_i sls hsls
          have hu' : alookup b.unack evalID = some (eval, tok) := hu
          have hen : b.enabled = true := by
            cases hb : b.enabled with
            | false =>
              have hemp := (h.disabledEmpty hb).2.2.1
              rw [hemp] at hu'
              exact absurd hu' (by simp [alookup])
            | true => rfl
          have h2inv := inv_ackCleanup b evalID eval tok _ sls h hu' hsls
          injection hres with hres
          injection hres with h1 h2
          subst h1
          exact inv_ackFinishState _ token
            (inv_ackPromoteState _ (evalKey eval) h2inv hen)

/-- An `Ack` call preserves the invariant. -/
theorem inv_ackStep (b : BrokerState) (evalID : String) (token : Nat)
    (timerStopped : Bool) (h : Inv b) :
    Inv (ackStep b evalID token timerStopped) := by
  unfold ackStep
  cases hres : Ack b evalID token timerStopped with
  | none => exact h
  | some p =>
    obtain ⟨b', r⟩ := p
    exact inv_Ack b evalID token timerStopped b' r h hres

/-- Removing a fired wait timer yields the mid state from which the timer's
evaluation re-enters. -/
theorem midInv_waitRemove (b : BrokerState) (eval : Eval) (h : Inv b)
    (ht : alookup b.timeWait eval.id = some eval) :
    MidInv { b with
      timeWait := aerase b.timeWait eval.id
      stats := { b.stats with totalWaiting := b.stats.totalWaiting - 1 } }
      eval.id := by
  set s' : BrokerState := { b with
      timeWait := aerase b.timeWait eval.id
      stats := { b.stats with totalWaiting := b.stats.totalWaiting - 1 } } with hs'
  have hocc : occMS b = eval.id ::ₘ occMS s' := by
    show idsMS b.ready + idsMS b.blocked + keysMS b.unack + keysMS b.timeWait +
        evIds b.delayHeap =
      eval.id ::ₘ (idsMS b.ready + idsMS b.blocked + keysMS b.unack +
        keysMS (aerase b.timeWait eval.id) + evIds b.delayHeap)
    rw [keysMS_split b.timeWait eval.id eval h.timeWaitKeysND ht]
    simp only [Multiset.add_cons, Multiset.cons_add]
  have hoccnd := h.occND
  rw [hocc, Multiset.nodup_cons] at hoccnd
  have hmem_of : ∀ i, i ∈ occMS s' → i ∈ occMS b := by
    intro i hi
    rw [hocc]
    exact Multiset.mem_cons.2 (Or.inr hi)
  refine ⟨h.readyKeysND, h.blockedKeysND, h.unackKeysND, ?_, h.bySchedKeysND,
    hoccnd.2, ?_, ?_, h.unackIdEq, h.unackRep, h.readyRep, h.blockedKey, ?_,
    h.jobEvalsNe, h.requeueNe, h.readyCnt, h.blockedCnt, ?_, h.delayCnt,
    h.readyQPresent, h.readyTypePresent, h.unackTypePresent, h.unackChargeFailed,
    h.sumUnacked, h.lenUnacked, h.tokensLt, h.tokensInj⟩
  · exact akeys_aerase_nodup _ _ h.timeWaitKeysND
  · intro i
    constructor
    · intro hi
      refine ⟨(h.occIff i).1 (hmem_of i hi), ?_⟩
      intro hieq
      exact hoccnd.1 (hieq ▸ hi)
    · rintro ⟨hsome, hnei⟩
      have hib : i ∈ occMS b := (h.occIff i).2 hsome
      rw [hocc, Multiset.mem_cons] at hib
      rcases hib with he | hib
      · exact absurd he hnei
      · exact hib
  · intro i hi
    exact h.occNe i (hmem_of i hi)
  · intro i e hti
    exact h.timeWaitIdEq i e (alookup_aerase_sub _ _ _ _ hti)
  · intro i e hti
    exact h.timeWaitCnt i e (alookup_aerase_sub _ _ _ _ hti)

/-- A wait timer firing (`enqueueWaiting`) preserves the invariant. -/
theorem inv_enqueueWaiting (b : BrokerState) (id : String) (eval : Eval)
    (h : Inv b) (ht : alookup b.timeWait id = some eval) :
    Inv (enqueueWaiting b eval) := by
  have heid : eval.id = id := h.timeWaitIdEq id eval ht
  subst heid
  have hmemocc : eval.id ∈ occMS b := mem_occ_timeWait b eval.id eval ht
  have hne : eval.id ≠ "" := h.occNe _ hmemocc
  have hpres : (alookup b.evals eval.id).isSome := (h.occIff _).1 hmemocc
  have hen : b.enabled = true := by
    cases hb : b.enabled with
    | false =>
      have hemp := (h.disabledEmpty hb).2.2.2.1
      rw [hemp] at ht
      exact absurd ht (by simp [alookup])
    | true => rfl
  have hcnt := h.timeWaitCnt eval.id eval ht
  have hmid := midInv_waitRemove b eval h ht
  show Inv (enqueueLocked { b with
    timeWait := aerase b.timeWait eval.id
    stats := { b.stats with totalWaiting := b.stats.totalWaiting - 1 } }
    eval eval.etype)
  refine inv_enqueueLocked _ eval eval.etype hmid hen hne hpres (Or.inr hcnt.1)
    ?_ (Or.inl rfl)
  intro r0 hr0 hrne
  rcases Nat.eq_zero_or_pos (cntOf b eval.id) with h0 | hpos
  · exact h0
  · have hrepi := hcnt.2 hpos
    have hr0' : alookup b.jobEvals (evalKey eval) = some r0 := hr0
    rw [hrepi] at hr0'
    injection hr0' with hh
    exact absurd hh.symm hrne

/-- Removing a fired delayed evaluation yields the mid state from which it
re-enters. -/
theorem midInv_delayRemove (b : BrokerState) (eval : Eval) (h : Inv b)
    (hd : eval ∈ b.delayHeap) :
    MidInv { b with
      delayHeap := b.delayHeap.filter (fun e => e.id ≠ eval.id)
      stats := { b.stats with totalWaiting := b.stats.totalWaiting - 1 } }
      eval.id := by
  have hndD : (b.delayHeap.map Eval.id).Nodup := by
    have := ((occ_parts b h.occND).1.2.2.2.2 : (evIds b.delayHeap).Nodup)
    exact Multiset.coe_nodup.1 this
  set s' : BrokerState := { b with
      delayHeap := b.delayHeap.filter (fun e => e.id ≠ eval.id)
      stats := { b.stats with totalWaiting := b.stats.totalWaiting - 1 } } with hs'
  have hocc : occMS b = eval.id ::ₘ occMS s' := by
    show idsMS b.ready + idsMS b.blocked + keysMS b.unack + keysMS b.timeWait +
        evIds b.delayHeap =
      eval.id ::ₘ (idsMS b.ready + idsMS b.blocked + keysMS b.unack +
        keysMS b.timeWait + evIds (b.delayHeap.filter (fun e => e.id ≠ eval.id)))
    rw [evIds_filter_ne b.delayHeap eval hd hndD]
    simp only [Multiset.add_cons, Multiset.cons_add]
  have hoccnd := h.occND
  rw [hocc, Multiset.nodup_cons] at hoccnd
  have hmem_of : ∀ i, i ∈ occMS s' → i ∈ occMS b := by
    intro i hi
    rw [hocc]
    exact Multiset.mem_cons.2 (Or.inr hi)
  refine ⟨h.readyKeysND, h.blockedKeysND, h.unackKeysND, h.timeWaitKeysND,
    h.bySchedKeysND, hoccnd.2, ?_, ?_, h.unackIdEq, h.unackRep, h.readyRep,
    h.blockedKey, h.timeWaitIdEq, h.jobEvalsNe, h.requeueNe, h.readyCnt,
    h.blockedCnt, h.timeWaitCnt, ?_, h.readyQPresent, h.readyTypePresent,
    h.unackTypePresent, h.unackChargeFailed, h.sumUnacked, h.lenUnacked,
    h.tokensLt, h.tokensInj⟩
  · intro i
    constructor
    · intro hi
      refine ⟨(h.occIff i).1 (hmem_of i hi), ?_⟩
      intro hieq
      exact hoccnd.1 (hieq ▸ hi)
    · rintro ⟨hsome, hnei⟩
      have hib : i ∈ occMS b := (h.occIff i).2 hsome
      rw [hocc, Multiset.mem_cons] at hib
      rcases hib with he | hib
      · exact absurd he hnei
      · exact hib
  · intro i hi
    exact h.occNe i (hmem_of i hi)
  · intro e he
    exact h.delayCnt e (List.mem_of_mem_filter he)

/-- A delayed-eval timer firing preserves the invariant. -/
theorem inv_delayedEvalFire (b : BrokerState) (eval : Eval) (h : Inv b)
    (hd : eval ∈ b.delayHeap) : Inv (delayedEvalFire b eval) := by
  have hmemocc : eval.id ∈ occMS b := mem_occ_delay b eval hd
  have hne : eval.id ≠ "" := h.occNe _ hmemocc
  have hpres : (alookup b.evals eval.id).isSome := (h.occIff _).1 hmemocc
  have hen : b.enabled = true := by
    cases hb : b.enabled with
    | false =>
      have hemp := (h.disabledEmpty hb).2.2.2.2.1
      rw [hemp] at hd
      exact absurd hd (by simp)
    | true => rfl
  have hcnt0 : cntOf b eval.id = 0 := h.delayCnt eval hd
  have hmid := midInv_delayRemove b eval h hd
  show Inv (enqueueLocked { b with
    delayHeap := b.delayHeap.filter (fun e => e.id ≠ eval.id)
    stats := { b.stats with totalWaiting := b.stats.totalWaiting - 1 } }
    eval eval.etype)
  refine inv_enqueueLocked _ eval eval.etype hmid hen hne hpres (Or.inr ?_)
    (fun r0 hr0 hrne => hcnt0) (Or.inl rfl)
  show ((cntOf b eval.id : Nat) : Int) ≤ _
  rw [hcnt0]
  simp [le_max_iff]

/-- Every broker entry point preserves the invariant. -/
theorem inv_step {b b' : BrokerState} (hs : Step b b') (h : Inv b) : Inv b' := by
  cases hs with
  | setEnabled en => exact inv_SetEnabled _ en h
  | enqueue eval hne => exact inv_Enqueue _ eval h hne
  | enqueueAll pairs hp => exact inv_EnqueueAll pairs _ h hp
  | dequeue schedulers pick => exact inv_dequeueStep _ schedulers pick h
  | ack evalID token ts => exact inv_ackStep _ evalID token ts h
  | nack evalID token => exact inv_nackStep _ evalID token h
  | waitFire i eval ht => exact inv_enqueueWaiting _ i eval h ht
  | delayFire eval hdel => exact inv_delayedEvalFire _ eval h hdel

/-- The invariant holds in every reachable state. -/
theorem inv_reachable (b0 b : BrokerState) (h0 : IsInit b0) (hr : Reachable b0 b) :
    Inv b := by
  induction hr with
  | refl => exact inv_init b0 h0
  | tail _ hstep ih => exact inv_step hstep ih

/-- When the job is unregistered or the eval is its own representative,
`enqueueLocked` pushes the eval onto the requested ready queue. -/
theorem enqueueLocked_mem (s : BrokerState) (ev : Eval) (q : String)
    (hen : s.enabled = true)
    (hrep : alookup s.jobEvals (evalKey ev) = none ∨
            alookup s.jobEvals (evalKey ev) = some ev.id) :
    ∃ l, alookup (enqueueLocked s ev q).ready q = some l ∧ ev ∈ l := by
  simp only [enqueueLocked]
  rw [if_neg (by rw [hen]; simp)]
  split
  · exact ⟨_, alookup_ainsert_self _ _ _, (mem_heapPush _ _ _ _).2 (Or.inl rfl)⟩
  · rename_i hpe
    split
    · rename_i hpne
      exfalso
      rcases hrep with hnone | hself
      · rw [hnone] at hpe
        exact hpe rfl
      · rw [hself] at hpne
        exact hpne rfl
    · exact ⟨_, alookup_ainsert_self _ _ _, (mem_heapPush _ _ _ _).2 (Or.inl rfl)⟩

/-- `enqueueLocked` never touches the attempt-counter table. -/
theorem enqueueLocked_evals (s : BrokerState) (ev : Eval) (q : String) :
    (enqueueLocked s ev q).evals = s.evals := by
  simp only [enqueueLocked]
  split
  · rfl
  · split
    · rfl
    · split
      · rfl
      · rfl

/-- `enqueueLocked` never touches the requeue table. -/
theorem enqueueLocked_requeue (s : BrokerState) (ev : Eval) (q : String) :
    (enqueueLocked s ev q).requeue = s.requeue := by
  simp only [enqueueLocked]
  split
  · rfl
  · split
    · rfl
    · split
      · rfl
      · rfl

/-- `enqueueLocked` never touches the enabled flag. -/
theorem enqueueLocked_enabled (s : BrokerState) (ev : Eval) (q : String) :
    (enqueueLocked s ev q).enabled = s.enabled := by
  simp only [enqueueLocked]
  split
  · rfl
  · split
    · rfl
    · split
      · rfl
      · rfl

/-- An evaluation unknown to the attempt-counter table enters `processEnqueue`
as a fresh enqueue: its counter is registered at zero. -/
theorem processEnqueue_evals_fresh (b : BrokerState) (ev : Eval)
    (hen : b.enabled = true) (habs : alookup b.evals ev.id = none) :
    alookup (processEnqueue b ev none).evals ev.id = some 0 := by
  simp only [processEnqueue]
  rw [if_neg (by rw [hen]; simp), if_neg (by rw [habs]; simp)]
  split
  · show alookup (ainsert b.evals ev.id 0) ev.id = some 0
    exact alookup_ainsert_self _ _ _
  · split
    · show alookup (ainsert b.evals ev.id 0) ev.id = some 0
      exact alookup_ainsert_self _ _ _
    · rw [enqueueLocked_evals]
      show alookup (ainsert b.evals ev.id 0) ev.id = some 0
      exact alookup_ainsert_self _ _ _

/-- After `Ack`'s cleanup, the eval carried by the matching requeue entry is
re-enqueued fresh: its attempt counter ends at zero. -/
theorem ack_requeue_reenqueue (b : BrokerState) (E2 e : Eval) (T : Nat)
    (sls : SchedulerStats) (queue : String)
    (hen : b.enabled = true)
    (hrq : alookup b.requeue T = some E2) :
    let b2 : BrokerState := { b with
      stats := { b.stats with
        totalUnacked := b.stats.totalUnacked - 1
        bySched := ainsert b.stats.bySched queue
          { sls with unacked := sls.unacked - 1 } }
      unack := aerase b.unack E2.id
      evals := aerase b.evals E2.id
      jobEvals := aerase b.jobEvals (evalKey e) }
    let b3 : BrokerState := match alookup b2.blocked (evalKey e) with
      | none => b2
      | some blockedQ =>
        if blockedQ.length ≠ 0 then
          match heapPop evalLess blockedQ with
          | none => b2
          | some (beval, rest) =>
            enqueueLocked { b2 with
              blocked := if rest.length > 0 then ainsert b2.blocked (evalKey e) rest
                         else aerase b2.blocked (evalKey e)
              stats := { b2.stats with
                totalBlocked := b2.stats.totalBlocked - 1 } }
              beval beval.etype
        else b2
    let b4 : BrokerState := match alookup b3.requeue T with
      | some ev => processEnqueue b3 ev none
      | none => b3
    alookup ({ b4 with requeue := aerase b4.requeue T }).evals E2.id = some 0 := by
  intro b2 b3 b4
  have hreq3 : b3.requeue = b.requeue := by
    show (match alookup b2.blocked (evalKey e) with
      | none => b2
      | some blockedQ =>
        if blockedQ.length ≠ 0 then
          match heapPop evalLess blockedQ with
          | none => b2
          | some (beval, rest) =>
            enqueueLocked { b2 with
              blocked := if rest.length > 0 then ainsert b2.blocked (evalKey e) rest
                         else aerase b2.blocked (evalKey e)
              stats := { b2.stats with
                totalBlocked := b2.stats.totalBlocked - 1 } }
              beval beval.etype
        else b2).requeue = b.requeue
    split
    · rfl
    · split
      · split
        · rfl
        · rw [enqueueLocked_requeue]
      · rfl
  have hevals3 : b3.evals = aerase b.evals E2.id := by
    show (match alookup b2.blocked (evalKey e) with
      | none => b2
      | some blockedQ =>
        if blockedQ.length ≠ 0 then
          match heapPop evalLess blockedQ with
          | none => b2
          | some (beval, rest) =>
            enqueueLocked { b2 with
              blocked := if rest.length > 0 then ainsert b2.blocked (evalKey e) rest
                         else aerase b2.blocked (evalKey e)
              stats := { b2.stats with
                totalBlocked := b2.stats.totalBlocked - 1 } }
              beval beval.etype
        else b2).evals = aerase b.evals E2.id
    split
    · rfl
    · split
      · split
        · rfl
        · rw [enqueueLocked_evals]
      · rfl
  have hen3 : b3.enabled = true := by
    show (match alookup b2.blocked (evalKey e) with
      | none => b2
      | some blockedQ =>
        if blockedQ.length ≠ 0 then
          match heapPop evalLess blockedQ with
          | none => b2
          | some (beval, rest) =>
            enqueueLocked { b2 with
              blocked := if rest.length > 0 then ainsert b2.blocked (evalKey e) rest
                         else aerase b2.blocked (evalKey e)
              stats := { b2.stats with
                totalBlocked := b2.stats.totalBlocked - 1 } }
              beval beval.etype
        else b2).enabled = true
    split
    · exact hen
    · split
      · split
        · exact hen
        · rw [enqueueLocked_enabled]
          exact hen
      · exact hen
  have h4 : b4 = processEnqueue b3 E2 none := by
    show (match alookup b3.requeue T with
      | some ev => processEnqueue b3 ev none
      | none => b3) = processEnqueue b3 E2 none
    rw [hreq3, hrq]
  have habs : alookup b3.evals E2.id = none := by
    rw [hevals3]
    exact alookup_aerase_self _ _
  show alookup ({ b4 with requeue := aerase b4.requeue T } : BrokerState).evals
      E2.id = some 0
  rw [h4]
  exact processEnqueue_evals_fresh b3 E2 hen3 habs

/-- The evaluations resident in the ready queues. -/
def readyEvals (b : BrokerState) : List Eval := (b.ready.map Prod.snd).flatten

/-- The evaluations resident in the unack table. -/
def unackEvals (b : BrokerState) : List Eval := b.unack.map (fun p => p.2.1)

theorem map_id_flatten (m : List (String × List Eval)) :
    ((m.map Prod.snd).flatten).map Eval.id =
      (m.map (fun p => p.2.map Eval.id)).flatten := by
  induction m with
  | nil => rfl
  | cons p t ih => simp only [List.map_cons, List.flatten_cons, List.map_append, ih]

theorem idsMS_readyEvals (b : BrokerState) :
    idsMS b.ready = (((readyEvals b).map Eval.id : List String) : Multiset String) := by
  show (((b.ready.map (fun p => p.2.map Eval.id)).flatten : List String) :
    Multiset String) = _
  exact congrArg (fun l => ((l : List String) : Multiset String))
    (map_id_flatten b.ready).symm

theorem unackEvals_ids (b : BrokerState) (h : Inv b) :
    (unackEvals b).map Eval.id = akeys b.unack := by
  show (b.unack.map (fun p => p.2.1)).map Eval.id = b.unack.map Prod.fst
  rw [List.map_map]
  refine List.map_congr_left ?_
  intro p hp
  obtain ⟨k, v⟩ := p
  obtain ⟨eu, tu⟩ := v
  have hl := alookup_of_mem_nodup b.unack k (eu, tu) h.unackKeysND hp
  show eu.id = k
  exact h.unackIdEq k eu tu hl

/-- Every evaluation in ready ∪ unack is its job's registered
representative. -/
theorem readyUnack_rep (b : BrokerState) (h : Inv b) :
    ∀ e ∈ readyEvals b ++ unackEvals b,
      alookup b.jobEvals (evalKey e) = some e.id := by
  intro e he
  rcases List.mem_append.1 he with hR | hU
  · obtain ⟨l, hl, hel⟩ := List.mem_flatten.1 hR
    obtain ⟨p, hp, rfl⟩ := List.mem_map.1 hl
    exact h.readyRep p.1 p.2 e (alookup_of_mem_nodup _ _ _ h.readyKeysND hp) hel
  · obtain ⟨p, hp, rfl⟩ := List.mem_map.1 hU
    have hl := alookup_of_mem_nodup b.unack p.1 p.2 h.unackKeysND hp
    have hid := h.unackIdEq p.1 p.2.1 p.2.2 hl
    have hrep := h.unackRep p.1 p.2.1 p.2.2 hl
    rw [hid]
    exact hrep

/-- The ids across ready ∪ unack are pairwise distinct. -/
theorem readyUnack_ids_nodup (b : BrokerState) (h : Inv b) :
    ((readyEvals b ++ unackEvals b).map Eval.id).Nodup := by
  obtain ⟨⟨hndR, _, hndU, _, _⟩, _, hdRU, _⟩ := occ_parts b h.occND
  rw [List.map_append, List.nodup_append]
  refine ⟨?_, ?_, ?_⟩
  · refine Multiset.coe_nodup.1 ?_
    rw [← idsMS_readyEvals]
    exact hndR
  · refine Multiset.coe_nodup.1 ?_
    rw [show ((((unackEvals b).map Eval.id : List String)) : Multiset String) =
      keysMS b.unack from congrArg (fun l => ((l : List String) : Multiset String))
        (unackEvals_ids b h)]
    exact hndU
  · intro a haR haU
    have h1 : a ∈ idsMS b.ready := by
      rw [idsMS_readyEvals]
      exact Multiset.mem_coe.2 haR
    have h2 : a ∈ keysMS b.unack := by
      rw [unackEvals_ids b h] at haU
      exact Multiset.mem_coe.2 haU
    exact Multiset.disjoint_left.1 hdRU h1 h2

/-- A list of evaluations with pairwise-distinct ids has at most one member
satisfying any predicate that pins the id. -/
theorem length_filter_le_one_of_id (l : List Eval) (p : Eval → Bool) (x : String)
    (hnd : (l.map Eval.id).Nodup) (hx : ∀ e ∈ l, p e = true → e.id = x) :
    (l.filter p).length ≤ 1 := by
  induction l with
  | nil => simp
  | cons a t ih =>
    simp only [List.map_cons, List.nodup_cons] at hnd
    rw [List.filter_cons]
    by_cases hpa : p a = true
    · rw [if_pos hpa]
      have hft : t.filter p = [] := by
        refine List.filter_eq_nil_iff.2 ?_
        intro y hy hpy
        have hya : y.id = x := hx y (List.mem_cons_of_mem _ hy) hpy
        have haa : a.id = x := hx a (List.mem_cons_self _ _) hpa
        refine hnd.1 ?_
        rw [haa, ← hya]
        exact List.mem_map_of_mem Eval.id hy
      rw [hft]
      simp
    · rw [if_neg hpa]
      exact ih hnd.2 (fun e he hpe => hx e (List.mem_cons_of_mem _ he) hpe)

/-- Ready-queue membership is preserved by `admitReady`. -/
theorem mem_ready_admitReady (s : BrokerState) (ev : Eval) (q0 q : String)
    (l : List Eval) (e : Eval)
    (hq : alookup s.ready q = some l) (he : e ∈ l) :
    ∃ l2, alookup (admitReady s ev q0).ready q = some l2 ∧ e ∈ l2 := by
  by_cases hqq : q0 = q
  · subst hqq
    refine ⟨heapPush evalLess ((alookup s.ready q0).getD []) ev, ?_, ?_⟩
    · show alookup (ainsert s.ready q0
        (heapPush evalLess ((alookup s.ready q0).getD []) ev)) q0 = _
      exact alookup_ainsert_self _ _ _
    · refine (mem_heapPush _ _ _ _).2 (Or.inr ?_)
      rw [hq]
      exact he
  · refine ⟨l, ?_, he⟩
    show alookup (ainsert s.ready q0
      (heapPush evalLess ((alookup s.ready q0).getD []) ev)) q = some l
    rw [alookup_ainsert_ne _ _ hqq]
    exact hq

/-- Ready-queue membership is preserved by `enqueueLocked`. -/
theorem mem_ready_enqueueLocked (s : BrokerState) (ev : Eval) (q0 q : String)
    (l : List Eval) (e : Eval)
    (hq : alookup s.ready q = some l) (he : e ∈ l) :
    ∃ l2, alookup (enqueueLocked s ev q0).ready q = some l2 ∧ e ∈ l2 := by
  simp only [enqueueLocked]
  split
  · exact ⟨l, hq, he⟩
  · split
    · exact mem_ready_admitReady _ ev q0 q l e hq he
    · split
      · exact ⟨l, hq, he⟩
      · exact mem_ready_admitReady _ ev q0 q l e hq he

/-- Ready-queue membership is preserved by `processEnqueue`. -/
theorem mem_ready_processEnqueue (s : BrokerState) (ev : Eval) (tok : Option Nat)
    (q : String) (l : List Eval) (e : Eval)
    (hq : alookup s.ready q = some l) (he : e ∈ l) :
    ∃ l2, alookup (processEnqueue s ev tok).ready q = some l2 ∧ e ∈ l2 := by
  simp only [processEnqueue]
  split
  · exact ⟨l, hq, he⟩
  · split
    · split
      · exact ⟨l, hq, he⟩
      · split
        · split
          · exact ⟨l, hq, he⟩
          · exact ⟨l, hq, he⟩
        · exact ⟨l, hq, he⟩
    · split
      · exact ⟨l, hq, he⟩
      · split
        · exact ⟨l, hq, he⟩
        · exact mem_ready_enqueueLocked _ ev ev.etype q l e hq he

/-- After `Ack`'s cleanup, the head popped from the blocked queue is pushed
onto its own class's ready queue and stays there to the end of `Ack`. -/
theorem ack_blocked_promote_mem (b : BrokerState) (evalID : String) (e bh : Eval)
    (bq rest : List Eval) (T : Nat) (sls : SchedulerStats) (queue : String)
    (hen : b.enabled = true)
    (hbq : alookup b.blocked (evalKey e) = some bq)
    (hpop : heapPop evalLess bq = some (bh, rest))
    (hkey : evalKey bh = evalKey e) :
    let b2 : BrokerState := { b with
      stats := { b.stats with
        totalUnacked := b.stats.totalUnacked - 1
        bySched := ainsert b.stats.bySched queue
          { sls with unacked := sls.unacked - 1 } }
      unack := aerase b.unack evalID
      evals := aerase b.evals evalID
      jobEvals := aerase b.jobEvals (evalKey e) }
    let b3 : BrokerState := match alookup b2.blocked (evalKey e) with
      | none => b2
      | some blockedQ =>
        if blockedQ.length ≠ 0 then
          match heapPop evalLess blockedQ with
          | none => b2
          | some (beval, restQ) =>
            enqueueLocked { b2 with
              blocked := if restQ.length > 0 then
                           ainsert b2.blocked (evalKey e) restQ
                         else aerase b2.blocked (evalKey e)
              stats := { b2.stats with
                totalBlocked := b2.stats.totalBlocked - 1 } }
              beval beval.etype
        else b2
    let b4 : BrokerState := match alookup b3.requeue T with
      | some ev => processEnqueue b3 ev none
      | none => b3
    ∃ l, alookup ({ b4 with requeue := aerase b4.requeue T } : BrokerState).ready
      bh.etype = some l ∧ bh ∈ l := by
  intro b2 b3 b4
  have hlen : bq.length ≠ 0 := by
    intro h0
    have hnil : bq = [] := List.length_eq_zero.1 h0
    rw [hnil] at hpop
    exact absurd hpop (by simp [heapPop])
  have hbq2 : alookup b2.blocked (evalKey e) = some bq := hbq
  have hb3 : b3 = enqueueLocked { b2 with
      blocked := if rest.length > 0 then ainsert b2.blocked (evalKey e) rest
                 else aerase b2.blocked (evalKey e)
      stats := { b2.stats with totalBlocked := b2.stats.totalBlocked - 1 } }
      bh bh.etype := by
    show (match alookup b2.blocked (evalKey e) with
      | none => b2
      | some blockedQ =>
        if blockedQ.length ≠ 0 then
          match heapPop evalLess blockedQ with
          | none => b2
          | some (beval, restQ) =>
            enqueueLocked { b2 with
              blocked := if restQ.length > 0 then
                           ainsert b2.blocked (evalKey e) restQ
                         else aerase b2.blocked (evalKey e)
              stats := { b2.stats with
                totalBlocked := b2.stats.totalBlocked - 1 } }
              beval beval.etype
        else b2) = _
    rw [hbq2]
    show (if bq.length ≠ 0 then
        match heapPop evalLess bq with
        | none => b2
        | some (beval, restQ) =>
          enqueueLocked { b2 with
            blocked := if restQ.length > 0 then
                         ainsert b2.blocked (evalKey e) restQ
                       else aerase b2.blocked (evalKey e)
            stats := { b2.stats with
              totalBlocked := b2.stats.totalBlocked - 1 } }
            beval beval.etype
      else b2) = _
    rw [if_pos hlen, hpop]
  obtain ⟨l3, hl3, hm3⟩ := enqueueLocked_mem
    { b2 with
      blocked := if rest.length > 0 then ainsert b2.blocked (evalKey e) rest
                 else aerase b2.blocked (evalKey e)
      stats := { b2.stats with totalBlocked := b2.stats.totalBlocked - 1 } }
    bh bh.etype hen (Or.inl (by
      show alookup (aerase b.jobEvals (evalKey e)) (evalKey bh) = none
      rw [hkey]
      exact alookup_aerase_self _ _))
  cases hq4 : alookup b3.requeue T with
  | none =>
    have hb4 : b4 = b3 := by
      show (match alookup b3.requeue T with
        | some ev => processEnqueue b3 ev none
        | none => b3) = b3
      rw [hq4]
    refine ⟨l3, ?_, hm3⟩
    show alookup ({ b4 with requeue := aerase b4.requeue T } :
      BrokerState).ready bh.etype = some l3
    rw [show ({ b4 with requeue := aerase b4.requeue T } :
      BrokerState).ready = b4.ready from rfl, hb4, hb3]
    exact hl3
  | some ev =>
    have hb4 : b4 = processEnqueue b3 ev none := by
      show (match alookup b3.requeue T with
        | some ev2 => processEnqueue b3 ev2 none
        | none => b3) = processEnqueue b3 ev none
      rw [hq4]
    have hl3' : alookup b3.ready bh.etype = some l3 := by
      rw [hb3]
      exact hl3
    obtain ⟨l4, hl4, hm4⟩ := mem_ready_processEnqueue b3 ev none bh.etype l3 bh
      hl3' hm3
    refine ⟨l4, ?_, hm4⟩
    show alookup ({ b4 with requeue := aerase b4.requeue T } :
      BrokerState).ready bh.etype = some l4
    rw [show ({ b4 with requeue := aerase b4.requeue T } :
      BrokerState).ready = b4.ready from rfl, hb4]
    exact hl4

/-! ## Concrete scenario states

A dummy broker used only as a `getD` fallback when destructing
`NewEvalBroker`'s `Option` on concrete runs; all scenario states come from
`NewEvalBroker`. -/

def dummyBroker : BrokerState :=
  { nackTimeout := 0, deliveryLimit := 0, enabled := false,
    stats := { totalReady := 0, totalUnacked := 0, totalBlocked := 0,
               totalWaiting := 0, bySched := [] },
    evals := [], jobEvals := [], blocked := [], ready := [], unack := [],
    waiting := [], requeue := [], timeWait := [], delayHeap := [],
    initialNackDelay := 0, subsequentNackDelay := 0, tokenCtr := 0 }

/-- Scenario for C1: two evals on class `A` (priorities 10 and 50, distinct
jobs) and one on class `B` (priority 30). -/
def evalA10 : Eval := ⟨"id1", "j1", "ns", "A", 10, 1, 0, 0⟩
def evalA50 : Eval := ⟨"id2", "j2", "ns", "A", 50, 2, 0, 0⟩
def evalB30 : Eval := ⟨"id3", "j3", "ns", "B", 30, 3, 0, 0⟩

def scanScenario : BrokerState :=
  Enqueue (Enqueue (Enqueue
    (SetEnabled ((NewEvalBroker 5 0 0 3).getD dummyBroker) true)
    evalA10) evalA50) evalB30

/-- C1: FALSIFIED BY THE CODE.  `PendingEvaluations.Peek` returns the last
slice element `p[n-1]`, while `heap.Pop` (which `dequeueForSched` uses)
returns the heap root `p[0]`; the two differ as soon as a ready queue holds
two evaluations.  In the concrete state below, class `A` holds priorities
`[50, 10]` as a heap (`Peek` sees 10, `heap.Pop` would return 50) and class
`B` holds priority 30; `Dequeue` on `{A, B}` returns the priority-30
evaluation even though a Pop-head of priority 50 exists, contradicting both
the claim and `Peek`'s own doc comment («peek at the next element that
would be popped»). -/
theorem scan_returns_nonmaximal_priority :
    scanEval (scanForSchedulers scanScenario ["A", "B"] 0) = some evalB30 ∧
    evalB30.priority = 30 ∧
    (heapPop evalLess ((alookup scanScenario.ready "A").getD [])).map
        (fun p => p.1.priority) = some 50 ∧
    pendingPeek ((alookup scanScenario.ready "A").getD []) = some evalA10 ∧
    evalA10.priority = 10 := by
  refine ⟨?_, rfl, ?_, ?_, rfl⟩ <;> rfl

/-- C5: the ready-queue comparator `Less` orders `a` before `b` by
descending priority exactly when both the job IDs and the priorities
differ, and by ascending `create_index` in every other case. -/
theorem evalLess_spec (a b : Eval) :
    evalLess a b = true ↔
      ((a.jobID ≠ b.jobID ∧ a.priority ≠ b.priority) ∧ a.priority > b.priority) ∨
      (¬(a.jobID ≠ b.jobID ∧ a.priority ≠ b.priority) ∧ a.createIndex < b.createIndex) := by
  unfold evalLess
  by_cases h : a.jobID ≠ b.jobID ∧ a.priority ≠ b.priority
  · have hne : a.priority ≠ b.priority := h.2
    rw [if_pos h]
    simp only [Bool.not_eq_true', decide_eq_false_iff_not]
    constructor
    · intro hnotlt
      exact Or.inl ⟨h, by omega⟩
    · rintro (⟨_, hgt⟩ | ⟨hc, _⟩)
      · omega
      · exact absurd h hc
  · rw [if_neg h]
    simp only [decide_eq_true_eq]
    constructor
    · intro hlt; exact Or.inr ⟨h, hlt⟩
    · rintro (⟨hc, _⟩ | ⟨_, hlt⟩)
      · exact absurd hc h
      · exact hlt

/-- C7: the nack re-enqueue back-off is `0` for `n ≤ 0`,
`initial_nack_delay` for `n = 1` and `(n-1) · subsequent_nack_delay` for
`n ≥ 2`, giving the sequence `0, initial, subsequent, 2·subsequent, …` over
successive Nacks. -/
theorem nackReenqueueDelay_spec (b : BrokerState) (e : Eval) :
    (∀ n : Int, n ≤ 0 → nackReenqueueDelay b e n = 0) ∧
    nackReenqueueDelay b e 1 = b.initialNackDelay ∧
    (∀ n : Int, 2 ≤ n → nackReenqueueDelay b e n = (n - 1) * b.subsequentNackDelay) := by
  refine ⟨fun n hn => ?_, ?_, fun n hn => ?_⟩
  · simp [nackReenqueueDelay, hn]
  · norm_num [nackReenqueueDelay]
  · have h0 : ¬ n ≤ 0 := by omega
    have h1 : ¬ n = 1 := by omega
    simp [nackReenqueueDelay, h0, h1]

theorem nackReenqueueDelay_spec_witness :
    nackReenqueueDelay dummyBroker evalA10 0 = 0 ∧
    nackReenqueueDelay dummyBroker evalA10 1 = dummyBroker.initialNackDelay ∧
    nackReenqueueDelay dummyBroker evalA10 3 = (3 - 1) * dummyBroker.subsequentNackDelay :=
  ⟨(nackReenqueueDelay_spec dummyBroker evalA10).1 0 (by decide),
   (nackReenqueueDelay_spec dummyBroker evalA10).2.1,
   (nackReenqueueDelay_spec dummyBroker evalA10).2.2 3 (by decide)⟩

/-- C8: `SetEnabled false` flushes: the attempt-counter table, the
job-representative table, the blocked and ready queues, the unack table,
the wait-channel map, the time-wait set and the delay heap are all empty,
and the stats snapshot is all-zero with an empty per-class map. -/
theorem setEnabled_false_flushes (b : BrokerState) :
    (SetEnabled b false).evals = [] ∧
    (SetEnabled b false).jobEvals = [] ∧
    (SetEnabled b false).blocked = [] ∧
    (SetEnabled b false).ready = [] ∧
    (SetEnabled b false).unack = [] ∧
    (SetEnabled b false).waiting = [] ∧
    (SetEnabled b false).timeWait = [] ∧
    (SetEnabled b false).delayHeap = [] ∧
    Stats (SetEnabled b false) =
      { totalReady := 0, totalUnacked := 0, totalBlocked := 0,
        totalWaiting := 0, bySched := [] } := by
  simp [SetEnabled, flush, Stats]

/-- C6: on an outstanding id with a matching token, `Ack` fails with the
acked-after-nack-timer-expired error exactly when `Timer.Stop` reports the
timer already fired, and in that case the state is unchanged except for the
requeue entry of the token, which is cleared. -/
theorem ack_after_nack_timer_spec (b : BrokerState) (id : String) (e : Eval) (t : Nat)
    (h : alookup b.unack id = some (e, t)) :
    (∀ stopped b' r, Ack b id t stopped = some (b', r) →
        (r = some ackMsgExpired ↔ stopped = false)) ∧
    Ack b id t false = some ({ b with requeue := aerase b.requeue t }, some ackMsgExpired) := by
  have hne : ¬ (t ≠ t) := fun hh => hh rfl
  have hack_false : Ack b id t false =
      some ({ b with requeue := aerase b.requeue t }, some ackMsgExpired) := by
    simp [Ack, h]
  refine ⟨?_, hack_false⟩
  intro stopped b' r hres
  cases stopped with
  | false =>
    rw [hack_false] at hres
    injection hres with hres2
    have hr := congrArg Prod.snd hres2
    simp only at hr
    simp [← hr]
  | true =>
    simp only [Ack, h, ne_eq, not_true_eq_false, if_false, Bool.not_true] at hres
    split at hres
    · rename_i hcontra
      exact absurd hcontra (by simp)
    · split at hres
      · exact absurd hres (by simp)
      · injection hres with hres2
        have hr := congrArg Prod.snd hres2
        simp only at hr
        constructor
        · intro hrr
          rw [← hr] at hrr
          exact absurd hrr (by simp)
        · intro hf; exact absurd hf (by simp)

/-- Witness state for C6: a broker with one outstanding delivery. -/
def ackWitnessBroker : BrokerState :=
  { dummyBroker with unack := [("idw", (evalA10, 7))] }

theorem ack_after_nack_timer_spec_witness :
    Ack ackWitnessBroker "idw" 7 false =
      some ({ ackWitnessBroker with requeue := aerase ackWitnessBroker.requeue 7 },
            some ackMsgExpired) :=
  (ack_after_nack_timer_spec ackWitnessBroker "idw" evalA10 7 rfl).2

/-! ## Concrete traces for the stats claims -/

def svcEval : Eval := ⟨"idX", "jX", "ns", "service", 10, 1, 0, 0⟩

/-- A fresh broker with `delivery_limit = 0`. -/
def limit0Init : BrokerState := (NewEvalBroker 5 0 0 0).getD dummyBroker

/-- Enable, enqueue one service eval, dequeue it once. -/
def limit0Scenario : BrokerState :=
  dequeueStep (Enqueue (SetEnabled limit0Init true) svcEval) ["service"] 0

/-- C9 counterexample: with `delivery_limit = 0`, after the very first
dequeue the attempt counter is `1 > 0 = delivery_limit`, so `Ack` charges
the `_failed` class — whose entry is absent from the per-class stats map
(nothing was ever enqueued on `_failed`).  The per-class decrement
dereferences the missing entry: `Ack` panics (`= none`).  This refutes the
claim at a concrete reachable state. -/
theorem ack_charge_class_missing :
    IsInit limit0Init ∧
    Reachable limit0Init limit0Scenario ∧
    alookup limit0Scenario.unack "idX" = some (svcEval, 0) ∧
    (cntOf limit0Scenario "idX" : Int) > limit0Scenario.deliveryLimit ∧
    alookup limit0Scenario.stats.bySched failedQueue = none ∧
    Ack limit0Scenario "idX" 0 true = none := by
  refine ⟨⟨5, 0, 0, 0, rfl⟩, ?_, rfl, by decide, rfl, rfl⟩
  exact Relation.ReflTransGen.tail
    (Relation.ReflTransGen.tail
      (Relation.ReflTransGen.single (Step.setEnabled limit0Init true))
      (Step.enqueue _ svcEval (by decide)))
    (Step.dequeue _ ["service"] 0)

/-- A fresh broker with `delivery_limit = 1`. -/
def limit1Init : BrokerState := (NewEvalBroker 5 0 0 1).getD dummyBroker

/-- Enable; enqueue; dequeue (token 0); Nack — the attempt counter `1 ≥
delivery_limit` routes the eval to `_failed`; dequeue from `_failed`
(token 1); Nack again. -/
def negUnackedScenario : BrokerState :=
  nackStep
    (dequeueStep
      (nackStep
        (dequeueStep (Enqueue (SetEnabled limit1Init true) svcEval) ["service"] 0)
        "idX" 0)
      [failedQueue] 0)
    "idX" 1

/-- C10 counterexample: the second dequeue charged the `_failed` class's
`Unacked`, but `Nack` always decrements the class named by the eval's own
`Type`; after Nacking the `_failed` delivery the `service` class's
`Unacked` counter is `-1`.  (`TotalUnacked` and the per-class sum still
agree — both are 0 here.) -/
theorem per_class_unacked_negative :
    IsInit limit1Init ∧
    Reachable limit1Init negUnackedScenario ∧
    alookup negUnackedScenario.stats.bySched "service" =
      some { ready := 0, unacked := -1 } ∧
    alookup negUnackedScenario.stats.bySched failedQueue =
      some { ready := 1, unacked := 1 } ∧
    negUnackedScenario.stats.totalUnacked = 0 := by
  refine ⟨⟨5, 0, 0, 1, rfl⟩, ?_, rfl, rfl, rfl⟩
  exact Relation.ReflTransGen.tail
    (Relation.ReflTransGen.tail
      (Relation.ReflTransGen.tail
        (Relation.ReflTransGen.tail
          (Relation.ReflTransGen.single (Step.setEnabled limit1Init true))
          (Step.enqueue _ svcEval (by decide)))
        (Step.dequeue _ ["service"] 0))
      (Step.nack _ "idX" 0))
    (Step.dequeue _ [failedQueue] 0) |>.tail (Step.nack _ "idX" 1)

/-- C9 (amended): in every reachable state with `delivery_limit ≥ 1`, the
per-class stats map holds an entry for the class `Ack` would charge for
any outstanding id — `_failed` when the attempt counter exceeds the limit,
the eval's own type otherwise — so the per-class decrement in `Ack` never
dereferences a missing entry and `Ack` never panics.  (With
`delivery_limit = 0` the `_failed` entry can be absent and `Ack` panics on
an eval Acked after its first delivery.) -/
theorem ack_charge_class_present (b0 b : BrokerState) (h0 : IsInit b0)
    (hr : Reachable b0 b) (hlim : 1 ≤ b.deliveryLimit) (i : String) (e : Eval)
    (t : Nat) (hu : alookup b.unack i = some (e, t)) :
    (alookup b.stats.bySched
      (if (cntOf b i : Int) > b.deliveryLimit then failedQueue
       else e.etype)).isSome ∧
    ∀ tok ts, Ack b i tok ts ≠ none := by
  have h := inv_reachable b0 b h0 hr
  have hcharge : (alookup b.stats.bySched
      (if (cntOf b i : Int) > b.deliveryLimit then failedQueue
       else e.etype)).isSome := by
    by_cases hgt : (cntOf b i : Int) > b.deliveryLimit
    · rw [if_pos hgt]
      exact h.unackChargeFailed hlim i e t hu hgt
    · rw [if_neg hgt]
      exact h.unackTypePresent i e t hu
  refine ⟨hcharge, ?_⟩
  intro tok ts hnone
  simp only [Ack, hu] at hnone
  split at hnone
  · exact absurd hnone (by simp)
  · split at hnone
    · exact absurd hnone (by simp)
    · split at hnone
      · rename_i hsls
        rw [hsls] at hcharge
        exact absurd hcharge (by simp)
      · exact absurd hnone (by simp)

/-- The state of the C9 witness: limit 1, one outstanding delivery. -/
def limit1Dequeued : BrokerState :=
  dequeueStep (Enqueue (SetEnabled limit1Init true) svcEval) ["service"] 0

theorem ack_charge_class_present_witness :
    1 ≤ limit1Dequeued.deliveryLimit ∧
    alookup limit1Dequeued.unack "idX" = some (svcEval, 0) ∧
    ((alookup limit1Dequeued.stats.bySched
      (if (cntOf limit1Dequeued "idX" : Int) > limit1Dequeued.deliveryLimit
       then failedQueue else svcEval.etype)).isSome ∧
     ∀ tok ts, Ack limit1Dequeued "idX" tok ts ≠ none) := by
  refine ⟨by decide, rfl, ?_⟩
  refine ack_charge_class_present limit1Init limit1Dequeued ⟨5, 0, 0, 1, rfl⟩ ?_
    (by decide) "idX" svcEval 0 rfl
  exact Relation.ReflTransGen.tail
    (Relation.ReflTransGen.tail
      (Relation.ReflTransGen.single (Step.setEnabled limit1Init true))
      (Step.enqueue _ svcEval (by decide)))
    (Step.dequeue _ ["service"] 0)

/-- C10 (amended): in every reachable state `TotalUnacked` equals the sum
of the per-class `Unacked` gauges and equals the number of unack entries,
hence is non-negative.  An individual per-class `Unacked` gauge can still
go negative, because `Nack` always decrements the class named by the
eval's own type even when the delivery was charged to `_failed`. -/
theorem total_unacked_consistency (b0 b : BrokerState) (h0 : IsInit b0)
    (hr : Reachable b0 b) :
    b.stats.totalUnacked = sumUnackedOf b.stats.bySched ∧
    b.stats.totalUnacked = b.unack.length ∧
    0 ≤ b.stats.totalUnacked := by
  have h := inv_reachable b0 b h0 hr
  refine ⟨h.sumUnacked, h.lenUnacked, ?_⟩
  rw [h.lenUnacked]
  exact Int.natCast_nonneg _

theorem total_unacked_consistency_witness :
    negUnackedScenario.stats.totalUnacked =
      sumUnackedOf negUnackedScenario.stats.bySched ∧
    negUnackedScenario.stats.totalUnacked = negUnackedScenario.unack.length ∧
    0 ≤ negUnackedScenario.stats.totalUnacked := by
  refine total_unacked_consistency limit1Init negUnackedScenario ⟨5, 0, 0, 1, rfl⟩ ?_
  exact Relation.ReflTransGen.tail
    (Relation.ReflTransGen.tail
      (Relation.ReflTransGen.tail
        (Relation.ReflTransGen.tail
          (Relation.ReflTransGen.single (Step.setEnabled limit1Init true))
          (Step.enqueue _ svcEval (by decide)))
        (Step.dequeue _ ["service"] 0))
      (Step.nack _ "idX" 0))
    (Step.dequeue _ [failedQueue] 0) |>.tail (Step.nack _ "idX" 1)

/-- C3: on every successful `Nack`, the eval is admitted to the `_failed`
ready queue when its attempt counter has reached `delivery_limit`, parked
behind a wait timer when the computed back-off is positive, and pushed
onto its own class's ready queue otherwise; and (the delivery-limit bound)
every eval resident in a non-`_failed` ready queue has been dequeued at
most `delivery_limit` times, so it is handed out at most
`delivery_limit + 1` times before being routed to `_failed`. -/
theorem nack_routing_spec (b0 b : BrokerState) (h0 : IsInit b0)
    (hr : Reachable b0 b) :
    (∀ evalID token b', Nack b evalID token = some (b', none) →
      ∃ e, alookup b.unack evalID = some (e, token) ∧
        (((cntOf b evalID : Int) ≥ b.deliveryLimit ∧
           ∃ l, alookup b'.ready failedQueue = some l ∧ e ∈ l) ∨
         ((cntOf b evalID : Int) < b.deliveryLimit ∧
           0 < nackReenqueueDelay b e (cntOf b evalID : Int) ∧
           alookup b'.timeWait evalID =
             some { e with wait := nackReenqueueDelay b e (cntOf b evalID : Int) }) ∨
         ((cntOf b evalID : Int) < b.deliveryLimit ∧
           nackReenqueueDelay b e (cntOf b evalID : Int) ≤ 0 ∧
           ∃ l, alookup b'.ready e.etype = some l ∧
             { e with wait := nackReenqueueDelay b e (cntOf b evalID : Int) } ∈ l))) ∧
    (∀ q l e, alookup b.ready q = some l → e ∈ l → q ≠ failedQueue →
      0 ≤ b.deliveryLimit → (cntOf b e.id : Int) + 1 ≤ b.deliveryLimit + 1) := by
  have h := inv_reachable b0 b h0 hr
  constructor
  · intro evalID token b' hres
    simp only [Nack] at hres
    split at hres
    · injection hres with hres
      injection hres with h1 h2
      exact absurd h2 (by simp)
    · rename_i eval tok hu
      split at hres
      · injection hres with hres
        injection hres with h1 h2
        exact absurd h2 (by simp)
      · rename_i htok
        have htok' : tok = token := by omega
        subst htok'
        have hu' : alookup b.unack evalID = some (eval, tok) := hu
        have heid : eval.id = evalID := h.unackIdEq evalID eval tok hu'
        subst heid
        have hrep : alookup b.jobEvals (evalKey eval) = some eval.id :=
          h.unackRep eval.id eval tok hu'
        have hen : b.enabled = true := by
          cases hb : b.enabled with
          | false =>
            have hemp := (h.disabledEmpty hb).2.2.1
            rw [hemp] at hu'
            exact absurd hu' (by simp [alookup])
          | true => rfl
        split at hres
        · exact absurd hres (by simp)
        · rename_i sls hsls
          split at hres
          · rename_i hge
            injection hres with hres
            injection hres with h1 h2
            subst h1
            have hge' : (cntOf b eval.id : Int) ≥ b.deliveryLimit := hge
            refine ⟨eval, hu', Or.inl ⟨hge', ?_⟩⟩
            exact enqueueLocked_mem _ eval failedQueue hen (Or.inr hrep)
          · rename_i hge
            have hlt : (cntOf b eval.id : Int) < b.deliveryLimit := by
              have hh : ¬((cntOf b eval.id : Int) ≥ b.deliveryLimit) := hge
              omega
            split at hres
            · rename_i hw
              injection hres with hres
              injection hres with h1 h2
              subst h1
              have hw' : 0 < nackReenqueueDelay b eval (cntOf b eval.id : Int) := hw
              refine ⟨eval, hu', Or.inr (Or.inl ⟨hlt, hw', ?_⟩)⟩
              exact alookup_ainsert_self _ _ _
            · rename_i hw
              injection hres with hres
              injection hres with h1 h2
              subst h1
              have hw' : nackReenqueueDelay b eval (cntOf b eval.id : Int) ≤ 0 := by
                have hh : ¬(0 < nackReenqueueDelay b eval (cntOf b eval.id : Int)) := hw
                omega
              refine ⟨eval, hu', Or.inr (Or.inr ⟨hlt, hw', ?_⟩)⟩
              exact enqueueLocked_mem _ _ _ hen (Or.inr hrep)
  · intro q l e hq he hqf hlim0
    have hcnt := h.readyCnt q l e hq he hqf
    rcases max_cases (b.deliveryLimit - 1) 0 with ⟨hm, _⟩ | ⟨hm, _⟩ <;>
      rw [hm] at hcnt <;> omega

theorem nack_routing_spec_witness :
    (∀ evalID token b',
      Nack limit1Dequeued evalID token = some (b', none) →
      ∃ e, alookup limit1Dequeued.unack evalID = some (e, token) ∧
        (((cntOf limit1Dequeued evalID : Int) ≥ limit1Dequeued.deliveryLimit ∧
           ∃ l, alookup b'.ready failedQueue = some l ∧ e ∈ l) ∨
         ((cntOf limit1Dequeued evalID : Int) < limit1Dequeued.deliveryLimit ∧
           0 < nackReenqueueDelay limit1Dequeued e
             (cntOf limit1Dequeued evalID : Int) ∧
           alookup b'.timeWait evalID =
             some { e with wait := (nackReenqueueDelay limit1Dequeued e
               (cntOf limit1Dequeued evalID : Int)) }) ∨
         ((cntOf limit1Dequeued evalID : Int) < limit1Dequeued.deliveryLimit ∧
           nackReenqueueDelay limit1Dequeued e
             (cntOf limit1Dequeued evalID : Int) ≤ 0 ∧
           ∃ l, alookup b'.ready e.etype = some l ∧
             { e with wait := (nackReenqueueDelay limit1Dequeued e
               (cntOf limit1Dequeued evalID : Int)) } ∈ l))) ∧
    (∀ q l e, alookup limit1Dequeued.ready q = some l → e ∈ l →
      q ≠ failedQueue → 0 ≤ limit1Dequeued.deliveryLimit →
      (cntOf limit1Dequeued e.id : Int) + 1 ≤ limit1Dequeued.deliveryLimit + 1) := by
  refine nack_routing_spec limit1Init limit1Dequeued ⟨5, 0, 0, 1, rfl⟩ ?_
  exact Relation.ReflTransGen.tail
    (Relation.ReflTransGen.tail
      (Relation.ReflTransGen.single (Step.setEnabled limit1Init true))
      (Step.enqueue _ svcEval (by decide)))
    (Step.dequeue _ ["service"] 0)

/-- C4: the requeue lifecycle.  While an id is outstanding with token `T`,
an `EnqueueAll` entry carrying `T` (and matching the unacked token for the
eval's id) is recorded in the requeue table under `T` with no other state
change; a subsequent `Ack` with token `T` re-enqueues the recorded eval
fresh (its attempt counter restarts at zero); a `Nack` drops it (the
attempt-counter table is untouched); and both `Ack` and `Nack` clear the
requeue entry for `T` on every return path, error returns included. -/
theorem requeue_lifecycle (b0 b : BrokerState) (h0 : IsInit b0)
    (hr : Reachable b0 b) :
    (∀ E2 T u, b.enabled = true → (alookup b.evals E2.id).isSome →
      alookup b.unack E2.id = some (u, T) →
      processEnqueue b E2 (some T) = { b with requeue := ainsert b.requeue T E2 }) ∧
    (∀ evalID T e E2 u b',
      alookup b.unack evalID = some (e, T) →
      alookup b.requeue T = some E2 →
      alookup b.unack E2.id = some (u, T) →
      Ack b evalID T true = some (b', none) →
      E2.id = evalID ∧ alookup b'.evals E2.id = some 0 ∧
        alookup b'.requeue T = none) ∧
    (∀ evalID T b' r, Nack b evalID T = some (b', r) →
      b'.evals = b.evals ∧ alookup b'.requeue T = none) ∧
    (∀ evalID T ts b' r, Ack b evalID T ts = some (b', r) →
      alookup b'.requeue T = none) := by
  have h := inv_reachable b0 b h0 hr
  refine ⟨?_, ?_, ?_, ?_⟩
  · intro E2 T u hen hdup hu
    simp only [processEnqueue, hu]
    rw [if_neg (by rw [hen]; simp), if_pos hdup, if_pos trivial]
  · intro evalID T e E2 u b' hu hrq hu2 hres
    have hE2id : E2.id = evalID := h.tokensInj E2.id u evalID e T hu2 hu
    subst hE2id
    have hen : b.enabled = true := by
      cases hb : b.enabled with
      | false =>
        have hemp := (h.disabledEmpty hb).2.2.1
        rw [hemp] at hu
        exact absurd hu (by simp [alookup])
      | true => rfl
    simp only [Ack] at hres
    split at hres
    · rename_i hnone
      rw [hu] at hnone
      exact absurd hnone (by simp)
    · rename_i eval tok hueq
      rw [hu] at hueq
      injection hueq with hueq
      injection hueq with he1 he2
      subst he1
      subst he2
      split at hres
      · rename_i hne
        exact absurd rfl hne
      · split at hres
        · injection hres with hres
          injection hres with h1 h2
          exact absurd h2 (by simp)
        · split at hres
          · exact absurd hres (by simp)
          · rename_i sls hsls
            injection hres with hres
            injection hres with h1 h2
            subst h1
            refine ⟨rfl, ?_, ?_⟩
            · exact ack_requeue_reenqueue b E2 e T sls
                (if (cntOf b E2.id : Int) > b.deliveryLimit then failedQueue
                 else e.etype) hen hrq
            · exact alookup_aerase_self _ _
  · intro evalID T b' r hres
    simp only [Nack] at hres
    split at hres
    · injection hres with hres
      injection hres with h1 h2
      subst h1
      exact ⟨rfl, alookup_aerase_self _ _⟩
    · rename_i eval tok hu
      split at hres
      · injection hres with hres
        injection hres with h1 h2
        subst h1
        exact ⟨rfl, alookup_aerase_self _ _⟩
      · split at hres
        · exact absurd hres (by simp)
        · rename_i sls hsls
          split at hres
          · injection hres with hres
            injection hres with h1 h2
            subst h1
            constructor
            · rw [enqueueLocked_evals]
            · rw [enqueueLocked_requeue]
              exact alookup_aerase_self _ _
          · split at hres
            · injection hres with hres
              injection hres with h1 h2
              subst h1
              exact ⟨rfl, alookup_aerase_self _ _⟩
            · injection hres with hres
              injection hres with h1 h2
              subst h1
              constructor
              · rw [enqueueLocked_evals]
              · rw [enqueueLocked_requeue]
                exact alookup_aerase_self _ _
  · intro evalID T ts b' r hres
    simp only [Ack] at hres
    split at hres
    · injection hres with hres
      injection hres with h1 h2
      subst h1
      exact alookup_aerase_self _ _
    · split at hres
      · injection hres with hres
        injection hres with h1 h2
        subst h1
        exact alookup_aerase_self _ _
      · split at hres
        · injection hres with hres
          injection hres with h1 h2
          subst h1
          exact alookup_aerase_self _ _
        · split at hres
          · exact absurd hres (by simp)
          · injection hres with hres
            injection hres with h1 h2
            subst h1
            exact alookup_aerase_self _ _

theorem requeue_lifecycle_witness :
    (∀ E2 T u, limit1Dequeued.enabled = true →
      (alookup limit1Dequeued.evals E2.id).isSome →
      alookup limit1Dequeued.unack E2.id = some (u, T) →
      processEnqueue limit1Dequeued E2 (some T) =
        { limit1Dequeued with
          requeue := ainsert limit1Dequeued.requeue T E2 }) ∧
    (∀ evalID T e E2 u b',
      alookup limit1Dequeued.unack evalID = some (e, T) →
      alookup limit1Dequeued.requeue T = some E2 →
      alookup limit1Dequeued.unack E2.id = some (u, T) →
      Ack limit1Dequeued evalID T true = some (b', none) →
      E2.id = evalID ∧ alookup b'.evals E2.id = some 0 ∧
        alookup b'.requeue T = none) ∧
    (∀ evalID T b' r, Nack limit1Dequeued evalID T = some (b', r) →
      b'.evals = limit1Dequeued.evals ∧ alookup b'.requeue T = none) ∧
    (∀ evalID T ts b' r, Ack limit1Dequeued evalID T ts = some (b', r) →
      alookup b'.requeue T = none) := by
  refine requeue_lifecycle limit1Init limit1Dequeued ⟨5, 0, 0, 1, rfl⟩ ?_
  exact Relation.ReflTransGen.tail
    (Relation.ReflTransGen.tail
      (Relation.ReflTransGen.single (Step.setEnabled limit1Init true))
      (Step.enqueue _ svcEval (by decide)))
    (Step.dequeue _ ["service"] 0)

/-- C2: per-job serialization.  In every reachable state, at most one
evaluation of any job key `(namespace, job_id)` is present across the ready
queues and the unack table combined; every blocked evaluation carries its
queue's job key and its id is absent from ready ∪ unack; and when a
successful `Ack` finds the acked job's blocked queue non-empty, the popped
head is admitted to its own class's ready queue of the resulting state. -/
theorem per_job_serialization (b0 b : BrokerState) (h0 : IsInit b0)
    (hr : Reachable b0 b) :
    (∀ k : NamespacedID,
      ((readyEvals b ++ unackEvals b).filter
        (fun e => evalKey e = k)).length ≤ 1) ∧
    (∀ k l e, alookup b.blocked k = some l → e ∈ l →
      evalKey e = k ∧ e.id ∉ (readyEvals b ++ unackEvals b).map Eval.id) ∧
    (∀ evalID T e tok bq bh rest b',
      alookup b.unack evalID = some (e, tok) →
      alookup b.blocked (evalKey e) = some bq →
      heapPop evalLess bq = some (bh, rest) →
      Ack b evalID T true = some (b', none) →
      ∃ l, alookup b'.ready bh.etype = some l ∧ bh ∈ l) := by
  have h := inv_reachable b0 b h0 hr
  refine ⟨?_, ?_, ?_⟩
  · intro k
    rcases hk : alookup b.jobEvals k with _ | rrep
    · have hnil : (readyEvals b ++ unackEvals b).filter
          (fun e => evalKey e = k) = [] := by
        refine List.filter_eq_nil_iff.2 ?_
        intro e he hpe
        have hke : evalKey e = k := of_decide_eq_true hpe
        have hrep := readyUnack_rep b h e he
        rw [hke, hk] at hrep
        exact absurd hrep (by simp)
      rw [hnil]
      simp
    · refine length_filter_le_one_of_id _ _ rrep (readyUnack_ids_nodup b h) ?_
      intro e he hpe
      have hke : evalKey e = k := of_decide_eq_true hpe
      have hrep := readyUnack_rep b h e he
      rw [hke, hk] at hrep
      injection hrep with hrep
      exact hrep.symm
  · intro k l e hk he
    refine ⟨h.blockedKey k l e hk he, ?_⟩
    intro hmem
    have hB : e.id ∈ idsMS b.blocked := mem_idsMS_of b.blocked k l e hk he
    obtain ⟨_, hdRB, _, _, _, hdBU, _⟩ := occ_parts b h.occND
    rw [List.map_append, List.mem_append] at hmem
    rcases hmem with hmR | hmU
    · have h1 : e.id ∈ idsMS b.ready := by
        rw [idsMS_readyEvals]
        exact Multiset.mem_coe.2 hmR
      exact Multiset.disjoint_left.1 hdRB h1 hB
    · have h2 : e.id ∈ keysMS b.unack := by
        rw [unackEvals_ids b h] at hmU
        exact Multiset.mem_coe.2 hmU
      exact Multiset.disjoint_left.1 hdBU hB h2
  · intro evalID T e tok bq bh rest b' hu hbq hpop hres
    have hp := heapPop_perm evalLess bq bh rest hpop
    have hbm : bh ∈ bq := hp.mem_iff.2 (List.mem_cons_self _ _)
    have hkey : evalKey bh = evalKey e := h.blockedKey (evalKey e) bq bh hbq hbm
    have hen : b.enabled = true := by
      cases hb : b.enabled with
      | false =>
        have hemp := (h.disabledEmpty hb).2.2.1
        rw [hemp] at hu
        exact absurd hu (by simp [alookup])
      | true => rfl
    simp only [Ack] at hres
    split at hres
    · rename_i hnone
      rw [hu] at hnone
      exact absurd hnone (by simp)
    · rename_i eval tok2 hueq
      rw [hu] at hueq
      injection hueq with hueq
      injection hueq with he1 he2
      subst he1
      subst he2
      split at hres
      · injection hres with hres
        injection hres with h1 h2
        exact absurd h2 (by simp)
      · split at hres
        · injection hres with hres
          injection hres with h1 h2
          exact absurd h2 (by simp)
        · split at hres
          · exact absurd hres (by simp)
          · rename_i sls hsls
            injection hres with hres
            injection hres with h1 h2
            subst h1
            exact ack_blocked_promote_mem b evalID e bh bq rest T sls
              (if (cntOf b evalID : Int) > b.deliveryLimit then failedQueue
               else e.etype) hen hbq hpop hkey

theorem per_job_serialization_witness :
    (∀ k : NamespacedID,
      ((readyEvals limit1Dequeued ++ unackEvals limit1Dequeued).filter
        (fun e => evalKey e = k)).length ≤ 1) ∧
    (∀ k l e, alookup limit1Dequeued.blocked k = some l → e ∈ l →
      evalKey e = k ∧
      e.id ∉ (readyEvals limit1Dequeued ++ unackEvals limit1Dequeued).map
        Eval.id) ∧
    (∀ evalID T e tok bq bh rest b',
      alookup limit1Dequeued.unack evalID = some (e, tok) →
      alookup limit1Dequeued.blocked (evalKey e) = some bq →
      heapPop evalLess bq = some (bh, rest) →
      Ack limit1Dequeued evalID T true = some (b', none) →
      ∃ l, alookup b'.ready bh.etype = some l ∧ bh ∈ l) := by
  refine per_job_serialization limit1Init limit1Dequeued ⟨5, 0, 0, 1, rfl⟩ ?_
  exact Relation.ReflTransGen.tail
    (Relation.ReflTransGen.tail
      (Relation.ReflTransGen.single (Step.setEnabled limit1Init true))
      (Step.enqueue _ svcEval (by decide)))
    (Step.dequeue _ ["service"] 0)

end EvalBrokerProof
